import Mathlib

/-!
Verification of the simple-redis core against its natural-language
specification.  The C++ sources are shallowly embedded: byte strings are
`List Nat`, machine integers are `Nat`/`Int` with explicit reductions mod
`2^64` where the C++ computes in `uint64_t`, fallible operations return
`Option`, and stateful code is explicit state passing.
-/

set_option maxRecDepth 6000

/-- Byte strings (`std::string` used as a binary-safe byte container). -/
abbrev ByteStr := List Nat

namespace SimpleRedis

/-! ## RedisObject (src/store/RedisObject.h, RedisObject.cpp) -/

/-- `RedisObject::Type` — the phase under verification has only STRING. -/
inductive RType where
  | STRING
deriving DecidableEq, Repr

/-- `RedisObject::Encoding`. -/
inductive REncoding where
  | RAW
  | INTEGER
deriving DecidableEq, Repr

/-- `struct RedisObject`. -/
structure RedisObject where
  type : RType := .STRING
  encoding : REncoding := .RAW
  strValue : ByteStr := []
  intValue : Int := 0
deriving DecidableEq, Repr

/-- ASCII space classification used by `strtoll` (`isspace` in the C locale):
space (32) and the control characters 9–13. -/
def isSpaceByte (c : Nat) : Bool := c == 32 || (9 ≤ c && c ≤ 13)

/-- ASCII decimal digit. -/
def isDigitByte (c : Nat) : Bool := 48 ≤ c && c ≤ 57

/-- Value of a list of ASCII digit bytes, most significant first. -/
def decValue (ds : ByteStr) : Nat := ds.foldl (fun acc d => 10 * acc + (d - 48)) 0

/-- Result of the C `strtoll(nptr, &end, 10)` call on a byte string:
`consumed` is `end - nptr`, `overflow` reports `errno == ERANGE`. -/
structure StrtollResult where
  value : Int
  consumed : Nat
  overflow : Bool
deriving DecidableEq, Repr

/-- Length of the optional sign token (`+` = 43, `-` = 45) at the head of the
post-whitespace remainder. -/
def strtollSignLen (rest : ByteStr) : Nat :=
  if rest.head? = some 43 ∨ rest.head? = some 45 then 1 else 0

/-- Whether the parsed number is negated. -/
def strtollNeg (rest : ByteStr) : Bool := rest.head? = some 45

/-- The digit run following the optional sign. -/
def strtollDigits (rest : ByteStr) : ByteStr :=
  (rest.drop (strtollSignLen rest)).takeWhile isDigitByte

/-- The signed value of the digit run. -/
def strtollValue (rest : ByteStr) : Int :=
  if strtollNeg rest then -(decValue (strtollDigits rest) : Int)
  else (decValue (strtollDigits rest) : Int)

/-- Model of `std::strtoll(s, &end, 10)`: skip C-locale whitespace, accept an
optional `+`/`-` sign, then consume decimal digits.  If no digit is consumed,
`end` is reset to the start of the string (`consumed = 0`).  On overflow of
`int64_t` the real function clamps and sets `errno = ERANGE`; the model
reports the unclamped value together with the `overflow` flag. -/
def strtoll10 (s : ByteStr) : StrtollResult :=
  if (strtollDigits (s.dropWhile isSpaceByte)).isEmpty then
    { value := 0, consumed := 0, overflow := false }
  else
    { value := strtollValue (s.dropWhile isSpaceByte)
      consumed := (s.takeWhile isSpaceByte).length +
        strtollSignLen (s.dropWhile isSpaceByte) +
        (strtollDigits (s.dropWhile isSpaceByte)).length
      overflow := decide (strtollValue (s.dropWhile isSpaceByte) < -(2 ^ 63 : Int) ∨
        (2 ^ 63 : Int) - 1 < strtollValue (s.dropWhile isSpaceByte)) }

/-- `RedisObject::createString` (RedisObject.cpp:7-30).  Attempts INTEGER
encoding: the `strtoll` parse must consume the entire string (`end ==
start + val.size()`) with `errno == 0`; the additional `LLONG_MIN/MAX`
bounds test in the source is vacuously true and therefore not repeated. -/
def RedisObject.createString (val : ByteStr) : RedisObject :=
  if val ≠ [] then
    let r := strtoll10 val
    if r.consumed = val.length ∧ r.overflow = false then
      { type := .STRING, encoding := .INTEGER, intValue := r.value }
    else
      { type := .STRING, encoding := .RAW, strValue := val }
  else
    { type := .STRING, encoding := .RAW, strValue := val }

/-- Decimal digits of `n` (ASCII bytes), via an explicit fuel argument so the
definition is structurally recursive; `fuel ≥ number of digits` suffices. -/
def natDecAux : Nat → Nat → ByteStr
  | 0, _ => []
  | fuel + 1, n => if n = 0 then [] else natDecAux fuel (n / 10) ++ [48 + n % 10]

/-- ASCII decimal spelling of a natural number (`std::to_string`). -/
def natDec (n : Nat) : ByteStr := if n = 0 then [48] else natDecAux n n

/-- ASCII decimal spelling of an integer (`std::to_string(int64_t)`). -/
def intDec (i : Int) : ByteStr :=
  if i < 0 then 45 :: natDec (-i).toNat else natDec i.toNat

/-- `RedisObject::asString` (RedisObject.cpp:32-37). -/
def RedisObject.asString (o : RedisObject) : ByteStr :=
  if o.encoding = .INTEGER then intDec o.intValue else o.strValue

/-- Specification-side value of a sign token followed by a digit string. -/
def signedVal (sgn ds : ByteStr) : Int :=
  if sgn = [45] then -(decValue ds : Int) else (decValue ds : Int)

example : (RedisObject.createString [49, 50, 51]).encoding = .INTEGER := by decide
example : (RedisObject.createString [49, 50, 51]).asString = [49, 50, 51] := by decide
example : (RedisObject.createString [48, 48, 55]).asString = [55] := by decide
example : (RedisObject.createString [97]).encoding = .RAW := by decide
example : (RedisObject.createString [32, 53]).encoding = .INTEGER := by decide
example : (RedisObject.createString []).encoding = .RAW := by decide

/-! ## Connection read/write drivers (src/net/Buffer.cpp, Connection part) -/

/-- Outcome of the `read(2)`/`write(2)` syscall as seen by the connection:
a positive transfer count, an end-of-file (zero), or `-1` with an `errno`. -/
inductive IOOutcome where
  | transferred (n : Nat)
  | eof
  | err (errno : Nat)
deriving DecidableEq, Repr

/-- The `errno` constants the connection driver inspects (Linux values). -/
def EAGAIN : Nat := 11
def EWOULDBLOCK : Nat := 11
def EINTR : Nat := 4
def ECONNRESET : Nat := 104

/-- `Connection::handleRead` (Buffer.cpp:106-126), reduced to its
alive/dead decision as a function of the syscall outcome.
`true` means the connection stays alive. -/
def handleReadAlive (r : IOOutcome) : Bool :=
  match r with
  | .transferred _ => true
  | .eof => false
  | .err e => if e = EAGAIN || e = EWOULDBLOCK then true else false

/-- `Connection::handleWrite` (Buffer.cpp:128-147), alive/dead decision;
`outPending` is whether the outgoing buffer holds bytes (the early-return
case), and a zero-length `write` is reported as alive. -/
def handleWriteAlive (outPending : Bool) (r : IOOutcome) : Bool :=
  if !outPending then true
  else match r with
  | .transferred _ => true
  | .eof => true
  | .err e => if e = EAGAIN || e = EWOULDBLOCK then true else false

example : handleReadAlive (.err EAGAIN) = true := by decide
example : handleReadAlive (.err EINTR) = false := by decide
example : handleReadAlive .eof = false := by decide

/-! ## I/O Buffer (src/net/Buffer.cpp) -/

/-- `class Buffer`: a `std::vector<uint8_t>` with read and write cursors.
`data.length` is the vector's size (the buffer's capacity `cap`). -/
structure Buffer where
  data : List Nat
  readPos : Nat
  writePos : Nat
deriving DecidableEq, Repr

namespace Buffer

/-- The default-constructed buffer: no pre-allocation (Buffer.cpp:6-11). -/
def empty : Buffer := ⟨[], 0, 0⟩

/-- `Buffer::writableBytes` (Buffer.cpp:17-19). -/
def writableBytes (b : Buffer) : Nat := b.data.length - b.writePos

/-- `Buffer::readableBytes` (Buffer.cpp:31-33). -/
def readableBytes (b : Buffer) : Nat := b.writePos - b.readPos

/-- The bytes of the readable region `[readPos, writePos)`. -/
def readableContent (b : Buffer) : ByteStr :=
  (b.data.take b.writePos).drop b.readPos

/-- Modelled from the spec: `kInitialCapacity` lives in the repository's
`net/Buffer.h`, which is not among the provided sources; §3 and §4.A of the
spec fix the initial allocation at 4096. -/
def kInitialCapacity : Nat := 4096

/-- `Buffer::consume` (Buffer.cpp:35-47): advance the read cursor, resetting
both cursors when everything has been consumed (Tier 1). -/
def consume (b : Buffer) (n : Nat) : Buffer :=
  let r := b.readPos + n
  if r = b.writePos then ⟨b.data, 0, 0⟩ else ⟨b.data, r, b.writePos⟩

/-- The capacity-doubling loop of Tier 3 (Buffer.cpp:86-88), with explicit
fuel for structural recursion; `newCap` at least doubles each step, so
`needed` iterations always suffice. -/
def growLoop : Nat → Nat → Nat → Nat
  | 0, newCap, _ => newCap
  | fuel + 1, newCap, needed => if newCap < needed then growLoop fuel (newCap * 2) needed else newCap

/-- `Buffer::ensureWritableBytes` (Buffer.cpp:55-90).  Tier 2 compacts by
`memmove`-ing the readable bytes to the front (bytes beyond them keep their
old values); Tier 3 compacts and then doubles the capacity from
`kInitialCapacity` until `writePos + len` fits (`resize` zero-fills). -/
def ensureWritableBytes (b : Buffer) (len : Nat) : Buffer :=
  if len ≤ b.writableBytes then b
  else
    let readable := b.readableBytes
    let compacted := b.readableContent ++ b.data.drop readable
    if readable + len ≤ b.data.length then
      ⟨compacted, 0, readable⟩
    else
      let needed := readable + len
      let newCap := growLoop needed (if b.data.length = 0 then kInitialCapacity else b.data.length) needed
      ⟨compacted ++ List.replicate (newCap - b.data.length) 0, 0, readable⟩

/-- `Buffer::advanceWrite` (Buffer.cpp:21-25). -/
def advanceWrite (b : Buffer) (n : Nat) : Buffer := ⟨b.data, b.readPos, b.writePos + n⟩

/-- Writing `bytes` into the writable region starting at `writePos`
(the `memcpy` of `Buffer::append`). -/
def writeAt (b : Buffer) (bytes : ByteStr) : Buffer :=
  ⟨b.data.take b.writePos ++ bytes ++ b.data.drop (b.writePos + bytes.length),
   b.readPos, b.writePos⟩

/-- `Buffer::append` (Buffer.cpp:49-53). -/
def append (b : Buffer) (bytes : ByteStr) : Buffer :=
  ((b.ensureWritableBytes bytes.length).writeAt bytes).advanceWrite bytes.length

/-- Cursor sanity: `readPos ≤ writePos ≤ data.length`. -/
def WF (b : Buffer) : Prop :=
  b.readPos ≤ b.writePos ∧ b.writePos ≤ b.data.length

end Buffer

/-- Client-visible buffer operations for the preservation property
(spec §8, "Buffer preservation"). -/
inductive BufOp where
  | append (bytes : ByteStr)
  | consume (n : Nat)
deriving DecidableEq, Repr

/-- One buffer operation. -/
def bufStep (b : Buffer) : BufOp → Buffer
  | .append bs => b.append bs
  | .consume n => b.consume n

/-- A sequence of buffer operations. -/
def bufExec (b : Buffer) : List BufOp → Buffer
  | [] => b
  | op :: rest => bufExec (bufStep b op) rest

/-- Every `consume` in the sequence consumes at most the readable count at
its point of execution (the claim's side condition, and `consume`'s
assertion). -/
def ValidOps : Buffer → List BufOp → Prop
  | _, [] => True
  | b, .append bs :: rest => ValidOps (b.append bs) rest
  | b, .consume n :: rest => n ≤ b.readableBytes ∧ ValidOps (b.consume n) rest

/-- The specification-level content: append concatenates, consume drops. -/
def specContent (c : ByteStr) : List BufOp → ByteStr
  | [] => c
  | .append bs :: rest => specContent (c ++ bs) rest
  | .consume n :: rest => specContent (c.drop n) rest

example : (Buffer.empty.append [7, 8]).readableContent = [7, 8] := by decide

/-! ## RESP2 parser (src/proto/RespParser.cpp = unnamed part_011) -/

namespace RespParser

/-- Byte access `data[i]` on the readable slice. -/
def byteAt (data : ByteStr) (i : Nat) : Nat := data.getD i 0

/-- Search loop of `RespParser::findCRLF` with explicit fuel
(`fuel = data.length - i` at the first call). -/
def findCRLFAux : ByteStr → Nat → Nat → Option Nat
  | _, _, 0 => none
  | data, i, fuel + 1 =>
    if i + 1 < data.length then
      if byteAt data i = 13 ∧ byteAt data (i + 1) = 10 then some i
      else findCRLFAux data (i + 1) fuel
    else none

/-- `RespParser::findCRLF` (part_011:7-16): index of the first `\r\n` at or
after `offset`, or `none`. -/
def findCRLF (data : ByteStr) (offset : Nat) : Option Nat :=
  if data.length < offset + 2 then none
  else findCRLFAux data offset (data.length - offset)

/-- Model of `std::atoi`: same grammar as `strtoll` base 10 (whitespace,
optional sign, digits; 0 when no digit).  Overflow of `int` is undefined
behaviour in the source and is not modelled (counts that large never arise
in the verified properties). -/
def atoiVal (s : ByteStr) : Int := (strtoll10 s).value

/-- The bulk-string loop of `RespParser::parseArray` (part_011:41-83),
structurally recursive on the remaining element count.  Returns the parsed
arguments together with the final cursor `pos`. -/
def parseBulks (data : ByteStr) : Nat → Nat → Option (List ByteStr × Nat)
  | 0, pos => some ([], pos)
  | n + 1, pos =>
    if pos ≥ data.length then none
    else if byteAt data pos ≠ 36 then none
    else
      match findCRLF data (pos + 1) with
      | none => none
      | some lenCRLF =>
        let lenStr := (data.drop (pos + 1)).take (lenCRLF - (pos + 1))
        let bulkLen := atoiVal lenStr
        if bulkLen < 0 then
          match parseBulks data n (lenCRLF + 2) with
          | none => none
          | some (as, p) => some ([] :: as, p)
        else
          let dataStart := lenCRLF + 2
          let dataEnd := dataStart + bulkLen.toNat
          if dataEnd + 2 > data.length then none
          else if byteAt data dataEnd ≠ 13 ∨ byteAt data (dataEnd + 1) ≠ 10 then none
          else
            match parseBulks data n (dataEnd + 2) with
            | none => none
            | some (as, p) => some ((data.drop dataStart).take bulkLen.toNat :: as, p)

/-- `RespParser::parseArray` (part_011:19-87). -/
def parseArray (data : ByteStr) : Option (List ByteStr × Nat) :=
  match findCRLF data 1 with
  | none => none
  | some crlfPos =>
    let countStr := (data.drop 1).take (crlfPos - 1)
    let count := atoiVal countStr
    if count < 0 then some ([], crlfPos + 2)
    else parseBulks data count.toNat (crlfPos + 2)

/-- The space-splitting loop of `RespParser::parseInline` (part_011:100-112),
with fuel for structural recursion. -/
def splitSpaces : Nat → ByteStr → List ByteStr
  | 0, _ => []
  | fuel + 1, l =>
    let l' := l.dropWhile (· == 32)
    match l' with
    | [] => []
    | _ :: _ => l'.takeWhile (· ≠ 32) :: splitSpaces fuel (l'.dropWhile (· ≠ 32))

/-- `RespParser::parseInline` (part_011:90-115). -/
def parseInline (data : ByteStr) : Option (List ByteStr × Nat) :=
  match findCRLF data 0 with
  | none => none
  | some crlfPos =>
    let line := data.take crlfPos
    some (splitSpaces line.length line, crlfPos + 2)

/-- Dispatch on the first byte (`*` = 42), as in `RespParser::parse`. -/
def parseBytes (data : ByteStr) : Option (List ByteStr × Nat) :=
  if byteAt data 0 = 42 then parseArray data else parseInline data

/-- `RespParser::parse` (part_011:118-139): run the byte-level parser over the
readable region; consume the frame's bytes only on success. -/
def parse (buf : Buffer) : Option (List ByteStr) × Buffer :=
  if buf.readableBytes = 0 then (none, buf)
  else
    match parseBytes buf.readableContent with
    | none => (none, buf)
    | some (args, n) => (some args, buf.consume n)

end RespParser

section RespParserTests
-- "*1\r\n$4\r\nPING\r\n" parses to ["PING"] consuming 14 bytes.
example : RespParser.parseBytes
    [42, 49, 13, 10, 36, 52, 13, 10, 80, 73, 78, 71, 13, 10] =
    some ([[80, 73, 78, 71]], 14) := by decide
-- Incomplete frame: header only.
example : RespParser.parseBytes [42, 49, 13, 10, 36, 52, 13, 10, 80] = none := by decide
-- Null array "*-1\r\n" consumes 5 bytes and yields the empty command.
example : RespParser.parseBytes [42, 45, 49, 13, 10] = some ([], 5) := by decide
-- Inline "PING EXTRA\r\n" splits on spaces.
example : RespParser.parseBytes [80, 73, 78, 71, 32, 32, 88, 13, 10] =
    some ([[80, 73, 78, 71], [88]], 9) := by decide
-- Null bulk "$-1\r\n" inside an array yields an empty argument.
example : RespParser.parseBytes [42, 49, 13, 10, 36, 45, 49, 13, 10] =
    some ([[]], 9) := by decide
end RespParserTests

/-! ## HashTable (src/store/HashTable.h, HashTable.cpp) -/

/-- FNV-1a/64 offset basis (HashTable.cpp:8). -/
def fnvOffsetBasis : Nat := 14695981039346656037

/-- FNV-1a/64 prime (HashTable.cpp:9). -/
def fnvPrime : Nat := 1099511628211

/-- `HashTable::hash` (HashTable.cpp:11-18): FNV-1a over the key bytes in
`uint64_t` arithmetic. -/
def fnv1a (key : ByteStr) : Nat :=
  key.foldl (fun h c => ((h ^^^ c) * fnvPrime) % 2 ^ 64) fnvOffsetBasis

/-- `struct HTEntry` (HashTable.h).  The chain `next` pointer is the list
structure of the slot's chain. -/
structure HTEntry where
  key : ByteStr
  value : RedisObject
  hashCode : Nat
  expireAt : Int
deriving DecidableEq, Repr

/-- `HashTable::Table` (HashTable.h): an array of chain heads plus cached
capacity, mask and entry count.  A chain is the list of entries reached from
one slot's head pointer; the null `slots` array of a default table is the
empty list. -/
structure Table where
  slots : List (List HTEntry)
  capacity : Nat
  mask : Nat
  size : Nat
deriving DecidableEq, Repr

/-- The default (freed / null) table. -/
def Table.empty : Table := ⟨[], 0, 0, 0⟩

/-- `HashTable::allocTable` (HashTable.cpp:22-31). -/
def allocTable (capacity : Nat) : Table :=
  ⟨List.replicate capacity [], capacity, capacity - 1, 0⟩

/-- Chain head at slot `i` (out-of-range reads never occur in the source). -/
def Table.slot (t : Table) (i : Nat) : List HTEntry := t.slots.getD i []

/-- The chain walk of `HashTable::findInTable` (HashTable.cpp:70-77). -/
def findInChain (chain : List HTEntry) (key : ByteStr) (h : Nat) : Option HTEntry :=
  chain.find? (fun e => e.hashCode == h && e.key == key)

/-- `HashTable::findInTable` (HashTable.cpp:66-78). -/
def findInTable (t : Table) (key : ByteStr) (h : Nat) : Option HTEntry :=
  if t.slots.isEmpty then none
  else findInChain (t.slot (Nat.land h t.mask)) key h

/-- The chain unlink of `HashTable::delFromTable` (HashTable.cpp:150-165):
remove the first entry matching `(h, key)`; report whether one was found. -/
def delFromChain : List HTEntry → ByteStr → Nat → List HTEntry × Bool
  | [], _, _ => ([], false)
  | e :: rest, key, h =>
    if e.hashCode = h ∧ e.key = key then (rest, true)
    else
      let (rest', found) := delFromChain rest key h
      (e :: rest', found)

/-- `HashTable::delFromTable` (HashTable.cpp:145-167). -/
def delFromTable (t : Table) (key : ByteStr) (h : Nat) : Table × Bool :=
  if t.slots.isEmpty then (t, false)
  else
    let idx := Nat.land h t.mask
    let (chain', found) := delFromChain (t.slot idx) key h
    if found then
      ({ t with slots := t.slots.set idx chain', size := t.size - 1 }, true)
    else (t, false)

/-- In-place overwrite of the first `(h, key)` match
(`existing->value = std::move(value)`, HashTable.cpp:116-121). -/
def overwriteInChain : List HTEntry → ByteStr → Nat → RedisObject → List HTEntry
  | [], _, _, _ => []
  | e :: rest, key, h, v =>
    if e.hashCode = h ∧ e.key = key then { e with value := v } :: rest
    else e :: overwriteInChain rest key h v

/-- In-place expiry update of the first `(h, key)` match
(`entry->expireAt = expireAtMs`, Database.cpp:87 / Database.cpp:96). -/
def setExpireInChain : List HTEntry → ByteStr → Nat → Int → List HTEntry
  | [], _, _, _ => []
  | e :: rest, key, h, t =>
    if e.hashCode = h ∧ e.key = key then { e with expireAt := t } :: rest
    else e :: setExpireInChain rest key h t

/-- The dictionary (`class HashTable`). -/
structure HashTable where
  primary : Table
  rehash : Table
  isRehashing : Bool
  rehashIdx : Nat
deriving DecidableEq, Repr

namespace HashTable

/-- The default-constructed dictionary (HashTable.cpp:54-57). -/
def empty : HashTable := ⟨Table.empty, Table.empty, false, 0⟩

/-- `kInitialCapacity` (HashTable.h). -/
def kInitialCapacity : Nat := 4

/-- `kRehashBatchSize` (HashTable.h). -/
def kRehashBatchSize : Nat := 128

/-- `HashTable::find` (HashTable.cpp:80-92). -/
def find (s : HashTable) (key : ByteStr) : Option HTEntry :=
  let h := fnv1a key
  match findInTable s.primary key h with
  | some e => some e
  | none => if s.isRehashing then findInTable s.rehash key h else none

/-- `HashTable::size` (HashTable.cpp:189-191). -/
def size (s : HashTable) : Nat := s.primary.size + s.rehash.size

/-- `HashTable::keys` (HashTable.cpp:195-213): all keys, primary first. -/
def keys (s : HashTable) : List ByteStr :=
  (s.primary.slots.flatMap id).map (·.key) ++ (s.rehash.slots.flatMap id).map (·.key)

/-- `HashTable::triggerRehash` (HashTable.cpp:217-228). -/
def triggerRehash (s : HashTable) : HashTable :=
  { primary := allocTable (s.primary.capacity * 2)
    rehash := s.primary
    isRehashing := true
    rehashIdx := 0 }

/-- The empty-slot skip loop of `HashTable::migrateOneSlot`
(HashTable.cpp:232-235), with fuel for structural recursion
(`fuel = capacity` always suffices). -/
def skipEmpty (slots : List (List HTEntry)) (cap : Nat) : Nat → Nat → Nat
  | 0, idx => idx
  | fuel + 1, idx =>
    if idx < cap ∧ (slots.getD idx []).isEmpty then skipEmpty slots cap fuel (idx + 1)
    else idx

/-- Re-inserting one chain into `primary` at the cached hashes
(HashTable.cpp:245-257): entries are prepended one at a time. -/
def migrateChain (chain : List HTEntry) (p : Table) : Table :=
  chain.foldl
    (fun p e =>
      let idx := Nat.land e.hashCode p.mask
      { p with slots := p.slots.set idx (e :: p.slot idx), size := p.size + 1 })
    p

/-- `HashTable::migrateOneSlot` (HashTable.cpp:230-270). -/
def migrateOneSlot (s : HashTable) : HashTable :=
  let idx := skipEmpty s.rehash.slots s.rehash.capacity s.rehash.capacity s.rehashIdx
  if idx ≥ s.rehash.capacity then
    { s with rehash := Table.empty, isRehashing := false, rehashIdx := 0 }
  else
    let chain := s.rehash.slot idx
    let primary' := migrateChain chain s.primary
    let rehash' : Table :=
      { s.rehash with slots := s.rehash.slots.set idx [], size := s.rehash.size - chain.length }
    if rehash'.size = 0 then
      { primary := primary', rehash := Table.empty, isRehashing := false, rehashIdx := 0 }
    else
      { primary := primary', rehash := rehash', isRehashing := s.isRehashing, rehashIdx := idx + 1 }

/-- `HashTable::rehashStep` (HashTable.cpp:272-277). -/
def rehashStep (s : HashTable) : Nat → HashTable
  | 0 => s
  | n + 1 => if s.isRehashing then rehashStep (migrateOneSlot s) n else s

/-- The up-front incremental-rehash work shared by `HashTable::set` and
`HashTable::del` (HashTable.cpp:98-100, 171-173). -/
def rehashWork (s : HashTable) : HashTable :=
  if s.isRehashing then s.rehashStep kRehashBatchSize else s

/-- The old-table delete of `HashTable::set` (HashTable.cpp:104-107). -/
def dropFromOld (s : HashTable) (key : ByteStr) (h : Nat) : HashTable :=
  if s.isRehashing then { s with rehash := (delFromTable s.rehash key h).1 } else s

/-- The lazy primary allocation of `HashTable::set` (HashTable.cpp:109-112). -/
def lazyAlloc (s : HashTable) : HashTable :=
  if s.primary.slots.isEmpty then { s with primary := allocTable kInitialCapacity } else s

/-- The overwrite-or-insert tail of `HashTable::set` (HashTable.cpp:114-140). -/
def setTail (s : HashTable) (key : ByteStr) (h : Nat) (v : RedisObject) : HashTable :=
  let idx := Nat.land h s.primary.mask
  match findInChain (s.primary.slot idx) key h with
  | some _ =>
    { s with primary :=
        { s.primary with slots := s.primary.slots.set idx (overwriteInChain (s.primary.slot idx) key h v) } }
  | none =>
    let entry : HTEntry := ⟨key, v, h, -1⟩
    let p : Table :=
      { s.primary with
        slots := s.primary.slots.set idx (entry :: s.primary.slot idx)
        size := s.primary.size + 1 }
    let s := { s with primary := p }
    if s.isRehashing = false ∧ 2 * s.primary.capacity < s.primary.size then s.triggerRehash
    else s

/-- `HashTable::set` (HashTable.cpp:96-141): rehash work, old-table delete,
lazy allocation, then overwrite-or-insert. -/
def set (s : HashTable) (key : ByteStr) (v : RedisObject) : HashTable :=
  setTail (lazyAlloc (dropFromOld (rehashWork s) key (fnv1a key))) key (fnv1a key) v

/-- `HashTable::del` (HashTable.cpp:169-185). -/
def del (s : HashTable) (key : ByteStr) : HashTable × Bool :=
  let s := rehashWork s
  let h := fnv1a key
  let (p', found) := delFromTable s.primary key h
  if found then ({ s with primary := p' }, true)
  else if s.isRehashing then
    let (r', found') := delFromTable s.rehash key h
    ({ s with rehash := r' }, found')
  else (s, false)

/-- The `entry->expireAt = t` write that `Database::setExpire` and
`Database::removeExpire` perform through the pointer returned by
`HashTable::find` (Database.cpp:80-98), embedded as a functional update at
the entry's location: primary first, then (during rehashing) the old table. -/
def setEntryExpire (s : HashTable) (key : ByteStr) (t : Int) : HashTable :=
  let h := fnv1a key
  match findInTable s.primary key h with
  | some _ =>
    let idx := Nat.land h s.primary.mask
    { s with primary :=
        { s.primary with slots := s.primary.slots.set idx (setExpireInChain (s.primary.slot idx) key h t) } }
  | none =>
    if s.isRehashing then
      match findInTable s.rehash key h with
      | some _ =>
        let idx := Nat.land h s.rehash.mask
        { s with rehash :=
            { s.rehash with slots := s.rehash.slots.set idx (setExpireInChain (s.rehash.slot idx) key h t) } }
      | none => s
    else s

end HashTable

/-- All entries of a table, slot by slot, chain order preserved. -/
def Table.entries (t : Table) : List HTEntry := t.slots.flatMap id

/-- The keys of a list of entries, in order. -/
def entryKeys (es : List HTEntry) : List ByteStr := es.map (fun e => e.key)

/-- Structural well-formedness of one table, per the INV comments in
HashTable.h/HashTable.cpp: the slot array has `capacity` cells,
`mask == capacity - 1`, `size` counts the chained entries, and every entry
caches the FNV-1a hash of its key and sits in the slot selected by that
hash. -/
def Table.WF (t : Table) : Prop :=
  t.slots.length = t.capacity ∧
  t.mask = t.capacity - 1 ∧
  t.size = t.entries.length ∧
  ∀ i, i < t.slots.length → ∀ e ∈ t.slots.getD i [],
    e.hashCode = fnv1a e.key ∧ Nat.land e.hashCode t.mask = i

instance (t : Table) : Decidable (Table.WF t) := by
  unfold Table.WF
  infer_instance

namespace HashTable

/-- All entries of the dictionary, primary table first. -/
def entriesOf (s : HashTable) : List HTEntry := s.primary.entries ++ s.rehash.entries

/-- Dictionary well-formedness, per the INV comments in HashTable.cpp: both
tables are well-formed, the old table is freed (null) when not rehashing,
both capacities are positive while rehashing, every old-table slot below
`rehashIdx` has been drained, and no key occurs twice across the two
tables. -/
def WF (s : HashTable) : Prop :=
  Table.WF s.primary ∧ Table.WF s.rehash ∧
  (s.isRehashing = false → s.rehash = Table.empty) ∧
  (s.isRehashing = true → 0 < s.primary.capacity ∧ 0 < s.rehash.capacity) ∧
  (s.isRehashing = true → ∀ i, i < s.rehashIdx → s.rehash.slots.getD i [] = []) ∧
  (entryKeys (entriesOf s)).Nodup

instance (s : HashTable) : Decidable (WF s) := by
  unfold WF
  infer_instance

end HashTable

/-- The dictionary operations of claim C2 (spec §8 "Rehashing invariance"). -/
inductive DOp where
  | set (k : ByteStr) (v : RedisObject)
  | del (k : ByteStr)
  | rehashStep (n : Nat)
deriving DecidableEq, Repr

/-- One dictionary operation (`del` keeps the resulting table). -/
def dStep (s : HashTable) : DOp → HashTable
  | .set k v => s.set k v
  | .del k => (s.del k).1
  | .rehashStep n => s.rehashStep n

/-- A sequence of dictionary operations. -/
def dExec : HashTable → List DOp → HashTable
  | s, [] => s
  | s, op :: rest => dExec (dStep s op) rest

/-- Reference model for C2: drop every binding of `k`. -/
def specErase (m : List (ByteStr × RedisObject)) (k : ByteStr) :
    List (ByteStr × RedisObject) :=
  m.filter (fun p => !(p.1 == k))

/-- Reference model for C2: last-writer-wins bind of `k`. -/
def specInsert (m : List (ByteStr × RedisObject)) (k : ByteStr) (v : RedisObject) :
    List (ByteStr × RedisObject) :=
  (k, v) :: specErase m k

/-- Reference model for C2: the value of the last `set` of `k` not followed
by a `del` of `k`. -/
def specLookup (m : List (ByteStr × RedisObject)) (k : ByteStr) : Option RedisObject :=
  (m.find? (fun p => p.1 == k)).map (·.2)

/-- The model transition for one operation. -/
def specStep (m : List (ByteStr × RedisObject)) : DOp → List (ByteStr × RedisObject)
  | .set k v => specInsert m k v
  | .del k => specErase m k
  | .rehashStep _ => m

/-- The model run over a sequence of operations. -/
def specExec : List (ByteStr × RedisObject) → List DOp → List (ByteStr × RedisObject)
  | m, [] => m
  | m, op :: rest => specExec (specStep m op) rest

section HashTableTests

/-- Insert keys `[i]` for `i < n` (distinct one-byte keys). -/
def insertRange (n : Nat) : HashTable :=
  (List.range n).foldl (fun s i => s.set [i] (RedisObject.createString [i])) .empty

example : (insertRange 3).find [1] ≠ none := by decide
example : (insertRange 3).find [7] = none := by decide
example : (insertRange 3).size = 3 := by decide
-- The 9th insert pushes load factor over 2.0 on the capacity-4 table.
example : (insertRange 8).isRehashing = false := by decide
example : (insertRange 9).isRehashing = true := by decide
example : (insertRange 9).primary.capacity = 8 := by decide
example : (insertRange 9).size = 9 := by decide
-- The next mutating call drains the 4-slot rehash table.
example : (insertRange 10).isRehashing = false := by decide
example : (insertRange 10).size = 10 := by decide
example : ((insertRange 10).del [3]).2 = true := by decide
example : (((insertRange 10).del [3]).1).find [3] = none := by decide
example : ((insertRange 10).del [77]).2 = false := by decide

end HashTableTests

/-! ## TTLHeap (src/store/TTLHeap.h = unnamed part_008, TTLHeap.cpp) -/

/-- `struct HeapEntry`. -/
structure HeapEntry where
  key : ByteStr
  expireAtMs : Int
deriving DecidableEq, Repr

/-! Association-list model of `std::unordered_map<std::string, size_t>`:
`insert` is `operator[]` assignment (replace or add), `erase` removes the
binding, `lookup` is `find`. -/
namespace AList

def lookup (m : List (ByteStr × Nat)) (k : ByteStr) : Option Nat :=
  (m.find? (fun p => p.1 == k)).map (·.2)

def insert : List (ByteStr × Nat) → ByteStr → Nat → List (ByteStr × Nat)
  | [], k, v => [(k, v)]
  | (k', v') :: rest, k, v =>
    if k' = k then (k, v) :: rest else (k', v') :: insert rest k v

def erase : List (ByteStr × Nat) → ByteStr → List (ByteStr × Nat)
  | [], _ => []
  | (k', v') :: rest, k => if k' = k then rest else (k', v') :: erase rest k

end AList

/-- The TTL index (`class TTLHeap`): the heap array plus the key-to-position
map. -/
structure TTLHeap where
  heap : List HeapEntry
  map : List (ByteStr × Nat)
deriving DecidableEq, Repr

namespace TTLHeap

/-- `heap_[i]` (indices are always in bounds in the source). -/
def hget (l : List HeapEntry) (i : Nat) : HeapEntry := l.getD i ⟨[], 0⟩

def empty : TTLHeap := ⟨[], []⟩

/-- `TTLHeap::swapEntries` (TTLHeap.cpp:147-152): swap the array cells, then
re-point the map at the keys now stored at `a` and `b`. -/
def swapEntries (st : TTLHeap) (a b : Nat) : TTLHeap :=
  let heap' := (st.heap.set a (hget st.heap b)).set b (hget st.heap a)
  let m := AList.insert st.map (hget heap' a).key a
  ⟨heap', AList.insert m (hget heap' b).key b⟩

/-- `TTLHeap::siftUp` (TTLHeap.cpp:117-124), fuel-recursive (`fuel = idx`
suffices: the index strictly decreases to its parent). -/
def siftUp (st : TTLHeap) : Nat → Nat → TTLHeap
  | 0, _ => st
  | fuel + 1, idx =>
    if idx > 0 then
      let parent := (idx - 1) / 2
      if (hget st.heap parent).expireAtMs ≤ (hget st.heap idx).expireAtMs then st
      else siftUp (st.swapEntries idx parent) fuel parent
    else st

/-- `TTLHeap::siftDown` (TTLHeap.cpp:126-145), fuel-recursive
(`fuel = heap.length` suffices: the index strictly increases). -/
def siftDown (st : TTLHeap) : Nat → Nat → TTLHeap
  | 0, _ => st
  | fuel + 1, idx =>
    let len := st.heap.length
    let left := 2 * idx + 1
    let right := 2 * idx + 2
    let s1 := if left < len ∧ (hget st.heap left).expireAtMs < (hget st.heap idx).expireAtMs
      then left else idx
    let s2 := if right < len ∧ (hget st.heap right).expireAtMs < (hget st.heap s1).expireAtMs
      then right else s1
    if s2 = idx then st else siftDown (st.swapEntries idx s2) fuel s2

/-- The append–sift path of `TTLHeap::push` (TTLHeap.cpp:16-23). -/
def pushNew (st : TTLHeap) (k : ByteStr) (t : Int) : TTLHeap :=
  let idx := st.heap.length
  let st' : TTLHeap := ⟨st.heap ++ [⟨k, t⟩], AList.insert st.map k idx⟩
  siftUp st' idx idx

/-- The overwrite–sift path of `TTLHeap::update` (TTLHeap.cpp:59-65). -/
def updateExisting (st : TTLHeap) (idx : Nat) (t : Int) : TTLHeap :=
  let st' : TTLHeap := ⟨st.heap.set idx ⟨(hget st.heap idx).key, t⟩, st.map⟩
  siftDown (siftUp st' idx idx) st'.heap.length idx

/-- `TTLHeap::push` (TTLHeap.cpp:8-24): delegates to `update` when the key is
already present. -/
def push (st : TTLHeap) (k : ByteStr) (t : Int) : TTLHeap :=
  match AList.lookup st.map k with
  | some idx => updateExisting st idx t
  | none => pushNew st k t

/-- `TTLHeap::update` (TTLHeap.cpp:51-69): delegates to `push` when the key is
absent. -/
def update (st : TTLHeap) (k : ByteStr) (t : Int) : TTLHeap :=
  match AList.lookup st.map k with
  | some idx => updateExisting st idx t
  | none => pushNew st k t

/-- `TTLHeap::remove` (TTLHeap.cpp:26-49). -/
def remove (st : TTLHeap) (k : ByteStr) : TTLHeap :=
  match AList.lookup st.map k with
  | none => st
  | some idx =>
    let lastIdx := st.heap.length - 1
    let st := if idx ≠ lastIdx then st.swapEntries idx lastIdx else st
    let st : TTLHeap := ⟨st.heap.dropLast, AList.erase st.map (hget st.heap lastIdx).key⟩
    if idx < st.heap.length then siftUp (siftDown st st.heap.length idx) idx idx else st

/-- The bounded pop loop of `TTLHeap::popExpired` (TTLHeap.cpp:71-105);
the fuel is the remaining work budget. -/
def popLoop (now : Int) : TTLHeap → Nat → TTLHeap × List ByteStr
  | st, 0 => (st, [])
  | st, fuel + 1 =>
    if st.heap.isEmpty then (st, [])
    else if now < (hget st.heap 0).expireAtMs then (st, [])
    else
      let key := (hget st.heap 0).key
      let lastIdx := st.heap.length - 1
      let st := if 0 < lastIdx then st.swapEntries 0 lastIdx else st
      let st : TTLHeap := ⟨st.heap.dropLast, AList.erase st.map (hget st.heap lastIdx).key⟩
      let st := if st.heap.isEmpty then st else siftDown st st.heap.length 0
      let (st', keys) := popLoop now st fuel
      (st', key :: keys)

/-- `TTLHeap::popExpired` (TTLHeap.cpp:71-105); `maxWork` is an `int`, and a
non-positive budget admits no iterations. -/
def popExpired (st : TTLHeap) (now : Int) (maxWork : Int) : TTLHeap × List ByteStr :=
  popLoop now st maxWork.toNat

def size (st : TTLHeap) : Nat := st.heap.length

/-- Parent index in the implicit binary heap layout. -/
def parentIdx (i : Nat) : Nat := (i - 1) / 2

/-- The key-to-position map is exactly the index of each heap entry
(INV-2/INV-3 comments in TTLHeap.cpp), with no duplicate map keys. -/
def Sync (st : TTLHeap) : Prop :=
  (∀ i, i < st.heap.length → AList.lookup st.map (hget st.heap i).key = some i) ∧
  (∀ p ∈ st.map, p.2 < st.heap.length ∧ (hget st.heap p.2).key = p.1) ∧
  (st.map.map Prod.fst).Nodup

/-- The min-heap ordering on deadlines (spec §4.F invariant). -/
def IsMinHeapL (l : List HeapEntry) : Prop :=
  ∀ i, 0 < i → i < l.length →
    (hget l (parentIdx i)).expireAtMs ≤ (hget l i).expireAtMs

/-- The full TTL-index invariant. -/
def Inv (st : TTLHeap) : Prop := Sync st ∧ IsMinHeapL st.heap

/-- Heap ordering everywhere except on the edge into `idx`, with `idx`'s
children bounded by `idx`'s parent: the precondition `siftUp idx` restores
a full heap from. -/
def SiftUpOK (l : List HeapEntry) (idx : Nat) : Prop :=
  (∀ c, 0 < c → c < l.length → c ≠ idx →
    (hget l (parentIdx c)).expireAtMs ≤ (hget l c).expireAtMs) ∧
  (∀ c, 0 < c → c < l.length → parentIdx c = idx → 0 < idx →
    (hget l (parentIdx idx)).expireAtMs ≤ (hget l c).expireAtMs)

/-- Heap ordering everywhere except on the edges out of `idx`, with `idx`'s
children bounded by `idx`'s parent: the precondition `siftDown idx` restores
a full heap from. -/
def SiftDownOK (l : List HeapEntry) (idx : Nat) : Prop :=
  (∀ c, 0 < c → c < l.length → parentIdx c ≠ idx →
    (hget l (parentIdx c)).expireAtMs ≤ (hget l c).expireAtMs) ∧
  (∀ c, 0 < c → c < l.length → parentIdx c = idx → 0 < idx →
    (hget l (parentIdx idx)).expireAtMs ≤ (hget l c).expireAtMs)

end TTLHeap

/-- The TTL-index operations of the claim (spec §8 "TTL heap"). -/
inductive HOp where
  | push (k : ByteStr) (t : Int)
  | update (k : ByteStr) (t : Int)
  | remove (k : ByteStr)
  | popExpired (now : Int) (w : Int)
deriving DecidableEq, Repr

/-- One TTL-index operation (`popExpired` keeps the resulting state). -/
def hStep (st : TTLHeap) : HOp → TTLHeap
  | .push k t => st.push k t
  | .update k t => st.update k t
  | .remove k => st.remove k
  | .popExpired now w => (st.popExpired now w).1

/-- A sequence of TTL-index operations from the empty index. -/
def hExec (st : TTLHeap) : List HOp → TTLHeap
  | [] => st
  | op :: rest => hExec (hStep st op) rest

section TTLHeapTests

def heapT1 : TTLHeap :=
  ((((TTLHeap.empty.push [1] 50).push [2] 10).push [3] 30).push [4] 20).push [5] 40

example : (TTLHeap.hget heapT1.heap 0).expireAtMs = 10 := by decide
example : heapT1.heap.length = 5 ∧ heapT1.map.length = 5 := by decide
example : (heapT1.popExpired 25 10).2 = [[2], [4]] := by decide
example : (heapT1.popExpired 100 2).2.length = 2 := by decide
example : (heapT1.remove [2]).heap.length = 4 := by decide
example : AList.lookup (heapT1.remove [2]).map [2] = none := by decide
example : (TTLHeap.hget (heapT1.remove [2]).heap 0).expireAtMs = 20 := by decide
example : (heapT1.update [5] 1).heap.length = 5 := by decide
example : (TTLHeap.hget (heapT1.update [5] 1).heap 0).key = [5] := by decide
example : heapT1.remove [9] = heapT1 := by decide

end TTLHeapTests

/-! ## Database (src/store/Database.h, Database.cpp)

`nowMs()` reads the wall clock; the embedding passes the current time as an
explicit argument. -/

structure Database where
  table : HashTable
  ttlHeap : TTLHeap
deriving DecidableEq, Repr

namespace Database

def empty : Database := ⟨HashTable.empty, TTLHeap.empty⟩

/-- The test of `Database::checkAndExpire` (Database.cpp:13-20): an entry is
expired when it has a deadline and the clock has reached it. -/
def expired (now : Int) (e : HTEntry) : Prop := 0 ≤ e.expireAt ∧ e.expireAt ≤ now

instance (now : Int) (e : HTEntry) : Decidable (expired now e) := by
  unfold expired; infer_instance

/-- `Database::get` (Database.cpp:22-32): one rehash step, find, lazy expiry
(removing from the TTL heap and the table), else the string view of the
value. -/
def get (db : Database) (now : Int) (key : ByteStr) : Option ByteStr × Database :=
  let t1 := db.table.rehashStep HashTable.kRehashBatchSize
  match t1.find key with
  | none => (none, { db with table := t1 })
  | some e =>
    if expired now e then
      let ttl' := db.ttlHeap.remove key
      let t2 := (t1.del key).1
      (none, ⟨t2, ttl'⟩)
    else (some e.value.asString, { db with table := t1 })

/-- `Database::set` (Database.cpp:34-47): clear the TTL-heap entry, insert or
overwrite via `HashTable::set`, then reset `expireAt` through the found
entry. -/
def set (db : Database) (key value : ByteStr) : Database :=
  let ttl' := db.ttlHeap.remove key
  let t1 := db.table.set key (RedisObject.createString value)
  let t2 := t1.setEntryExpire key (-1)
  ⟨t2, ttl'⟩

end Database

/-! ## AOF writer — background-rewrite completion
(persistence/AOFWriter.h and AOFWriter.cpp = unnamed part_004)

The file system is abstracted to the two files the function touches: the
content at the live AOF path and the content at the temp path (`none` when
the temp file does not exist).  `fdGen` identifies the open live descriptor;
it is incremented exactly when the old descriptor is closed and the file is
reopened (the "fd replacement" of the claim).  The outcomes of the fallible
syscalls (`waitpid`, `open`, `rename`) are inputs. -/

/-- Result of `waitpid(pid, &status, WNOHANG)` combined with the
`WIFEXITED`/`WEXITSTATUS` tests. -/
inductive WaitResult where
  /-- `waitpid` returned 0: the child is still running. -/
  | stillRunning
  /-- The child terminated normally with this exit status. -/
  | exited (code : Nat)
  /-- `waitpid` failed, or the child died without a normal exit. -/
  | abnormal
deriving DecidableEq, Repr

/-- The observable steps of `AOFWriter::checkRewriteComplete`, in program
order. -/
inductive AOFAction where
  | openTemp
  | appendRewriteBuffer
  | fsyncTemp
  | closeTemp
  | renameTempOverLive
  | closeOldFd
  | reopenLive
  | unlinkTemp
  | logWarning
deriving DecidableEq, Repr

/-- The rewrite-relevant state of `AOFWriter`. -/
structure AOFState where
  /-- Bytes at the live AOF path. -/
  live : ByteStr
  /-- Bytes at the temp path, `none` when absent. -/
  temp : Option ByteStr
  /-- Identity of the open live fd; bumped when the fd is replaced. -/
  fdGen : Nat
  /-- `fd_ >= 0`. -/
  fdOpen : Bool
  /-- `isRewriting_`. -/
  isRewriting : Bool
  /-- `rewriteChildPid_ >= 0`. -/
  hasChild : Bool
  /-- `rewriteBuffer_`: RESP frames logged since the fork. -/
  rewriteBuffer : List ByteStr
deriving DecidableEq, Repr

/-- `AOFWriter::checkRewriteComplete` (part_004:311-362).  `w` is the
`waitpid` outcome; `openTempOk`, `renameOk`, `reopenOk` are the outcomes of
the respective syscalls.  Returns the new state and the trace of performed
steps in program order. -/
def checkRewriteComplete (st : AOFState) (w : WaitResult)
    (openTempOk renameOk reopenOk : Bool) : AOFState × List AOFAction :=
  if !st.hasChild then (st, [])
  else
    match w with
    | .stillRunning => (st, [])
    | .exited 0 =>
      let cleared := fun (s : AOFState) =>
        { s with rewriteBuffer := [], isRewriting := false, hasChild := false }
      if openTempOk then
        let merged := (st.temp.getD []) ++ st.rewriteBuffer.flatten
        let st1 := { st with temp := some merged }
        if renameOk then
          let st2 := { st1 with
            live := merged
            temp := none
            fdGen := st1.fdGen + 1
            fdOpen := reopenOk }
          (cleared st2,
           [.openTemp, .appendRewriteBuffer, .fsyncTemp, .closeTemp,
            .renameTempOverLive, .closeOldFd, .reopenLive])
        else
          (cleared st1,
           [.openTemp, .appendRewriteBuffer, .fsyncTemp, .closeTemp, .logWarning])
      else
        (cleared st, [.logWarning])
    | _ =>
      ({ st with temp := none, rewriteBuffer := [], isRewriting := false, hasChild := false },
       [.logWarning, .unlinkTemp])

/-! ## Claim C9 — retryability of interrupted reads and writes

The specification lists both "would block" and "interrupted" as retryable,
but `Connection::handleRead`/`handleWrite` (Buffer.cpp:106-147) test only
`EAGAIN`/`EWOULDBLOCK`; a read or write failing with `EINTR` falls through
to the "real I/O error" branch and the connection is reported dead. -/

/-- C9: on a read or write failing with the "interrupted" error (`EINTR`),
the drivers report the connection dead, while would-block errors and
successful transfers are reported alive and a zero-length read is reported
dead — contradicting the claim that interrupted errors are retryable. -/
theorem handle_read_write_interrupted_dead :
    handleReadAlive (.err EINTR) = false ∧
    handleWriteAlive true (.err EINTR) = false ∧
    handleReadAlive (.err EAGAIN) = true ∧
    handleWriteAlive true (.err EAGAIN) = true ∧
    handleReadAlive .eof = false ∧
    handleReadAlive (.transferred 10) = true ∧
    handleReadAlive (.err ECONNRESET) = false := by decide

/-! ## Claim C10 — `TTLHeap::remove` on an absent key -/

/-- C10: removing a key that the position map does not contain leaves the
TTL index (heap array and key-to-position map) completely unchanged, which
makes the unconditional `ttlHeap_.remove(key)` in `Database::set` a no-op
for keys without a TTL. -/
theorem ttlheap_remove_absent_noop (st : TTLHeap) (k : ByteStr)
    (h : AList.lookup st.map k = none) : st.remove k = st := by
  simp [TTLHeap.remove, h]

/-- Witness for C10 at a concrete five-entry heap and the absent key `[9]`. -/
theorem ttlheap_remove_absent_noop_witness :
    AList.lookup heapT1.map [9] = none ∧ heapT1.remove [9] = heapT1 :=
  ⟨by decide, ttlheap_remove_absent_noop heapT1 [9] (by decide)⟩

/-! ## Claim C5 — background-rewrite completion -/

/-- C5: if the rewrite child exits non-zero, `checkRewriteComplete` unlinks
the temp file, clears the rewriting state, and leaves the live file and its
descriptor untouched; if it exits zero, the live fd is replaced (old fd
closed, path reopened) only as the last steps of the trace, strictly after
the buffered frames were appended to the temp file, the temp file fsynced,
and the temp file renamed over the live path — and the final live content is
the child's snapshot followed by every buffered frame. -/
theorem aof_check_rewrite_complete_spec (st : AOFState) (hchild : st.hasChild = true)
    (openTempOk renameOk reopenOk : Bool) :
    (∀ c : Nat, c ≠ 0 →
      (checkRewriteComplete st (.exited c) openTempOk renameOk reopenOk).1.temp = none ∧
      (checkRewriteComplete st (.exited c) openTempOk renameOk reopenOk).1.isRewriting = false ∧
      (checkRewriteComplete st (.exited c) openTempOk renameOk reopenOk).1.live = st.live ∧
      (checkRewriteComplete st (.exited c) openTempOk renameOk reopenOk).1.fdGen = st.fdGen) ∧
    ((checkRewriteComplete st (.exited 0) openTempOk renameOk reopenOk).1.fdGen ≠ st.fdGen ∨
      AOFAction.reopenLive ∈ (checkRewriteComplete st (.exited 0) openTempOk renameOk reopenOk).2 →
      (checkRewriteComplete st (.exited 0) openTempOk renameOk reopenOk).2 =
        [.openTemp, .appendRewriteBuffer, .fsyncTemp, .closeTemp,
         .renameTempOverLive, .closeOldFd, .reopenLive] ∧
      (checkRewriteComplete st (.exited 0) openTempOk renameOk reopenOk).1.live =
        st.temp.getD [] ++ st.rewriteBuffer.flatten) := by
  constructor
  · intro c hc
    match c with
    | 0 => exact absurd rfl hc
    | c + 1 => simp [checkRewriteComplete, hchild]
  · intro hrep
    cases hopen : openTempOk <;> cases hren : renameOk <;>
      simp [checkRewriteComplete, hchild, hopen, hren] at hrep ⊢

/-- Witness for C5: a concrete rewriting state with a snapshot temp file and
two buffered frames. -/
theorem aof_check_rewrite_complete_spec_witness :
    ((checkRewriteComplete
        ⟨[1, 2], some [3, 4], 5, true, true, true, [[9], [8]]⟩
        (.exited 1) true true true).1.live = [1, 2]) ∧
    ((checkRewriteComplete
        ⟨[1, 2], some [3, 4], 5, true, true, true, [[9], [8]]⟩
        (.exited 0) true true true).1.live = [3, 4, 9, 8]) := by
  refine ⟨((aof_check_rewrite_complete_spec
      ⟨[1, 2], some [3, 4], 5, true, true, true, [[9], [8]]⟩ rfl true true true).1
      1 (by decide)).2.2.1, ?_⟩
  have h := (aof_check_rewrite_complete_spec
      ⟨[1, 2], some [3, 4], 5, true, true, true, [[9], [8]]⟩ rfl true true true).2
  exact (h (by decide)).2

/-! ## Claim C8 — STRING integer encoding and `asString` round-trip -/

/-- C8 counterexample: the byte-string "007" is stored with INTEGER encoding
(the `strtoll` parse consumes it entirely without overflow), and `asString`
returns "7" — not the byte-string the value was created from, refuting the
claimed round-trip. -/
theorem createString_asString_roundtrip_cex :
    (RedisObject.createString [48, 48, 55]).encoding = .INTEGER ∧
    (RedisObject.createString [48, 48, 55]).asString = [55] ∧
    [55] ≠ [48, 48, 55] := by decide

lemma takeWhile_append_of_all {p : Nat → Bool} {xs : ByteStr} (ys : ByteStr)
    (h : ∀ c ∈ xs, p c = true) :
    (xs ++ ys).takeWhile p = xs ++ ys.takeWhile p := by
  induction xs with
  | nil => simp
  | cons a t ih =>
    simp only [List.cons_append, List.takeWhile_cons, h a (by simp)]
    rw [ih (fun c hc => h c (by simp [hc]))]
    simp

lemma dropWhile_append_of_all {p : Nat → Bool} {xs : ByteStr} (ys : ByteStr)
    (h : ∀ c ∈ xs, p c = true) :
    (xs ++ ys).dropWhile p = ys.dropWhile p := by
  induction xs with
  | nil => simp
  | cons a t ih =>
    simp only [List.cons_append, List.dropWhile_cons, h a (by simp)]
    exact ih (fun c hc => h c (by simp [hc]))

lemma digit_not_space {c : Nat} (h : isDigitByte c = true) : isSpaceByte c = false := by
  simp [isDigitByte] at h
  simp [isSpaceByte]
  omega

lemma digit_ne_sign {c : Nat} (h : isDigitByte c = true) : c ≠ 43 ∧ c ≠ 45 := by
  simp [isDigitByte] at h
  omega

/-- Forward half of the `strtoll` characterization: a full-consumption,
non-overflowing parse decomposes the input into whitespace, an optional
sign, and a non-empty digit run. -/
lemma strtoll10_spec_fwd (v : ByteStr) (hne : v ≠ [])
    (hcons : (strtoll10 v).consumed = v.length)
    (hof : (strtoll10 v).overflow = false) :
    ∃ ws sgn ds, v = ws ++ sgn ++ ds ∧ (∀ c ∈ ws, isSpaceByte c = true) ∧
      (sgn = [] ∨ sgn = [43] ∨ sgn = [45]) ∧ ds ≠ [] ∧
      (∀ c ∈ ds, isDigitByte c = true) ∧
      -(2 ^ 63) ≤ signedVal sgn ds ∧ signedVal sgn ds ≤ 2 ^ 63 - 1 ∧
      (strtoll10 v).value = signedVal sgn ds := by
  classical
  set ws := v.takeWhile isSpaceByte with hws
  set rest := v.dropWhile isSpaceByte with hrest
  have hsplit : ws ++ rest = v := List.takeWhile_append_dropWhile isSpaceByte v
  have hvlen : v.length = ws.length + rest.length := by rw [← hsplit]; simp
  have hdsne : (strtollDigits rest).isEmpty = false := by
    cases h : (strtollDigits rest).isEmpty
    · rfl
    · exfalso
      have h0 : (strtoll10 v).consumed = 0 := by
        simp [strtoll10, ← hrest, h]
      rw [h0] at hcons
      exact hne (List.eq_nil_of_length_eq_zero hcons.symm)
  have hcons' : ws.length + strtollSignLen rest + (strtollDigits rest).length = v.length := by
    have := hcons
    simp [strtoll10, ← hrest, ← hws, hdsne] at this
    exact this
  have hof' : -(2 ^ 63) ≤ strtollValue rest ∧ strtollValue rest ≤ 2 ^ 63 - 1 := by
    have := hof
    simp [strtoll10, ← hrest, hdsne] at this
    omega
  have hval' : (strtoll10 v).value = strtollValue rest := by
    simp [strtoll10, ← hrest, hdsne]
  have hds_pref : strtollDigits rest <+: rest.drop (strtollSignLen rest) :=
    List.takeWhile_prefix isDigitByte
  have hsl_le : strtollSignLen rest ≤ rest.length := by
    unfold strtollSignLen
    split
    · rename_i hh
      have hrne : rest ≠ [] := by
        intro h
        rw [h] at hh
        simp at hh
      have := List.length_pos.mpr hrne
      omega
    · exact Nat.zero_le _
  have hdslen : (strtollDigits rest).length = (rest.drop (strtollSignLen rest)).length := by
    have h1 := hds_pref.length_le
    have h2 : (rest.drop (strtollSignLen rest)).length = rest.length - strtollSignLen rest := by
      simp
    omega
  have hdseq : strtollDigits rest = rest.drop (strtollSignLen rest) :=
    hds_pref.eq_of_length hdslen
  have hdsall : ∀ c ∈ strtollDigits rest, isDigitByte c = true := fun c hc =>
    List.mem_takeWhile_imp hc
  have hwsall : ∀ c ∈ ws, isSpaceByte c = true := fun c hc => List.mem_takeWhile_imp hc
  have hdne : strtollDigits rest ≠ [] := by
    intro h
    rw [h] at hdsne
    exact absurd hdsne (by simp)
  cases hr : rest with
  | nil =>
    exfalso
    apply hdne
    rw [hdseq, hr]
    simp
  | cons a t =>
    by_cases h45 : a = 45
    · subst h45
      have hsl : strtollSignLen rest = 1 := by simp [strtollSignLen, hr]
      have hneg : strtollNeg rest = true := by simp [strtollNeg, hr]
      have hdst : strtollDigits rest = t := by
        rw [hdseq, hr]; simp [strtollSignLen]
      refine ⟨ws, [45], t, ?_, hwsall, Or.inr (Or.inr rfl), hdst ▸ hdne,
        hdst ▸ hdsall, ?_, ?_, ?_⟩
      · rw [← hsplit, hr]; simp
      · have := hof'.1
        simpa [strtollValue, hneg, hdst, signedVal] using this
      · have := hof'.2
        simpa [strtollValue, hneg, hdst, signedVal] using this
      · rw [hval']
        simp [strtollValue, hneg, hdst, signedVal]
    · by_cases h43 : a = 43
      · subst h43
        have hsl : strtollSignLen rest = 1 := by simp [strtollSignLen, hr]
        have hneg : strtollNeg rest = false := by simp [strtollNeg, hr]
        have hdst : strtollDigits rest = t := by
          rw [hdseq, hr]; simp [strtollSignLen]
        refine ⟨ws, [43], t, ?_, hwsall, Or.inr (Or.inl rfl), hdst ▸ hdne,
          hdst ▸ hdsall, ?_, ?_, ?_⟩
        · rw [← hsplit, hr]; simp
        · have := hof'.1
          simpa [strtollValue, hneg, hdst, signedVal] using this
        · have := hof'.2
          simpa [strtollValue, hneg, hdst, signedVal] using this
        · rw [hval']
          simp [strtollValue, hneg, hdst, signedVal]
      · have hsl : strtollSignLen rest = 0 := by
          simp [strtollSignLen, hr, h43, h45]
        have hneg : strtollNeg rest = false := by
          simp [strtollNeg, hr, h45]
        have hdst : strtollDigits rest = a :: t := by
          rw [hdseq, hr]; simp [strtollSignLen, h43, h45]
        refine ⟨ws, [], a :: t, ?_, hwsall, Or.inl rfl, by simp,
          hdst ▸ hdsall, ?_, ?_, ?_⟩
        · rw [← hsplit, hr]; simp
        · have := hof'.1
          simpa [strtollValue, hneg, hdst, signedVal] using this
        · have := hof'.2
          simpa [strtollValue, hneg, hdst, signedVal] using this
        · rw [hval']
          simp [strtollValue, hneg, hdst, signedVal]

/-- Backward half of the `strtoll` characterization. -/
lemma strtoll10_spec_bwd (ws sgn ds : ByteStr)
    (hws : ∀ c ∈ ws, isSpaceByte c = true)
    (hsgn : sgn = [] ∨ sgn = [43] ∨ sgn = [45]) (hne : ds ≠ [])
    (hds : ∀ c ∈ ds, isDigitByte c = true) :
    (strtoll10 (ws ++ sgn ++ ds)).consumed = (ws ++ sgn ++ ds).length ∧
    (strtoll10 (ws ++ sgn ++ ds)).value = signedVal sgn ds ∧
    (strtoll10 (ws ++ sgn ++ ds)).overflow =
      decide (signedVal sgn ds < -(2 ^ 63) ∨ 2 ^ 63 - 1 < signedVal sgn ds) := by
  obtain ⟨d, ds', rfl⟩ : ∃ d t, ds = d :: t := by
    cases ds with
    | nil => exact absurd rfl hne
    | cons d t => exact ⟨d, t, rfl⟩
  have hd : isDigitByte d = true := hds d (by simp)
  have hdns : isSpaceByte d = false := digit_not_space hd
  have hdnsign := digit_ne_sign hd
  have hdsd : (d :: ds').takeWhile isDigitByte = d :: ds' :=
    List.takeWhile_eq_self_iff.mpr hds
  rcases hsgn with rfl | rfl | rfl
  · have h2 : ((ws ++ (d :: ds')).dropWhile isSpaceByte) = d :: ds' := by
      rw [dropWhile_append_of_all _ hws]
      simp [List.dropWhile_cons, hdns]
    have h1 : ((ws ++ (d :: ds')).takeWhile isSpaceByte) = ws := by
      rw [takeWhile_append_of_all _ hws]
      simp [List.takeWhile_cons, hdns]
    have hsl : strtollSignLen (d :: ds') = 0 := by
      simp [strtollSignLen, hdnsign.1, hdnsign.2]
    have hneg : strtollNeg (d :: ds') = false := by
      simp [strtollNeg, hdnsign.2]
    have hdg : strtollDigits (d :: ds') = d :: ds' := by
      simp [strtollDigits, hsl, hdsd]
    have hnemp : (strtollDigits (d :: ds')).isEmpty = false := by rw [hdg]; rfl
    refine ⟨?_, ?_, ?_⟩ <;>
        simp [strtoll10, h1, h2, hnemp, hdg, hsl, strtollValue, hneg, signedVal] <;>
      omega
  · have h2 : ((ws ++ 43 :: d :: ds').dropWhile isSpaceByte) = 43 :: d :: ds' := by
      rw [dropWhile_append_of_all _ hws]
      simp [List.dropWhile_cons, isSpaceByte]
    have h1 : ((ws ++ 43 :: d :: ds').takeWhile isSpaceByte) = ws := by
      rw [takeWhile_append_of_all _ hws]
      simp [List.takeWhile_cons, isSpaceByte]
    have hsl : strtollSignLen (43 :: d :: ds') = 1 := by simp [strtollSignLen]
    have hneg : strtollNeg (43 :: d :: ds') = false := by simp [strtollNeg]
    have hdg : strtollDigits (43 :: d :: ds') = d :: ds' := by
      simp [strtollDigits, hsl, hdsd]
    have hnemp : (strtollDigits (43 :: d :: ds')).isEmpty = false := by rw [hdg]; rfl
    refine ⟨?_, ?_, ?_⟩ <;>
        simp [strtoll10, h1, h2, hnemp, hdg, hsl, strtollValue, hneg, signedVal] <;>
      omega
  · have h2 : ((ws ++ 45 :: d :: ds').dropWhile isSpaceByte) = 45 :: d :: ds' := by
      rw [dropWhile_append_of_all _ hws]
      simp [List.dropWhile_cons, isSpaceByte]
    have h1 : ((ws ++ 45 :: d :: ds').takeWhile isSpaceByte) = ws := by
      rw [takeWhile_append_of_all _ hws]
      simp [List.takeWhile_cons, isSpaceByte]
    have hsl : strtollSignLen (45 :: d :: ds') = 1 := by simp [strtollSignLen]
    have hneg : strtollNeg (45 :: d :: ds') = true := by simp [strtollNeg]
    have hdg : strtollDigits (45 :: d :: ds') = d :: ds' := by
      simp [strtollDigits, hsl, hdsd]
    have hnemp : (strtollDigits (45 :: d :: ds')).isEmpty = false := by rw [hdg]; rfl
    refine ⟨?_, ?_, ?_⟩ <;>
        simp [strtoll10, h1, h2, hnemp, hdg, hsl, strtollValue, hneg, signedVal] <;>
      omega

/-- C8 (amended): INTEGER encoding is chosen exactly when the byte-string is
whitespace, an optional `+`/`-` sign, and a non-empty digit run whose signed
value fits `int64_t` (the `strtoll` grammar — leading whitespace, a plus
sign, and leading zeros are accepted); `asString` returns the original bytes
for RAW values and the canonical decimal spelling of the stored integer for
INTEGER values (which may differ from the original byte-string). -/
theorem createString_integer_encoding_amended (v : ByteStr) :
    ((RedisObject.createString v).encoding = .INTEGER ↔
      ∃ ws sgn ds, v = ws ++ sgn ++ ds ∧ (∀ c ∈ ws, isSpaceByte c = true) ∧
        (sgn = [] ∨ sgn = [43] ∨ sgn = [45]) ∧ ds ≠ [] ∧
        (∀ c ∈ ds, isDigitByte c = true) ∧
        -(2 ^ 63) ≤ signedVal sgn ds ∧ signedVal sgn ds ≤ 2 ^ 63 - 1 ∧
        (RedisObject.createString v).intValue = signedVal sgn ds) ∧
    ((RedisObject.createString v).encoding = .RAW →
      (RedisObject.createString v).asString = v) ∧
    ((RedisObject.createString v).encoding = .INTEGER →
      (RedisObject.createString v).asString = intDec (RedisObject.createString v).intValue) := by
  classical
  refine ⟨⟨?_, ?_⟩, ?_, ?_⟩
  · -- INTEGER → decomposition
    intro henc
    by_cases hne : v ≠ []
    · by_cases hcond : (strtoll10 v).consumed = v.length ∧ (strtoll10 v).overflow = false
      · obtain ⟨ws, sgn, ds, hv, hws, hsgn, hdsne, hds, hlo, hhi, hval⟩ :=
          strtoll10_spec_fwd v hne hcond.1 hcond.2
        refine ⟨ws, sgn, ds, hv, hws, hsgn, hdsne, hds, hlo, hhi, ?_⟩
        rw [← hval]
        simp [RedisObject.createString, hne, hcond.1, hcond.2]
      · exfalso
        have : (RedisObject.createString v).encoding = .RAW := by
          simp only [RedisObject.createString, if_pos hne]
          rw [if_neg hcond]
        rw [henc] at this
        exact REncoding.noConfusion this
    · exfalso
      have : (RedisObject.createString v).encoding = .RAW := by
        simp [RedisObject.createString, hne]
      rw [henc] at this
      exact REncoding.noConfusion this
  · -- decomposition → INTEGER
    rintro ⟨ws, sgn, ds, rfl, hws, hsgn, hdsne, hds, hlo, hhi, -⟩
    obtain ⟨hcons, hval, hof⟩ := strtoll10_spec_bwd ws sgn ds hws hsgn hdsne hds
    have hofr : (strtoll10 (ws ++ sgn ++ ds)).overflow = false := by
      rw [hof]
      simp only [decide_eq_false_iff_not, not_or, not_lt]
      exact ⟨hlo, hhi⟩
    have hassoc : ws ++ sgn ++ ds = ws ++ (sgn ++ ds) := List.append_assoc ws sgn ds
    rw [hassoc] at hcons hofr
    simp [RedisObject.createString, hcons, hofr, hdsne]
  · -- RAW → asString = v
    intro henc
    by_cases hne : v ≠ []
    · by_cases hcond : (strtoll10 v).consumed = v.length ∧ (strtoll10 v).overflow = false
      · exfalso
        have : (RedisObject.createString v).encoding = .INTEGER := by
          simp [RedisObject.createString, hne, hcond.1, hcond.2]
        rw [henc] at this
        exact REncoding.noConfusion this
      · have hcs : RedisObject.createString v =
            { type := .STRING, encoding := .RAW, strValue := v } := by
          simp only [RedisObject.createString, if_pos hne]
          rw [if_neg hcond]
        rw [hcs]
        simp [RedisObject.asString]
    · have hcs : RedisObject.createString v =
          { type := .STRING, encoding := .RAW, strValue := v } := by
        simp [RedisObject.createString, hne]
      rw [hcs]
      simp [RedisObject.asString]
  · -- INTEGER → asString is the decimal spelling
    intro henc
    simp [RedisObject.asString, henc]

/-- Witness for C8 (amended) at the canonical input "123". -/
theorem createString_integer_encoding_amended_witness :
    (RedisObject.createString [49, 50, 51]).encoding = .INTEGER ∧
    (RedisObject.createString [49, 50, 51]).intValue = signedVal [] [49, 50, 51] :=
  ⟨(createString_integer_encoding_amended [49, 50, 51]).1.mpr
      ⟨[], [], [49, 50, 51], by decide, by decide, Or.inl rfl, by decide, by decide,
        by decide, by decide, by decide⟩,
    by decide⟩

/-! ## Claim C7 — buffer preservation across the compaction tiers -/

namespace Buffer

lemma growLoop_ge_self : ∀ (fuel c needed : Nat), c ≤ growLoop fuel c needed := by
  intro fuel
  induction fuel with
  | zero => intro c needed; simp [growLoop]
  | succ f ih =>
    intro c needed
    simp only [growLoop]
    split
    · calc c ≤ c * 2 := by omega
        _ ≤ growLoop f (c * 2) needed := ih (c * 2) needed
    · exact Nat.le_refl c

lemma growLoop_ge (needed : Nat) :
    ∀ (fuel c : Nat), 1 ≤ c → needed ≤ 2 ^ fuel * c → needed ≤ growLoop fuel c needed := by
  intro fuel
  induction fuel with
  | zero =>
    intro c _ h
    simpa [growLoop] using h
  | succ f ih =>
    intro c hc h
    simp only [growLoop]
    split
    · refine ih (c * 2) (by omega) ?_
      rw [pow_succ] at h
      calc needed ≤ 2 ^ f * 2 * c := h
        _ = 2 ^ f * (c * 2) := by ring
    · omega

lemma readableContent_length {b : Buffer} (h : b.WF) :
    b.readableContent.length = b.readableBytes := by
  obtain ⟨h1, h2⟩ := h
  simp [readableContent, readableBytes]
  omega

lemma wf_sum {b : Buffer} (h : b.WF) :
    b.readPos + b.readableBytes + b.writableBytes = b.data.length := by
  obtain ⟨h1, h2⟩ := h
  simp [readableBytes, writableBytes]
  omega

lemma ensureWritableBytes_spec (b : Buffer) (len : Nat) (h : b.WF) :
    (b.ensureWritableBytes len).WF ∧
    (b.ensureWritableBytes len).readableContent = b.readableContent ∧
    len ≤ (b.ensureWritableBytes len).writableBytes ∧
    b.data.length ≤ (b.ensureWritableBytes len).data.length ∧
    (b.ensureWritableBytes len).readableBytes = b.readableBytes := by
  obtain ⟨h1, h2⟩ := h
  by_cases hfit : len ≤ b.writableBytes
  · have hb' : b.ensureWritableBytes len = b := by
      simp [ensureWritableBytes, hfit]
    rw [hb']
    exact ⟨⟨h1, h2⟩, rfl, hfit, le_refl _, rfl⟩
  · have hcl : b.readableContent.length = b.readableBytes :=
      readableContent_length ⟨h1, h2⟩
    have hrb : b.readableBytes ≤ b.data.length := by
      simp [readableBytes]; omega
    by_cases htier2 : b.readableBytes + len ≤ b.data.length
    · have hb' : b.ensureWritableBytes len =
          ⟨b.readableContent ++ b.data.drop b.readableBytes, 0, b.readableBytes⟩ := by
        simp [ensureWritableBytes, hfit, htier2]
      rw [hb']
      have hlen : (b.readableContent ++ b.data.drop b.readableBytes).length = b.data.length := by
        simp [hcl]; omega
      refine ⟨⟨Nat.zero_le _, ?_⟩, ?_, ?_, ?_, ?_⟩
      · show b.readableBytes ≤ (b.readableContent ++ b.data.drop b.readableBytes).length
        rw [hlen]; exact hrb
      · show ((b.readableContent ++ b.data.drop b.readableBytes).take b.readableBytes).drop 0
            = b.readableContent
        rw [List.drop_zero, List.take_append_of_le_length (le_of_eq hcl.symm),
          ← hcl, List.take_length]
      · show len ≤ (b.readableContent ++ b.data.drop b.readableBytes).length - b.readableBytes
        rw [hlen]; omega
      · show b.data.length ≤ (b.readableContent ++ b.data.drop b.readableBytes).length
        rw [hlen]
      · show b.readableBytes - 0 = b.readableBytes
        omega
    · set c0 := if b.data.length = 0 then kInitialCapacity else b.data.length with hc0
      set newCap := growLoop (b.readableBytes + len) c0 (b.readableBytes + len) with hnc
      have hc0pos : 1 ≤ c0 := by
        rw [hc0]; split
        · simp [kInitialCapacity]
        · omega
      have hc0ge : b.data.length ≤ c0 := by
        rw [hc0]; split <;> omega
      have hncge : b.readableBytes + len ≤ newCap := by
        rw [hnc]
        refine growLoop_ge _ _ _ hc0pos ?_
        calc b.readableBytes + len ≤ 2 ^ (b.readableBytes + len) :=
              Nat.le_of_lt (Nat.lt_two_pow _)
          _ ≤ 2 ^ (b.readableBytes + len) * c0 := Nat.le_mul_of_pos_right _ (by omega)
      have hnccap : b.data.length ≤ newCap :=
        le_trans hc0ge (growLoop_ge_self _ _ _)
      have hb' : b.ensureWritableBytes len =
          ⟨(b.readableContent ++ b.data.drop b.readableBytes) ++
              List.replicate (newCap - b.data.length) 0, 0, b.readableBytes⟩ := by
        simp only [ensureWritableBytes, hfit, htier2]
        simp [hnc, hc0]
      rw [hb']
      have hmid : (b.readableContent ++ b.data.drop b.readableBytes).length = b.data.length := by
        simp [hcl]; omega
      have hlen : ((b.readableContent ++ b.data.drop b.readableBytes) ++
          List.replicate (newCap - b.data.length) 0).length = newCap := by
        simp only [List.length_append, hmid, List.length_replicate]
        omega
      refine ⟨⟨Nat.zero_le _, ?_⟩, ?_, ?_, ?_, ?_⟩
      · show b.readableBytes ≤ ((b.readableContent ++ b.data.drop b.readableBytes) ++
            List.replicate (newCap - b.data.length) 0).length
        rw [hlen]; omega
      · show (((b.readableContent ++ b.data.drop b.readableBytes) ++
            List.replicate (newCap - b.data.length) 0).take b.readableBytes).drop 0
            = b.readableContent
        rw [List.drop_zero, List.take_append_of_le_length (by rw [hmid]; exact hrb),
          List.take_append_of_le_length (le_of_eq hcl.symm), ← hcl, List.take_length]
      · show len ≤ ((b.readableContent ++ b.data.drop b.readableBytes) ++
            List.replicate (newCap - b.data.length) 0).length - b.readableBytes
        rw [hlen]; omega
      · show b.data.length ≤ ((b.readableContent ++ b.data.drop b.readableBytes) ++
            List.replicate (newCap - b.data.length) 0).length
        rw [hlen]; omega
      · show b.readableBytes - 0 = b.readableBytes
        omega

lemma append_spec (b : Buffer) (bs : ByteStr) (h : b.WF) :
    (b.append bs).WF ∧
    (b.append bs).readableContent = b.readableContent ++ bs ∧
    b.data.length ≤ (b.append bs).data.length := by
  obtain ⟨hwf1, hrc1, hle1, hcap1, -⟩ := ensureWritableBytes_spec b bs.length h
  set b1 := b.ensureWritableBytes bs.length with hb1
  obtain ⟨h1, h2⟩ := hwf1
  have hroom : b1.writePos + bs.length ≤ b1.data.length := by
    have := hle1
    simp only [writableBytes] at this
    omega
  have hdata2 : (b1.writeAt bs).data =
      (b1.data.take b1.writePos ++ bs) ++ b1.data.drop (b1.writePos + bs.length) := by
    simp [writeAt]
  have htakelen : (b1.data.take b1.writePos).length = b1.writePos := by
    simp; omega
  have hfront : ((b1.data.take b1.writePos ++ bs)).length = b1.writePos + bs.length := by
    simp [htakelen]
  have hlen2 : (b1.writeAt bs).data.length = b1.data.length := by
    rw [hdata2]
    simp only [List.length_append, htakelen, List.length_drop]
    omega
  have happ : b.append bs =
      ⟨(b1.writeAt bs).data, b1.readPos, b1.writePos + bs.length⟩ := by
    simp [append, ← hb1, writeAt, advanceWrite]
  rw [happ]
  have htake : (b1.writeAt bs).data.take (b1.writePos + bs.length) =
      b1.data.take b1.writePos ++ bs := by
    rw [hdata2, List.take_append_of_le_length (by rw [hfront]),
      ← hfront, List.take_length]
  refine ⟨⟨?_, ?_⟩, ?_, ?_⟩
  · show b1.readPos ≤ b1.writePos + bs.length
    omega
  · show b1.writePos + bs.length ≤ (b1.writeAt bs).data.length
    rw [hlen2]
    omega
  · show ((b1.writeAt bs).data.take (b1.writePos + bs.length)).drop b1.readPos =
      b.readableContent ++ bs
    rw [htake, List.drop_append_of_le_length (by rw [htakelen]; omega), ← hrc1]
    simp [readableContent]
  · show b.data.length ≤ (b1.writeAt bs).data.length
    rw [hlen2]
    omega

lemma consume_spec (b : Buffer) (n : Nat) (h : b.WF) (hn : n ≤ b.readableBytes) :
    (b.consume n).WF ∧
    (b.consume n).readableContent = b.readableContent.drop n ∧
    (b.consume n).data.length = b.data.length := by
  obtain ⟨h1, h2⟩ := h
  have hcl : b.readableContent.length = b.readableBytes :=
    readableContent_length ⟨h1, h2⟩
  simp only [readableBytes] at hn
  by_cases hres : b.readPos + n = b.writePos
  · have hb' : b.consume n = ⟨b.data, 0, 0⟩ := by
      simp [consume, hres]
    rw [hb']
    refine ⟨⟨le_refl _, Nat.zero_le _⟩, ?_, rfl⟩
    have hz : b.readableContent.drop n = [] := by
      apply List.eq_nil_of_length_eq_zero
      rw [List.length_drop, hcl]
      simp only [readableBytes]
      omega
    rw [hz]
    simp [readableContent]
  · have hb' : b.consume n = ⟨b.data, b.readPos + n, b.writePos⟩ := by
      simp [consume, hres]
    rw [hb']
    refine ⟨⟨?_, ?_⟩, ?_, rfl⟩
    · show b.readPos + n ≤ b.writePos
      omega
    · show b.writePos ≤ b.data.length
      exact h2
    · show (b.data.take b.writePos).drop (b.readPos + n) = b.readableContent.drop n
      simp only [readableContent]
      rw [List.drop_drop]

lemma bufStep_spec (b : Buffer) (op : BufOp) (h : b.WF) :
    b.data.length ≤ (bufStep b op).data.length := by
  cases op with
  | append bs => exact (append_spec b bs h).2.2
  | consume n =>
    simp only [bufStep, consume]
    split <;> rfl

end Buffer

/-- C7 counterexample: from a fresh buffer, `append [7,7]` then `consume 1`
leaves `readable = 1` while `readable + writable` is `cap - readPos` with
`readPos = 1`: the claimed equation `readable + writable == cap` fails as
soon as the read cursor is non-zero. -/
theorem buffer_readable_writable_cap_cex :
    ((Buffer.empty.append [7, 7]).consume 1).readableBytes = 1 ∧
    ((Buffer.empty.append [7, 7]).consume 1).readableBytes +
      ((Buffer.empty.append [7, 7]).consume 1).writableBytes ≠
      ((Buffer.empty.append [7, 7]).consume 1).data.length := by
  have hwfe : Buffer.empty.WF := ⟨le_refl 0, le_refl 0⟩
  obtain ⟨hwf1, hrc1, -⟩ := Buffer.append_spec Buffer.empty [7, 7] hwfe
  have hrce : Buffer.empty.readableContent = [] := rfl
  have hr2 : (Buffer.empty.append [7, 7]).readableBytes = 2 := by
    have h := Buffer.readableContent_length hwf1
    rw [hrc1, hrce] at h
    simpa using h.symm
  obtain ⟨hwf2, hrc2, hcap2⟩ := Buffer.consume_spec _ 1 hwf1 (by rw [hr2]; omega)
  have hr1 : ((Buffer.empty.append [7, 7]).consume 1).readableBytes = 1 := by
    have h := Buffer.readableContent_length hwf2
    rw [hrc2, hrc1, hrce] at h
    simpa using h.symm
  refine ⟨hr1, ?_⟩
  have hrb2 : (Buffer.empty.append [7, 7]).readableBytes =
      (Buffer.empty.append [7, 7]).writePos - (Buffer.empty.append [7, 7]).readPos := rfl
  have hne : ¬((Buffer.empty.append [7, 7]).readPos + 1 =
      (Buffer.empty.append [7, 7]).writePos) := by
    rw [hrb2] at hr2
    obtain ⟨hw1, hw2⟩ := hwf1
    omega
  have hcns : (Buffer.empty.append [7, 7]).consume 1 =
      ⟨(Buffer.empty.append [7, 7]).data, (Buffer.empty.append [7, 7]).readPos + 1,
        (Buffer.empty.append [7, 7]).writePos⟩ := by
    simp [Buffer.consume, hne]
  have hsum := Buffer.wf_sum hwf2
  have e1 : ((Buffer.empty.append [7, 7]).consume 1).readPos =
      (Buffer.empty.append [7, 7]).readPos + 1 := by rw [hcns]
  omega

/-- C7 (amended): for any sequence of `append`s and in-bounds `consume`s from
a well-formed buffer, the readable bytes are bytewise the specification
content (appends concatenate, consumes drop), the capacity never shrinks
(hence stays at least its initial value), and the cursor identity
`readPos + readable + writable = cap` holds — `readable + writable` equals
`cap` minus the already-consumed prefix, not `cap` itself. -/
theorem buffer_ops_preservation_amended (ops : List BufOp) : ∀ (b : Buffer), b.WF →
    ValidOps b ops →
    (bufExec b ops).WF ∧
    (bufExec b ops).readableContent = specContent b.readableContent ops ∧
    b.data.length ≤ (bufExec b ops).data.length ∧
    (bufExec b ops).readPos + (bufExec b ops).readableBytes +
      (bufExec b ops).writableBytes = (bufExec b ops).data.length := by
  induction ops with
  | nil =>
    intro b hwf _
    exact ⟨hwf, rfl, le_refl _, Buffer.wf_sum hwf⟩
  | cons op rest ih =>
    intro b hwf hv
    cases op with
    | append bs =>
      obtain ⟨hwf1, hrc1, hcap1⟩ := Buffer.append_spec b bs hwf
      obtain ⟨hwf2, hrc2, hcap2, hsum2⟩ := ih (b.append bs) hwf1 hv
      refine ⟨hwf2, ?_, le_trans hcap1 hcap2, hsum2⟩
      simpa [bufExec, bufStep, specContent, hrc1] using hrc2
    | consume n =>
      obtain ⟨hn, hv'⟩ := hv
      obtain ⟨hwf1, hrc1, hcap1⟩ := Buffer.consume_spec b n hwf hn
      obtain ⟨hwf2, hrc2, hcap2, hsum2⟩ := ih (b.consume n) hwf1 hv'
      refine ⟨hwf2, ?_, le_trans (le_of_eq hcap1.symm) hcap2, hsum2⟩
      simpa [bufExec, bufStep, specContent, hrc1] using hrc2

/-- Witness for C7 (amended) on a concrete small buffer and operation list. -/
theorem buffer_ops_preservation_amended_witness :
    (bufExec ⟨[0, 0, 0, 0], 0, 0⟩ [.append [1, 2], .consume 1]).readableContent =
      specContent (Buffer.readableContent ⟨[0, 0, 0, 0], 0, 0⟩)
        [.append [1, 2], .consume 1] :=
  (buffer_ops_preservation_amended [.append [1, 2], .consume 1]
    ⟨[0, 0, 0, 0], 0, 0⟩ (by constructor <;> simp)
    (by refine ⟨?_, trivial⟩; decide)).2.1

/-! ## Claim C1 — RESP parser: partial frames and atomic consumption -/

namespace RespParser

lemma byteAt_take {data : ByteStr} {m k : Nat} (h : k < m) :
    byteAt (data.take m) k = byteAt data k := by
  simp only [byteAt, List.getD_eq_getElem?_getD]
  rw [List.getElem?_take]
  simp [h]

/-- Soundness of the CRLF search loop: the result is in range, holds a CRLF,
and is the first candidate at or after the start index. -/
lemma findCRLFAux_sound : ∀ (fuel : Nat) (data : ByteStr) (i j : Nat),
    findCRLFAux data i fuel = some j →
    i ≤ j ∧ j + 1 < data.length ∧ byteAt data j = 13 ∧ byteAt data (j + 1) = 10 ∧
      ∀ k, i ≤ k → k < j → ¬(byteAt data k = 13 ∧ byteAt data (k + 1) = 10) := by
  intro fuel
  induction fuel with
  | zero => intro data i j h; exact absurd h (by simp [findCRLFAux])
  | succ f ih =>
    intro data i j h
    simp only [findCRLFAux] at h
    split at h
    · rename_i hlt
      split at h
      · rename_i hcr
        obtain rfl : i = j := by injection h
        exact ⟨le_refl _, hlt, hcr.1, hcr.2, fun k h1 h2 => absurd h1 (by omega)⟩
      · rename_i hnot
        obtain ⟨h1, h2, h3, h4, h5⟩ := ih data (i + 1) j h
        refine ⟨by omega, h2, h3, h4, fun k hk1 hk2 => ?_⟩
        rcases Nat.eq_or_lt_of_le hk1 with rfl | hk1'
        · exact hnot
        · exact h5 k hk1' hk2
    · exact absurd h (by simp)

/-- Completeness of the CRLF search loop. -/
lemma findCRLFAux_complete : ∀ (fuel : Nat) (data : ByteStr) (i j : Nat),
    i ≤ j → j + 1 < data.length → byteAt data j = 13 → byteAt data (j + 1) = 10 →
    (∀ k, i ≤ k → k < j → ¬(byteAt data k = 13 ∧ byteAt data (k + 1) = 10)) →
    j - i < fuel →
    findCRLFAux data i fuel = some j := by
  intro fuel
  induction fuel with
  | zero => intro data i j _ _ _ _ _ hf; omega
  | succ f ih =>
    intro data i j h1 h2 h3 h4 h5 hf
    simp only [findCRLFAux]
    rcases Nat.eq_or_lt_of_le h1 with rfl | hlt
    · rw [if_pos (by omega), if_pos ⟨h3, h4⟩]
    · have hi1 : i + 1 < data.length := by omega
      rw [if_pos hi1, if_neg (h5 i (le_refl _) (by omega))]
      exact ih data (i + 1) j (by omega) h2 h3 h4
        (fun k hk1 hk2 => h5 k (by omega) hk2) (by omega)

/-- `findCRLF` soundness. -/
lemma findCRLF_sound {data : ByteStr} {off j : Nat}
    (h : findCRLF data off = some j) :
    off ≤ j ∧ j + 1 < data.length ∧ byteAt data j = 13 ∧ byteAt data (j + 1) = 10 ∧
      ∀ k, off ≤ k → k < j → ¬(byteAt data k = 13 ∧ byteAt data (k + 1) = 10) := by
  simp only [findCRLF] at h
  split at h
  · exact absurd h (by simp)
  · exact findCRLFAux_sound _ data off j h

/-- `findCRLF` is stable under truncating the input anywhere past the CRLF:
the same position is found. -/
lemma findCRLF_take {data : ByteStr} {off j : Nat}
    (h : findCRLF data off = some j) {m : Nat} (hm1 : j + 2 ≤ m)
    (hm2 : m ≤ data.length) :
    findCRLF (data.take m) off = some j := by
  obtain ⟨h1, h2, h3, h4, h5⟩ := findCRLF_sound h
  have hlen : (data.take m).length = m := List.length_take_of_le hm2
  simp only [findCRLF, hlen]
  rw [if_neg (by omega)]
  refine findCRLFAux_complete _ _ off j h1 (by omega)
    (by rw [byteAt_take (by omega)]; exact h3)
    (by rw [byteAt_take (by omega)]; exact h4)
    (fun k hk1 hk2 => by
      rw [byteAt_take (by omega), byteAt_take (by omega)]
      exact h5 k hk1 hk2)
    (by omega)

/-- Slices of the form `(data.drop a).take b` are unchanged when the input is
truncated at or past `a + b`. -/
lemma slice_take {data : ByteStr} {a b m : Nat} (h : a + b ≤ m) :
    ((data.take m).drop a).take b = (data.drop a).take b := by
  rw [List.drop_take, List.take_take]
  congr 1
  omega

/-- Bounds for the bulk-string loop: the final cursor stays within the
input and does not move backwards. -/
lemma parseBulks_bounds : ∀ (n : Nat) (data : ByteStr) (pos : Nat)
    (as : List ByteStr) (p : Nat), pos ≤ data.length →
    parseBulks data n pos = some (as, p) → pos ≤ p ∧ p ≤ data.length := by
  intro n
  induction n with
  | zero =>
    intro data pos as p hle h
    simp only [parseBulks, Option.some.injEq, Prod.mk.injEq] at h
    obtain ⟨-, rfl⟩ := h
    exact ⟨le_refl _, hle⟩
  | succ k ih =>
    intro data pos as p hle h
    simp only [parseBulks] at h
    split at h
    · exact absurd h (by simp)
    · split at h
      · exact absurd h (by simp)
      · rename_i hpos hdollar
        split at h
        · exact absurd h (by simp)
        · rename_i lenCRLF hfind
          obtain ⟨hc1, hc2, -, -, -⟩ := findCRLF_sound hfind
          split at h
          · -- null bulk
            split at h
            · exact absurd h (by simp)
            · rename_i as' p' hrec
              simp only [Option.some.injEq, Prod.mk.injEq] at h
              obtain ⟨-, hp⟩ := h
              obtain ⟨hb1, hb2⟩ := ih data (lenCRLF + 2) as' p' (by omega) hrec
              omega
          · -- real bulk
            split at h
            · exact absurd h (by simp)
            · rename_i hroom
              split at h
              · exact absurd h (by simp)
              · split at h
                · exact absurd h (by simp)
                · rename_i as' p' hrec
                  simp only [Option.some.injEq, Prod.mk.injEq] at h
                  obtain ⟨-, hp⟩ := h
                  obtain ⟨hb1, hb2⟩ := ih data _ as' p' (by omega) hrec
                  omega

/-- The bulk-string loop looks only at the bytes it consumes: truncating the
input anywhere at or past the final cursor gives the same parse. -/
lemma parseBulks_take : ∀ (n : Nat) (data : ByteStr) (pos : Nat)
    (as : List ByteStr) (p m : Nat), pos ≤ data.length →
    parseBulks data n pos = some (as, p) → p ≤ m → m ≤ data.length →
    parseBulks (data.take m) n pos = some (as, p) := by
  intro n
  induction n with
  | zero =>
    intro data pos as p m hle h hm1 hm2
    simp only [parseBulks, Option.some.injEq, Prod.mk.injEq] at h ⊢
    exact h
  | succ k ih =>
    intro data pos as p m hle h hm1 hm2
    have hlen' : (data.take m).length = m := List.length_take_of_le hm2
    simp only [parseBulks] at h
    split at h
    · exact absurd h (by simp)
    · split at h
      · exact absurd h (by simp)
      · rename_i hpos hdollar
        rw [not_not] at hdollar
        split at h
        · exact absurd h (by simp)
        · rename_i lenCRLF hfind
          obtain ⟨hc1, hc2, -, -, -⟩ := findCRLF_sound hfind
          split at h
          · -- null bulk
            rename_i hbneg
            split at h
            · exact absurd h (by simp)
            · rename_i as' p' hrec
              simp only [Option.some.injEq, Prod.mk.injEq] at h
              obtain ⟨has, hp⟩ := h
              obtain ⟨hb1, hb2⟩ := parseBulks_bounds k data (lenCRLF + 2) as' p'
                (by omega) hrec
              have hfind' : findCRLF (data.take m) (pos + 1) = some lenCRLF :=
                findCRLF_take hfind (by omega) hm2
              have hslice : ((data.take m).drop (pos + 1)).take (lenCRLF - (pos + 1)) =
                  (data.drop (pos + 1)).take (lenCRLF - (pos + 1)) :=
                slice_take (by omega)
              have hrec' := ih data (lenCRLF + 2) as' p' m (by omega) hrec (by omega) hm2
              simp only [parseBulks, hlen', hfind', hslice]
              rw [if_neg (by omega), if_neg (by rw [byteAt_take (by omega), hdollar]; omega)]
              rw [if_pos hbneg, hrec']
              simp [has, hp]
          · -- real bulk
            rename_i hbneg
            split at h
            · exact absurd h (by simp)
            · rename_i hroom
              split at h
              · exact absurd h (by simp)
              · rename_i hcrlf
                split at h
                · exact absurd h (by simp)
                · rename_i as' p' hrec
                  simp only [Option.some.injEq, Prod.mk.injEq] at h
                  obtain ⟨has, hp⟩ := h
                  obtain ⟨hb1, hb2⟩ := parseBulks_bounds k data _ as' p'
                    (by omega) hrec
                  have hfind' : findCRLF (data.take m) (pos + 1) = some lenCRLF :=
                    findCRLF_take hfind (by omega) hm2
                  have hslice : ((data.take m).drop (pos + 1)).take (lenCRLF - (pos + 1)) =
                      (data.drop (pos + 1)).take (lenCRLF - (pos + 1)) :=
                    slice_take (by omega)
                  have hpay : ((data.take m).drop (lenCRLF + 2)).take
                      (atoiVal ((data.drop (pos + 1)).take (lenCRLF - (pos + 1)))).toNat =
                      (data.drop (lenCRLF + 2)).take
                      (atoiVal ((data.drop (pos + 1)).take (lenCRLF - (pos + 1)))).toNat :=
                    slice_take (by omega)
                  have hrec' := ih data _ as' p' m (by omega) hrec (by omega) hm2
                  simp only [parseBulks, hlen', hfind', hslice]
                  rw [if_neg (by omega),
                    if_neg (by rw [byteAt_take (by omega), hdollar]; omega),
                    if_neg hbneg, if_neg (by omega)]
                  rw [if_neg (by
                    rw [byteAt_take (by omega), byteAt_take (by omega)]
                    exact hcrlf)]
                  rw [hpay, hrec']
                  simp [has, hp]

/-- `parseArray`: the consumed count is in `[2, length]` and the parse is
determined by the consumed prefix. -/
lemma parseArray_spec {data : ByteStr} {as : List ByteStr} {n : Nat}
    (h : parseArray data = some (as, n)) :
    2 ≤ n ∧ n ≤ data.length ∧ parseArray (data.take n) = some (as, n) := by
  simp only [parseArray] at h
  split at h
  · exact absurd h (by simp)
  · rename_i crlf hfind
    obtain ⟨hc1, hc2, -, -, -⟩ := findCRLF_sound hfind
    split at h
    · rename_i hneg
      simp only [Option.some.injEq, Prod.mk.injEq] at h
      obtain ⟨rfl, rfl⟩ : as = [] ∧ crlf + 2 = n := ⟨h.1.symm, h.2⟩
      refine ⟨by omega, by omega, ?_⟩
      have hfind' : findCRLF (data.take (crlf + 2)) 1 = some crlf :=
        findCRLF_take hfind (by omega) (by omega)
      have hslice : ((data.take (crlf + 2)).drop 1).take (crlf - 1) =
          (data.drop 1).take (crlf - 1) := slice_take (by omega)
      simp only [parseArray, hfind', hslice]
      rw [if_pos hneg]
    · rename_i hneg
      obtain ⟨hb1, hb2⟩ := parseBulks_bounds _ data (crlf + 2) as n (by omega) h
      refine ⟨by omega, hb2, ?_⟩
      have hfind' : findCRLF (data.take n) 1 = some crlf :=
        findCRLF_take hfind (by omega) hb2
      have hslice : ((data.take n).drop 1).take (crlf - 1) =
          (data.drop 1).take (crlf - 1) := slice_take (by omega)
      simp only [parseArray, hfind', hslice]
      rw [if_neg hneg]
      exact parseBulks_take _ data (crlf + 2) as n n (by omega) h (le_refl _) hb2

/-- `parseInline`: the consumed count is in `[2, length]` and the parse is
determined by the consumed prefix. -/
lemma parseInline_spec {data : ByteStr} {as : List ByteStr} {n : Nat}
    (h : parseInline data = some (as, n)) :
    2 ≤ n ∧ n ≤ data.length ∧ parseInline (data.take n) = some (as, n) := by
  simp only [parseInline] at h
  split at h
  · exact absurd h (by simp)
  · rename_i crlf hfind
    obtain ⟨-, hc2, -, -, -⟩ := findCRLF_sound hfind
    simp only [Option.some.injEq, Prod.mk.injEq] at h
    obtain ⟨has, hn⟩ := h
    refine ⟨by omega, by omega, ?_⟩
    have hfind' : findCRLF (data.take n) 0 = some crlf :=
      findCRLF_take hfind (by omega) (by omega)
    have hline : (data.take n).take crlf = data.take crlf := by
      rw [List.take_take]
      congr 1
      omega
    simp only [parseInline, hfind', hline, has, hn]

/-- `parseBytes`: dispatch-level version of the prefix-determinacy. -/
lemma parseBytes_spec {data : ByteStr} {as : List ByteStr} {n : Nat}
    (h : parseBytes data = some (as, n)) :
    0 < n ∧ n ≤ data.length ∧ parseBytes (data.take n) = some (as, n) := by
  simp only [parseBytes] at h
  split at h
  · rename_i hstar
    obtain ⟨h1, h2, h3⟩ := parseArray_spec h
    refine ⟨by omega, h2, ?_⟩
    simp only [parseBytes]
    rw [if_pos (by rw [byteAt_take (by omega)]; exact hstar)]
    exact h3
  · rename_i hstar
    obtain ⟨h1, h2, h3⟩ := parseInline_spec h
    refine ⟨by omega, h2, ?_⟩
    simp only [parseBytes]
    rw [if_neg (by rw [byteAt_take (by omega)]; exact hstar)]
    exact h3

end RespParser

/-- C1: `RespParser::parse` never touches the buffer unless it yields a
command — on any `nullopt` return (incomplete or malformed frame) the
buffer's cursors and contents are exactly as before — and on success there
is a consumed byte count `n` such that the first `n` readable bytes alone
re-parse to the same command consuming exactly `n` (the frame is exactly
those bytes, independent of any trailing bytes), the remaining readable
bytes are the previous readable bytes with that frame removed, and the
capacity is untouched. -/
theorem resp_parse_partial_atomic (buf : Buffer) (h : buf.WF) :
    ((RespParser.parse buf).1 = none → (RespParser.parse buf).2 = buf) ∧
    (∀ args, (RespParser.parse buf).1 = some args →
      ∃ n, 0 < n ∧ n ≤ buf.readableBytes ∧
        RespParser.parseBytes (buf.readableContent.take n) = some (args, n) ∧
        (RespParser.parse buf).2.readableContent = buf.readableContent.drop n ∧
        (RespParser.parse buf).2.data.length = buf.data.length) := by
  by_cases hz : buf.readableBytes = 0
  · have hp : RespParser.parse buf = (none, buf) := by
      simp [RespParser.parse, hz]
    rw [hp]
    exact ⟨fun _ => rfl, fun args hargs => by simp at hargs⟩
  · cases hpb : RespParser.parseBytes buf.readableContent with
    | none =>
      have hp : RespParser.parse buf = (none, buf) := by
        simp [RespParser.parse, hz, hpb]
      rw [hp]
      exact ⟨fun _ => rfl, fun args hargs => by simp at hargs⟩
    | some pr =>
      obtain ⟨args0, n⟩ := pr
      have hp : RespParser.parse buf = (some args0, buf.consume n) := by
        simp [RespParser.parse, hz, hpb]
      rw [hp]
      refine ⟨fun hcon => by simp at hcon, fun args hargs => ?_⟩
      obtain rfl : args0 = args := by simpa using hargs
      obtain ⟨hn1, hn2, hn3⟩ := RespParser.parseBytes_spec hpb
      have hcl : buf.readableContent.length = buf.readableBytes :=
        Buffer.readableContent_length h
      obtain ⟨-, hcc, hcap⟩ := Buffer.consume_spec buf n h (by omega)
      exact ⟨n, hn1, by omega, hn3, hcc, hcap⟩

/-- Witness for C1: on the incomplete frame "*1\r\n" the parser returns
nothing and the buffer is returned unchanged. -/
theorem resp_parse_partial_atomic_witness :
    (RespParser.parse ⟨[42, 49, 13, 10], 0, 4⟩).1 = none ∧
    (RespParser.parse ⟨[42, 49, 13, 10], 0, 4⟩).2 = ⟨[42, 49, 13, 10], 0, 4⟩ :=
  ⟨by decide,
    (resp_parse_partial_atomic ⟨[42, 49, 13, 10], 0, 4⟩ ⟨by decide, by decide⟩).1
      (by decide)⟩

/-! ## Claim C4 — TTL heap invariants -/

namespace AList

lemma lookup_nil (k : ByteStr) : lookup [] k = none := rfl

lemma lookup_cons (p : ByteStr × Nat) (m : List (ByteStr × Nat)) (k : ByteStr) :
    lookup (p :: m) k = if p.1 = k then some p.2 else lookup m k := by
  by_cases h : p.1 = k <;> simp [lookup, List.find?_cons, h]

lemma lookup_mem : ∀ {m : List (ByteStr × Nat)} {k : ByteStr} {v : Nat},
    lookup m k = some v → (k, v) ∈ m := by
  intro m
  induction m with
  | nil => intro k v h; simp [lookup] at h
  | cons p rest ih =>
    intro k v h
    rw [lookup_cons] at h
    split at h
    · rename_i hk
      obtain rfl : p.2 = v := by injection h
      subst hk
      simp
    · exact List.mem_cons_of_mem _ (ih h)

lemma mem_lookup : ∀ {m : List (ByteStr × Nat)} {k : ByteStr} {v : Nat},
    (m.map Prod.fst).Nodup → (k, v) ∈ m → lookup m k = some v := by
  intro m
  induction m with
  | nil => intro k v _ h; simp at h
  | cons p rest ih =>
    intro k v hnd h
    simp only [List.map_cons, List.nodup_cons] at hnd
    rw [lookup_cons]
    rcases List.mem_cons.mp h with hc | hmem
    · have h1 : p.1 = k := by rw [← hc]
      have h2 : p.2 = v := by rw [← hc]
      rw [if_pos h1, h2]
    · rw [if_neg ?_]
      · exact ih hnd.2 hmem
      · intro hk
        subst hk
        exact hnd.1 (List.mem_map.mpr ⟨(p.1, v), hmem, rfl⟩)

lemma lookup_none_iff {m : List (ByteStr × Nat)} {k : ByteStr} :
    lookup m k = none ↔ k ∉ m.map Prod.fst := by
  induction m with
  | nil => simp [lookup]
  | cons p rest ih =>
    rw [lookup_cons]
    by_cases h : p.1 = k
    · simp [h]
    · simp only [h, if_false, List.map_cons, List.mem_cons, ih]
      constructor
      · intro hn hc
        rcases hc with hc | hc
        · exact h hc.symm
        · exact hn hc
      · intro hn hc
        exact hn (Or.inr hc)

lemma lookup_insert_self : ∀ (m : List (ByteStr × Nat)) (k : ByteStr) (v : Nat),
    lookup (insert m k v) k = some v := by
  intro m
  induction m with
  | nil => intro k v; simp [insert, lookup_cons]
  | cons p rest ih =>
    intro k v
    simp only [insert]
    split
    · rw [lookup_cons]; simp
    · rename_i h
      rw [lookup_cons, if_neg h]
      exact ih k v

lemma lookup_insert_ne : ∀ (m : List (ByteStr × Nat)) (k : ByteStr) (v : Nat)
    (k' : ByteStr), k' ≠ k → lookup (insert m k v) k' = lookup m k' := by
  intro m
  induction m with
  | nil =>
    intro k v k' h
    simp only [insert, lookup_cons, lookup_nil]
    rw [if_neg (fun hh => h hh.symm)]
  | cons p rest ih =>
    intro k v k' h
    simp only [insert]
    split
    · rename_i hp
      rw [lookup_cons, lookup_cons]
      rw [if_neg (fun hh : k = k' => h hh.symm), if_neg (fun hh => h (hh.symm.trans hp))]
    · rw [lookup_cons, lookup_cons]
      split
      · rfl
      · exact ih k v k' h

lemma insert_map_fst_of_mem : ∀ (m : List (ByteStr × Nat)) (k : ByteStr) (v : Nat),
    k ∈ m.map Prod.fst → (insert m k v).map Prod.fst = m.map Prod.fst := by
  intro m
  induction m with
  | nil => intro k v h; simp at h
  | cons p rest ih =>
    intro k v h
    simp only [insert]
    split
    · rename_i hp
      simp [hp]
    · rename_i hp
      simp only [List.map_cons] at h ⊢
      rcases List.mem_cons.mp h with hc | hc
      · exact absurd hc.symm hp
      · rw [ih k v hc]

lemma insert_map_fst_of_not_mem : ∀ (m : List (ByteStr × Nat)) (k : ByteStr) (v : Nat),
    k ∉ m.map Prod.fst → (insert m k v).map Prod.fst = m.map Prod.fst ++ [k] := by
  intro m
  induction m with
  | nil => intro k v _; simp [insert]
  | cons p rest ih =>
    intro k v h
    simp only [List.map_cons, List.mem_cons] at h
    simp only [insert]
    split
    · rename_i hp
      exact absurd (Or.inl hp.symm) h
    · simp only [List.map_cons, List.cons_append, List.cons.injEq, true_and]
      exact ih k v (fun hh => h (Or.inr hh))

lemma insert_length_of_mem (m : List (ByteStr × Nat)) (k : ByteStr) (v : Nat)
    (h : k ∈ m.map Prod.fst) : (insert m k v).length = m.length := by
  have := congrArg List.length (insert_map_fst_of_mem m k v h)
  simpa using this

lemma insert_length_of_not_mem (m : List (ByteStr × Nat)) (k : ByteStr) (v : Nat)
    (h : k ∉ m.map Prod.fst) : (insert m k v).length = m.length + 1 := by
  have := congrArg List.length (insert_map_fst_of_not_mem m k v h)
  simpa using this

lemma nodup_insert (m : List (ByteStr × Nat)) (k : ByteStr) (v : Nat)
    (hnd : (m.map Prod.fst).Nodup) : ((insert m k v).map Prod.fst).Nodup := by
  by_cases h : k ∈ m.map Prod.fst
  · rw [insert_map_fst_of_mem m k v h]
    exact hnd
  · rw [insert_map_fst_of_not_mem m k v h]
    simp only [List.nodup_append, List.nodup_cons]
    refine ⟨hnd, by simp, ?_⟩
    intro a ha hb
    simp only [List.mem_singleton] at hb
    subst hb
    exact h ha

lemma erase_map_fst_sublist : ∀ (m : List (ByteStr × Nat)) (k : ByteStr),
    ((erase m k).map Prod.fst).Sublist (m.map Prod.fst) := by
  intro m
  induction m with
  | nil => intro k; simp [erase]
  | cons p rest ih =>
    intro k
    simp only [erase]
    split
    · simp only [List.map_cons]
      exact List.sublist_cons_self _ _
    · simp only [List.map_cons]
      exact List.Sublist.cons₂ _ (ih k)

lemma nodup_erase (m : List (ByteStr × Nat)) (k : ByteStr)
    (h : (m.map Prod.fst).Nodup) : ((erase m k).map Prod.fst).Nodup :=
  (erase_map_fst_sublist m k).nodup h

lemma lookup_erase_self : ∀ (m : List (ByteStr × Nat)) (k : ByteStr),
    (m.map Prod.fst).Nodup → lookup (erase m k) k = none := by
  intro m
  induction m with
  | nil => intro k _; simp [erase, lookup]
  | cons p rest ih =>
    intro k hnd
    simp only [List.map_cons, List.nodup_cons] at hnd
    simp only [erase]
    split
    · rename_i hp
      rw [lookup_none_iff, ← hp]
      exact hnd.1
    · rename_i hp
      rw [lookup_cons, if_neg hp]
      exact ih k hnd.2

lemma lookup_erase_ne : ∀ (m : List (ByteStr × Nat)) (k k' : ByteStr),
    k' ≠ k → lookup (erase m k) k' = lookup m k' := by
  intro m
  induction m with
  | nil => intro k k' _; simp [erase]
  | cons p rest ih =>
    intro k k' h
    simp only [erase]
    split
    · rename_i hp
      rw [lookup_cons, if_neg (fun hh => h (hh.symm.trans hp))]
    · rw [lookup_cons, lookup_cons]
      split
      · rfl
      · exact ih k k' h

lemma erase_length_of_mem : ∀ (m : List (ByteStr × Nat)) (k : ByteStr),
    k ∈ m.map Prod.fst → (erase m k).length + 1 = m.length := by
  intro m
  induction m with
  | nil => intro k h; simp at h
  | cons p rest ih =>
    intro k h
    simp only [erase]
    split
    · simp
    · rename_i hp
      simp only [List.map_cons, List.mem_cons] at h
      rcases h with h | h
      · exact absurd h.symm hp
      · have := ih k h
        simp only [List.length_cons]
        omega

end AList

namespace TTLHeap

lemma hget_eq_getElem {l : List HeapEntry} {i : Nat} (h : i < l.length) :
    hget l i = l.get ⟨i, h⟩ := by
  simp [hget, List.getD_eq_getElem?_getD, List.getElem?_eq_getElem h]

lemma hget_set_self {l : List HeapEntry} {i : Nat} (e : HeapEntry)
    (h : i < l.length) : hget (l.set i e) i = e := by
  simp [hget, List.getD_eq_getElem?_getD, List.getElem?_set, h]

lemma hget_set_ne {l : List HeapEntry} {i j : Nat} (e : HeapEntry)
    (h : i ≠ j) : hget (l.set i e) j = hget l j := by
  simp [hget, List.getD_eq_getElem?_getD, List.getElem?_set, h]

lemma hget_append_last {l : List HeapEntry} (e : HeapEntry) :
    hget (l ++ [e]) l.length = e := by
  simp [hget, List.getD_eq_getElem?_getD, List.getElem?_append_right (le_refl l.length)]

lemma hget_append_left {l : List HeapEntry} (e : HeapEntry) {i : Nat}
    (h : i < l.length) : hget (l ++ [e]) i = hget l i := by
  simp [hget, List.getD_eq_getElem?_getD, List.getElem?_append, h]

lemma hget_dropLast {l : List HeapEntry} {i : Nat} (h : i < l.length - 1) :
    hget l.dropLast i = hget l i := by
  rw [List.dropLast_eq_take]
  simp only [hget, List.getD_eq_getElem?_getD]
  rw [List.getElem?_take]
  simp [h]

lemma hget_mem {l : List HeapEntry} {i : Nat} (h : i < l.length) :
    hget l i ∈ l := by
  rw [hget_eq_getElem h]
  exact List.get_mem l i h

/-- The heap array after `swapEntries`. -/
lemma swap_heap (st : TTLHeap) (a b : Nat) :
    (st.swapEntries a b).heap =
      (st.heap.set a (hget st.heap b)).set b (hget st.heap a) := rfl

lemma swap_length (st : TTLHeap) (a b : Nat) :
    (st.swapEntries a b).heap.length = st.heap.length := by
  simp [swap_heap]

lemma swap_get_a {st : TTLHeap} {a b : Nat} (ha : a < st.heap.length)
    (hab : a ≠ b) : hget (st.swapEntries a b).heap a = hget st.heap b := by
  rw [swap_heap, hget_set_ne _ (fun hh => hab hh.symm), hget_set_self _ ha]

lemma swap_get_b {st : TTLHeap} {a b : Nat} (hb : b < st.heap.length) :
    hget (st.swapEntries a b).heap b = hget st.heap a := by
  rw [swap_heap, hget_set_self _ (by simpa using hb)]

lemma swap_get_other {st : TTLHeap} {a b j : Nat} (hja : j ≠ a) (hjb : j ≠ b) :
    hget (st.swapEntries a b).heap j = hget st.heap j := by
  rw [swap_heap, hget_set_ne _ (fun hh => hjb hh.symm),
    hget_set_ne _ (fun hh => hja hh.symm)]

/-- Swapping two in-range cells permutes the heap array. -/
lemma swap_perm {st : TTLHeap} {a b : Nat} (ha : a < st.heap.length)
    (hb : b < st.heap.length) : (st.swapEntries a b).heap.Perm st.heap := by
  rw [swap_heap]
  rw [List.perm_iff_count]
  intro x
  have hb' : b < (st.heap.set a (hget st.heap b)).length := by simpa using hb
  rw [List.count_set (hget st.heap a) x _ b hb',
    List.count_set (hget st.heap b) x st.heap a ha]
  have hga : st.heap[a] = hget st.heap a := (hget_eq_getElem ha).symm
  have hgb : (st.heap.set a (hget st.heap b))[b] = hget st.heap b := by
    have : (st.heap.set a (hget st.heap b))[b] =
        hget (st.heap.set a (hget st.heap b)) b := (hget_eq_getElem hb').symm
    rw [this]
    by_cases hab : a = b
    · subst hab
      rw [hget_set_self _ ha]
    · rw [hget_set_ne _ hab]
  rw [hga, hgb]
  have hca : hget st.heap a = x → 1 ≤ st.heap.count x := by
    intro hh
    rw [← hh]
    exact List.count_pos_iff.mpr (hget_mem ha)
  have hcb : hget st.heap b = x → 1 ≤ st.heap.count x := by
    intro hh
    rw [← hh]
    exact List.count_pos_iff.mpr (hget_mem hb)
  simp only [beq_iff_eq]
  by_cases h1 : hget st.heap a = x <;> by_cases h2 : hget st.heap b = x
  · have := hca h1
    simp only [h1, h2, eq_self_iff_true, if_true]
    omega
  · have := hca h1
    simp only [h1, eq_self_iff_true, if_true, if_neg h2]
    omega
  · have := hcb h2
    simp only [h2, eq_self_iff_true, if_true, if_neg h1]
    omega
  · simp only [if_neg h1, if_neg h2]
    omega

/-- `swapEntries` preserves the map synchronization. -/
lemma swap_sync {st : TTLHeap} {a b : Nat} (hs : Sync st)
    (ha : a < st.heap.length) (hb : b < st.heap.length) (hab : a ≠ b) :
    Sync (st.swapEntries a b) ∧ (st.swapEntries a b).map.length = st.map.length := by
  obtain ⟨hs1, hs2, hs3⟩ := hs
  have hkeyne : (hget st.heap a).key ≠ (hget st.heap b).key := by
    intro hh
    have h1 := hs1 a ha
    have h2 := hs1 b hb
    rw [hh, h2] at h1
    have hba : b = a := by injection h1
    exact hab hba.symm
  have hmap : (st.swapEntries a b).map =
      AList.insert (AList.insert st.map (hget st.heap b).key a)
        (hget st.heap a).key b := by
    show AList.insert (AList.insert st.map
      (hget ((st.heap.set a (hget st.heap b)).set b (hget st.heap a)) a).key a)
      (hget ((st.heap.set a (hget st.heap b)).set b (hget st.heap a)) b).key b = _
    rw [show hget ((st.heap.set a (hget st.heap b)).set b (hget st.heap a)) a
        = hget st.heap b from swap_get_a ha hab,
      show hget ((st.heap.set a (hget st.heap b)).set b (hget st.heap a)) b
        = hget st.heap a from swap_get_b hb]
  have hmem_b : (hget st.heap b).key ∈ st.map.map Prod.fst := by
    have := AList.lookup_mem (hs1 b hb)
    exact List.mem_map.mpr ⟨_, this, rfl⟩
  have hmem_a : (hget st.heap a).key ∈
      (AList.insert st.map (hget st.heap b).key a).map Prod.fst := by
    rw [AList.insert_map_fst_of_mem _ _ _ hmem_b]
    have := AList.lookup_mem (hs1 a ha)
    exact List.mem_map.mpr ⟨_, this, rfl⟩
  have hnd1 : ((AList.insert st.map (hget st.heap b).key a).map Prod.fst).Nodup :=
    AList.nodup_insert _ _ _ hs3
  have hnd2 : (((st.swapEntries a b).map).map Prod.fst).Nodup := by
    rw [hmap]
    exact AList.nodup_insert _ _ _ hnd1
  have hlen : (st.swapEntries a b).map.length = st.map.length := by
    rw [hmap, AList.insert_length_of_mem _ _ _ hmem_a,
      AList.insert_length_of_mem _ _ _ hmem_b]
  have hlook : ∀ k, AList.lookup (st.swapEntries a b).map k =
      (if k = (hget st.heap a).key then some b
       else if k = (hget st.heap b).key then some a
       else AList.lookup st.map k) := by
    intro k
    rw [hmap]
    by_cases h1 : k = (hget st.heap a).key
    · subst h1
      rw [if_pos rfl, AList.lookup_insert_self]
    · rw [if_neg h1, AList.lookup_insert_ne _ _ _ _ h1]
      by_cases h2 : k = (hget st.heap b).key
      · subst h2
        rw [if_pos rfl, AList.lookup_insert_self]
      · rw [if_neg h2, AList.lookup_insert_ne _ _ _ _ h2]
  refine ⟨⟨?_, ?_, hnd2⟩, hlen⟩
  · intro i hi
    rw [swap_length] at hi
    rw [hlook]
    by_cases hia : i = a
    · subst hia
      rw [swap_get_a ha hab, if_neg hkeyne.symm, if_pos rfl]
    · by_cases hib : i = b
      · subst hib
        rw [swap_get_b hb, if_pos rfl]
      · rw [swap_get_other hia hib]
        rw [if_neg ?_, if_neg ?_]
        · exact hs1 i hi
        · intro hh
          have h1 := hs1 i hi
          rw [hh, hs1 b hb] at h1
          have hbi : b = i := by injection h1
          exact hib hbi.symm
        · intro hh
          have h1 := hs1 i hi
          rw [hh, hs1 a ha] at h1
          have hai : a = i := by injection h1
          exact hia hai.symm
  · intro p hp
    have hl : AList.lookup (st.swapEntries a b).map p.1 = some p.2 := by
      apply AList.mem_lookup hnd2 ?_
      exact hp
    rw [hlook] at hl
    split at hl
    · rename_i hk1
      obtain rfl : b = p.2 := by injection hl
      refine ⟨by rw [swap_length]; exact hb, ?_⟩
      rw [swap_get_b hb, ← hk1]
    · split at hl
      · rename_i hk1 hk2
        obtain rfl : a = p.2 := by injection hl
        refine ⟨by rw [swap_length]; exact ha, ?_⟩
        rw [swap_get_a ha hab, ← hk2]
      · rename_i hk1 hk2
        obtain ⟨hlt, hkey⟩ := hs2 p (AList.lookup_mem hl)
        refine ⟨by rw [swap_length]; exact hlt, ?_⟩
        rw [swap_get_other ?_ ?_]
        · exact hkey
        · intro hh
          subst hh
          exact hk1 (by rw [← hkey])
        · intro hh
          subst hh
          exact hk2 (by rw [← hkey])

/-- `siftUp` restores the heap ordering from a `SiftUpOK` state, preserving
the map synchronization, the entry multiset, and the map size. -/
lemma siftUp_spec : ∀ (fuel : Nat) (st : TTLHeap) (idx : Nat),
    Sync st → idx < st.heap.length → idx ≤ fuel → SiftUpOK st.heap idx →
    Sync (siftUp st fuel idx) ∧ IsMinHeapL (siftUp st fuel idx).heap ∧
    (siftUp st fuel idx).heap.Perm st.heap ∧
    (siftUp st fuel idx).map.length = st.map.length := by
  intro fuel
  induction fuel with
  | zero =>
    intro st idx hs hlt hfuel hok
    obtain rfl : idx = 0 := by omega
    refine ⟨hs, ?_, List.Perm.refl _, rfl⟩
    intro c hc1 hc2
    exact hok.1 c hc1 hc2 (by omega)
  | succ f ih =>
    intro st idx hs hlt hfuel hok
    simp only [siftUp]
    by_cases hidx : idx > 0
    · rw [if_pos hidx]
      by_cases hcmp : (hget st.heap ((idx - 1) / 2)).expireAtMs ≤
          (hget st.heap idx).expireAtMs
      · rw [if_pos hcmp]
        refine ⟨hs, ?_, List.Perm.refl _, rfl⟩
        intro c hc1 hc2
        by_cases hc : c = idx
        · subst hc
          exact hcmp
        · exact hok.1 c hc1 hc2 hc
      · rw [if_neg hcmp]
        have hv : (hget st.heap idx).expireAtMs <
            (hget st.heap ((idx - 1) / 2)).expireAtMs := by omega
        have hplt : (idx - 1) / 2 < idx := by omega
        have hp_len : (idx - 1) / 2 < st.heap.length := by omega
        have hne : idx ≠ (idx - 1) / 2 := by omega
        obtain ⟨hs', hmlen'⟩ := swap_sync hs hlt hp_len hne
        have hlen' : (st.swapEntries idx ((idx - 1) / 2)).heap.length =
            st.heap.length := swap_length st idx _
        have hga : hget (st.swapEntries idx ((idx - 1) / 2)).heap idx =
            hget st.heap ((idx - 1) / 2) := swap_get_a hlt hne
        have hgb : hget (st.swapEntries idx ((idx - 1) / 2)).heap ((idx - 1) / 2) =
            hget st.heap idx := swap_get_b hp_len
        have hok' : SiftUpOK (st.swapEntries idx ((idx - 1) / 2)).heap ((idx - 1) / 2) := by
        -- the swapped array is heap-ordered except on the edge into the parent
          constructor
          · intro c hc1 hc2 hcp
            rw [hlen'] at hc2
            by_cases hci : c = idx
            · subst hci
              have hpc : parentIdx c = (c - 1) / 2 := rfl
              rw [hpc, hgb, hga]
              omega
            · have hcv : hget (st.swapEntries idx ((idx - 1) / 2)).heap c =
                  hget st.heap c := swap_get_other hci hcp
              rw [hcv]
              by_cases hpi : parentIdx c = idx
              · rw [hpi, hga]
                exact hok.2 c hc1 hc2 hpi hidx
              · by_cases hpp : parentIdx c = (idx - 1) / 2
                · rw [hpp, hgb]
                  have h1 := hok.1 c hc1 hc2 hci
                  rw [hpp] at h1
                  omega
                · rw [swap_get_other hpi hpp]
                  exact hok.1 c hc1 hc2 hci
          · intro c hc1 hc2 hcp hppos
            rw [hlen'] at hc2
            have hppi : parentIdx ((idx - 1) / 2) ≠ idx := by
              simp only [parentIdx] at *
              omega
            have hppp : parentIdx ((idx - 1) / 2) ≠ (idx - 1) / 2 := by
              simp only [parentIdx] at *
              omega
            rw [swap_get_other hppi hppp]
            have hbase : (hget st.heap (parentIdx ((idx - 1) / 2))).expireAtMs ≤
                (hget st.heap ((idx - 1) / 2)).expireAtMs := by
              have := hok.1 ((idx - 1) / 2) hppos hp_len (by omega)
              exact this
            by_cases hci : c = idx
            · subst hci
              rw [hga]
              exact hbase
            · have hcne : c ≠ (idx - 1) / 2 := by
                intro hh
                rw [hh] at hcp
                simp only [parentIdx] at hcp
                omega
              rw [swap_get_other hci hcne]
              have h1 := hok.1 c hc1 hc2 hci
              rw [hcp] at h1
              omega
        have hfuel' : (idx - 1) / 2 ≤ f := by omega
        obtain ⟨hs'', hmh'', hperm'', hml''⟩ := ih (st.swapEntries idx ((idx - 1) / 2))
          ((idx - 1) / 2) hs' (by rw [hlen']; omega) hfuel' hok'
        refine ⟨hs'', hmh'', hperm''.trans (swap_perm hlt hp_len), ?_⟩
        rw [hml'', hmlen']
    · rw [if_neg hidx]
      refine ⟨hs, ?_, List.Perm.refl _, rfl⟩
      intro c hc1 hc2
      exact hok.1 c hc1 hc2 (by omega)

/-- Swapping `idx` with its smallest (strictly smaller) child `j` leaves a
state from which `siftDown j` can restore the heap. -/
lemma siftDownOK_swap {st : TTLHeap} {idx j : Nat} (hidx : idx < st.heap.length)
    (hj : j < st.heap.length) (hpj : parentIdx j = idx) (hjgt : idx < j)
    (hok : SiftDownOK st.heap idx)
    (hlt : (hget st.heap j).expireAtMs < (hget st.heap idx).expireAtMs)
    (hmin : ∀ c, c < st.heap.length → parentIdx c = idx →
      (hget st.heap j).expireAtMs ≤ (hget st.heap c).expireAtMs) :
    SiftDownOK (st.swapEntries idx j).heap j := by
  have hne : idx ≠ j := by omega
  have hlen' := swap_length st idx j
  have hga : hget (st.swapEntries idx j).heap idx = hget st.heap j :=
    swap_get_a hidx hne
  have hgb : hget (st.swapEntries idx j).heap j = hget st.heap idx :=
    swap_get_b hj
  constructor
  · intro c hc1 hc2 hcp
    rw [hlen'] at hc2
    by_cases hci : c = idx
    · subst hci
      -- the edge into idx: its parent is unchanged and bounds the child j
      have hpar_lt : parentIdx c < c := by simp only [parentIdx]; omega
      have hp_ne_i : parentIdx c ≠ c := by omega
      have hp_ne_j : parentIdx c ≠ j := by omega
      rw [swap_get_other hp_ne_i hp_ne_j, hga]
      exact hok.2 j (by omega) hj hpj hc1
    · by_cases hcj : c = j
      · subst hcj
        rw [hpj, hga, hgb]
        omega
      · rw [swap_get_other hci hcj]
        by_cases hpi : parentIdx c = idx
        · rw [hpi, hga]
          exact hmin c hc2 hpi
        · have hpc_ne_j : parentIdx c ≠ j := hcp
          rw [swap_get_other hpi hpc_ne_j]
          exact hok.1 c hc1 hc2 hpi
  · intro c hc1 hc2 hcp _
    rw [hlen'] at hc2
    rw [hpj, hga]
    have hcj : c ≠ j := by
      intro hh
      rw [hh] at hcp
      simp only [parentIdx] at hcp
      omega
    have hci : c ≠ idx := by
      intro hh
      rw [hh] at hcp
      simp only [parentIdx] at hcp hpj
      omega
    rw [swap_get_other hci hcj]
    have := hok.1 c hc1 hc2 (by rw [hcp]; omega)
    rw [hcp] at this
    omega

/-- `siftDown` restores the heap ordering from a `SiftDownOK` state,
preserving the map synchronization, the entry multiset, and the map size. -/
lemma siftDown_spec : ∀ (fuel : Nat) (st : TTLHeap) (idx : Nat),
    Sync st → idx < st.heap.length → st.heap.length ≤ fuel + idx →
    SiftDownOK st.heap idx →
    Sync (siftDown st fuel idx) ∧ IsMinHeapL (siftDown st fuel idx).heap ∧
    (siftDown st fuel idx).heap.Perm st.heap ∧
    (siftDown st fuel idx).map.length = st.map.length := by
  intro fuel
  induction fuel with
  | zero =>
    intro st idx hs hlt hfuel hok
    omega
  | succ f ih =>
    intro st idx hs hlt hfuel hok
    simp only [siftDown]
    have hchild : ∀ c, 0 < c → parentIdx c = idx → c = 2 * idx + 1 ∨ c = 2 * idx + 2 := by
      intro c hc hp
      simp only [parentIdx] at hp
      omega
    by_cases hc1 : 2 * idx + 1 < st.heap.length ∧
        (hget st.heap (2 * idx + 1)).expireAtMs < (hget st.heap idx).expireAtMs
    · rw [if_pos hc1]
      by_cases hc2 : 2 * idx + 2 < st.heap.length ∧
          (hget st.heap (2 * idx + 2)).expireAtMs < (hget st.heap (2 * idx + 1)).expireAtMs
      · rw [if_pos hc2, if_neg (by omega)]
        -- swap with the right child
        have hpj : parentIdx (2 * idx + 2) = idx := by simp only [parentIdx]; omega
        have hok' := siftDownOK_swap hlt hc2.1 hpj (by omega) hok (by omega) ?hmin
        case hmin =>
          intro c hclen hcp
          by_cases hc0 : 0 < c
          · rcases hchild c hc0 hcp with rfl | rfl
            · omega
            · omega
          · obtain rfl : c = 0 := by omega
            simp only [parentIdx] at hcp
            obtain rfl : idx = 0 := by omega
            omega
        obtain ⟨hs', hml'⟩ := swap_sync hs hlt hc2.1 (by omega)
        obtain ⟨hs'', hmh'', hperm'', hml''⟩ := ih (st.swapEntries idx (2 * idx + 2))
          (2 * idx + 2) hs' (by rw [swap_length]; exact hc2.1)
          (by rw [swap_length]; omega) hok'
        refine ⟨hs'', hmh'', hperm''.trans (swap_perm hlt hc2.1), by rw [hml'', hml']⟩
      · rw [if_neg hc2, if_neg (by omega)]
        -- swap with the left child
        have hpj : parentIdx (2 * idx + 1) = idx := by simp only [parentIdx]; omega
        have hok' := siftDownOK_swap hlt hc1.1 hpj (by omega) hok hc1.2 ?hmin
        case hmin =>
          intro c hclen hcp
          by_cases hc0 : 0 < c
          · rcases hchild c hc0 hcp with rfl | rfl
            · omega
            · -- right child exists but is not smaller than the left child
              have : ¬((hget st.heap (2 * idx + 2)).expireAtMs <
                  (hget st.heap (2 * idx + 1)).expireAtMs) := fun hh => hc2 ⟨hclen, hh⟩
              omega
          · obtain rfl : c = 0 := by omega
            simp only [parentIdx] at hcp
            obtain rfl : idx = 0 := by omega
            omega
        obtain ⟨hs', hml'⟩ := swap_sync hs hlt hc1.1 (by omega)
        obtain ⟨hs'', hmh'', hperm'', hml''⟩ := ih (st.swapEntries idx (2 * idx + 1))
          (2 * idx + 1) hs' (by rw [swap_length]; exact hc1.1)
          (by rw [swap_length]; omega) hok'
        refine ⟨hs'', hmh'', hperm''.trans (swap_perm hlt hc1.1), by rw [hml'', hml']⟩
    · rw [if_neg hc1]
      by_cases hc2 : 2 * idx + 2 < st.heap.length ∧
          (hget st.heap (2 * idx + 2)).expireAtMs < (hget st.heap idx).expireAtMs
      · rw [if_pos hc2, if_neg (by omega)]
        -- swap with the right child (the left one is missing or not smaller)
        have hpj : parentIdx (2 * idx + 2) = idx := by simp only [parentIdx]; omega
        have hok' := siftDownOK_swap hlt hc2.1 hpj (by omega) hok hc2.2 ?hmin
        case hmin =>
          intro c hclen hcp
          by_cases hc0 : 0 < c
          · rcases hchild c hc0 hcp with rfl | rfl
            · have : ¬((hget st.heap (2 * idx + 1)).expireAtMs <
                  (hget st.heap idx).expireAtMs) := fun hh => hc1 ⟨hclen, hh⟩
              omega
            · omega
          · obtain rfl : c = 0 := by omega
            simp only [parentIdx] at hcp
            obtain rfl : idx = 0 := by omega
            omega
        obtain ⟨hs', hml'⟩ := swap_sync hs hlt hc2.1 (by omega)
        obtain ⟨hs'', hmh'', hperm'', hml''⟩ := ih (st.swapEntries idx (2 * idx + 2))
          (2 * idx + 2) hs' (by rw [swap_length]; exact hc2.1)
          (by rw [swap_length]; omega) hok'
        refine ⟨hs'', hmh'', hperm''.trans (swap_perm hlt hc2.1), by rw [hml'', hml']⟩
      · rw [if_neg hc2, if_pos rfl]
        -- no smaller child: the array is already a heap
        refine ⟨hs, ?_, List.Perm.refl _, rfl⟩
        intro c hcpos hclen
        by_cases hcp : parentIdx c = idx
        · rcases hchild c hcpos hcp with rfl | rfl
          · rw [hcp]
            have : ¬((hget st.heap (2 * idx + 1)).expireAtMs <
                (hget st.heap idx).expireAtMs) := fun hh => hc1 ⟨hclen, hh⟩
            omega
          · rw [hcp]
            have : ¬((hget st.heap (2 * idx + 2)).expireAtMs <
                (hget st.heap idx).expireAtMs) := fun hh => hc2 ⟨hclen, hh⟩
            omega
        · exact hok.1 c hcpos hclen hcp

/-- `siftUp` does nothing when the entry already sits at or above its
parent. -/
lemma siftUp_noswap {st : TTLHeap} {idx : Nat} (fuel : Nat)
    (h : idx = 0 ∨ (hget st.heap (parentIdx idx)).expireAtMs ≤
      (hget st.heap idx).expireAtMs) :
    siftUp st fuel idx = st := by
  cases fuel with
  | zero => rfl
  | succ f =>
    simp only [siftUp]
    rcases h with rfl | hle
    · simp
    · by_cases hidx : idx > 0
      · simp only [parentIdx] at hle
        rw [if_pos hidx, if_pos hle]
      · rw [if_neg hidx]

/-- On a well-formed heap `siftUp` is the identity. -/
lemma siftUp_of_minheap {st : TTLHeap} {idx : Nat} (fuel : Nat)
    (hm : IsMinHeapL st.heap) (hidx : idx < st.heap.length) :
    siftUp st fuel idx = st := by
  apply siftUp_noswap
  by_cases h : idx = 0
  · exact Or.inl h
  · exact Or.inr (hm idx (by omega) hidx)

/-- `siftDown` does nothing when no child is strictly smaller. -/
lemma siftDown_noswap {st : TTLHeap} {idx : Nat} (fuel : Nat)
    (hl : ¬(2 * idx + 1 < st.heap.length ∧
      (hget st.heap (2 * idx + 1)).expireAtMs < (hget st.heap idx).expireAtMs))
    (hr : ¬(2 * idx + 2 < st.heap.length ∧
      (hget st.heap (2 * idx + 2)).expireAtMs < (hget st.heap idx).expireAtMs)) :
    siftDown st fuel idx = st := by
  cases fuel with
  | zero => rfl
  | succ f =>
    simp only [siftDown]
    rw [if_neg hl, if_neg hr, if_pos rfl]

/-- On a well-formed heap `siftDown` is the identity. -/
lemma siftDown_of_minheap {st : TTLHeap} {idx : Nat} (fuel : Nat)
    (hm : IsMinHeapL st.heap) (hidx : idx < st.heap.length) :
    siftDown st fuel idx = st := by
  apply siftDown_noswap
  · intro ⟨h1, h2⟩
    have := hm (2 * idx + 1) (by omega) h1
    simp only [parentIdx] at this
    have heq : (2 * idx + 1 - 1) / 2 = idx := by omega
    rw [heq] at this
    omega
  · intro ⟨h1, h2⟩
    have := hm (2 * idx + 2) (by omega) h1
    simp only [parentIdx] at this
    have heq : (2 * idx + 2 - 1) / 2 = idx := by omega
    rw [heq] at this
    omega

end TTLHeap

namespace AList

lemma mem_insert : ∀ {m : List (ByteStr × Nat)} {k : ByteStr} {v : Nat}
    {p : ByteStr × Nat}, p ∈ insert m k v → p = (k, v) ∨ p ∈ m := by
  intro m
  induction m with
  | nil =>
    intro k v p h
    simp [insert] at h
    exact Or.inl (by cases p; simp_all)
  | cons q rest ih =>
    intro k v p h
    simp only [insert] at h
    split at h
    · rcases List.mem_cons.mp h with hc | hc
      · exact Or.inl hc
      · exact Or.inr (List.mem_cons_of_mem _ hc)
    · rcases List.mem_cons.mp h with hc | hc
      · exact Or.inr (by rw [hc]; exact List.mem_cons_self _ _)
      · rcases ih hc with hc2 | hc2
        · exact Or.inl hc2
        · exact Or.inr (List.mem_cons_of_mem _ hc2)

lemma mem_of_mem_erase : ∀ {m : List (ByteStr × Nat)} {k : ByteStr}
    {p : ByteStr × Nat}, p ∈ erase m k → p ∈ m := by
  intro m
  induction m with
  | nil => intro k p h; simp [erase] at h
  | cons q rest ih =>
    intro k p h
    simp only [erase] at h
    split at h
    · exact List.mem_cons_of_mem _ h
    · rcases List.mem_cons.mp h with hc | hc
      · rw [hc]; exact List.mem_cons_self _ _
      · exact List.mem_cons_of_mem _ (ih hc)

end AList

namespace TTLHeap

/-- Under `Sync` the position map is a permutation of the graph of the heap
index function, so heap and map have the same size (INV-3). -/
lemma sync_length {st : TTLHeap} (hs : Sync st) : st.map.length = st.heap.length := by
  obtain ⟨hs1, hs2, hs3⟩ := hs
  have hperm : st.map.Perm
      ((List.range st.heap.length).map fun i => ((hget st.heap i).key, i)) := by
    have hnd1 : st.map.Nodup := List.Nodup.of_map Prod.fst hs3
    have hnd2 : ((List.range st.heap.length).map
        fun i => ((hget st.heap i).key, i)).Nodup := by
      refine List.Nodup.map ?_ (List.nodup_range _)
      intro a b hab
      exact congrArg Prod.snd hab
    rw [List.perm_ext_iff_of_nodup hnd1 hnd2]
    intro p
    constructor
    · intro hp
      obtain ⟨h2, h3⟩ := hs2 p hp
      obtain ⟨pa, pb⟩ := p
      simp only [List.mem_map, List.mem_range]
      exact ⟨pb, h2, by simp only [Prod.mk.injEq]; exact ⟨h3, trivial⟩⟩
    · intro hp
      simp only [List.mem_map, List.mem_range] at hp
      obtain ⟨i, hi, hpe⟩ := hp
      have hl := AList.lookup_mem (hs1 i hi)
      rw [← hpe]
      exact hl
  have hlen := hperm.length_eq
  simpa using hlen

/-- The empty TTL index satisfies the invariant. -/
lemma inv_empty : Inv TTLHeap.empty := by
  refine ⟨⟨?_, ?_, ?_⟩, ?_⟩
  · intro i hi
    exact absurd hi (by simp [empty])
  · intro p hp
    exact absurd hp (by simp [empty])
  · simp [empty]
  · intro i hpos hi
    exact absurd hi (by simp [empty])

lemma parentIdx_lt {i : Nat} (h : 0 < i) : parentIdx i < i := by
  simp only [parentIdx]
  omega

/-- In a min-heap the root holds a minimal deadline. -/
lemma root_min {l : List HeapEntry} (hm : IsMinHeapL l) :
    ∀ i, i < l.length → (hget l 0).expireAtMs ≤ (hget l i).expireAtMs := by
  intro i
  induction i using Nat.strong_induction_on with
  | _ i ih =>
    intro hi
    rcases Nat.eq_zero_or_pos i with rfl | hpos
    · exact le_refl _
    · exact le_trans (ih (parentIdx i) (parentIdx_lt hpos)
        (lt_trans (parentIdx_lt hpos) hi)) (hm i hpos hi)

/-- Appending a fresh key at the back keeps the map synchronised. -/
lemma append_sync {st : TTLHeap} {k : ByteStr} {t : Int}
    (hs : Sync st) (habs : AList.lookup st.map k = none) :
    Sync ⟨st.heap ++ [⟨k, t⟩], AList.insert st.map k st.heap.length⟩ := by
  obtain ⟨hs1, hs2, hs3⟩ := hs
  have hkeyne : ∀ i, i < st.heap.length → (hget st.heap i).key ≠ k := by
    intro i hi hk
    have h := hs1 i hi
    rw [hk, habs] at h
    exact Option.noConfusion h
  refine ⟨?_, ?_, ?_⟩
  · show ∀ i, i < (st.heap ++ [(⟨k, t⟩ : HeapEntry)]).length →
      AList.lookup (AList.insert st.map k st.heap.length)
        (hget (st.heap ++ [(⟨k, t⟩ : HeapEntry)]) i).key = some i
    intro i hi
    simp only [List.length_append, List.length_cons, List.length_nil] at hi
    rcases Nat.lt_or_ge i st.heap.length with hlt | hge
    · rw [hget_append_left _ hlt, AList.lookup_insert_ne _ _ _ _ (hkeyne i hlt)]
      exact hs1 i hlt
    · have hieq : i = st.heap.length := by omega
      subst hieq
      rw [hget_append_last]
      exact AList.lookup_insert_self _ _ _
  · show ∀ p ∈ AList.insert st.map k st.heap.length,
      p.2 < (st.heap ++ [(⟨k, t⟩ : HeapEntry)]).length ∧
      (hget (st.heap ++ [(⟨k, t⟩ : HeapEntry)]) p.2).key = p.1
    intro p hp
    rcases AList.mem_insert hp with rfl | hpm
    · refine ⟨by simp, ?_⟩
      show (hget (st.heap ++ [(⟨k, t⟩ : HeapEntry)]) st.heap.length).key = k
      rw [hget_append_last]
    · obtain ⟨h2, h3⟩ := hs2 p hpm
      refine ⟨by simp; omega, ?_⟩
      rw [hget_append_left _ h2]
      exact h3
  · show ((AList.insert st.map k st.heap.length).map Prod.fst).Nodup
    exact AList.nodup_insert _ _ _ hs3

/-- Appending any entry at the back leaves a state `siftUp` can repair. -/
lemma append_siftUpOK {st : TTLHeap} (e : HeapEntry) (hmh : IsMinHeapL st.heap) :
    SiftUpOK (st.heap ++ [e]) st.heap.length := by
  constructor
  · intro c hc0 hclen hcne
    have hclen2 : c < st.heap.length + 1 := by simpa using hclen
    have hclen' : c < st.heap.length := by omega
    have hp : parentIdx c < st.heap.length := lt_trans (parentIdx_lt hc0) hclen'
    rw [hget_append_left _ hclen', hget_append_left _ hp]
    exact hmh c hc0 hclen'
  · intro c hc0 hclen hpc hpos
    have hclen2 : c < st.heap.length + 1 := by simpa using hclen
    have hlt : parentIdx c < c := parentIdx_lt hc0
    exfalso
    omega

/-- `push` on an absent key appends the entry and sifts it up: the invariant
holds afterwards, the heap is a permutation of the old heap plus the new
entry, and the map grows by one binding. -/
lemma pushNew_spec {st : TTLHeap} {k : ByteStr} {t : Int} (hinv : Inv st)
    (habs : AList.lookup st.map k = none) :
    Inv (pushNew st k t) ∧
    (pushNew st k t).heap.Perm (st.heap ++ [⟨k, t⟩]) ∧
    (pushNew st k t).map.length = st.map.length + 1 := by
  obtain ⟨hs, hmh⟩ := hinv
  have hs' : Sync ⟨st.heap ++ [⟨k, t⟩], AList.insert st.map k st.heap.length⟩ :=
    append_sync hs habs
  have hok : SiftUpOK (st.heap ++ [⟨k, t⟩]) st.heap.length := append_siftUpOK _ hmh
  have hlt : st.heap.length <
      (⟨st.heap ++ [⟨k, t⟩], AList.insert st.map k st.heap.length⟩ : TTLHeap).heap.length := by
    show st.heap.length < (st.heap ++ [(⟨k, t⟩ : HeapEntry)]).length
    simp
  have hspec := siftUp_spec st.heap.length
    ⟨st.heap ++ [⟨k, t⟩], AList.insert st.map k st.heap.length⟩ st.heap.length
    hs' hlt (le_refl _) hok
  have hpn : pushNew st k t =
      siftUp ⟨st.heap ++ [⟨k, t⟩], AList.insert st.map k st.heap.length⟩
        st.heap.length st.heap.length := rfl
  rw [hpn]
  obtain ⟨hsy, hm, hperm, hml⟩ := hspec
  refine ⟨⟨hsy, hm⟩, hperm, ?_⟩
  rw [hml]
  show (AList.insert st.map k st.heap.length).length = st.map.length + 1
  exact AList.insert_length_of_not_mem _ _ _ (AList.lookup_none_iff.mp habs)

/-- Overwriting a deadline in place keeps the map synchronised: the key at
`idx` is unchanged. -/
lemma set_sync {st : TTLHeap} {idx : Nat} (t : Int) (hs : Sync st)
    (hidx : idx < st.heap.length) :
    Sync ⟨st.heap.set idx ⟨(hget st.heap idx).key, t⟩, st.map⟩ := by
  obtain ⟨hs1, hs2, hs3⟩ := hs
  refine ⟨?_, ?_, ?_⟩
  · show ∀ i, i < (st.heap.set idx ⟨(hget st.heap idx).key, t⟩).length →
      AList.lookup st.map
        (hget (st.heap.set idx ⟨(hget st.heap idx).key, t⟩) i).key = some i
    intro i hi
    rw [List.length_set] at hi
    by_cases hieq : i = idx
    · subst hieq
      rw [hget_set_self _ hi]
      exact hs1 i hi
    · rw [hget_set_ne _ (fun hh => hieq hh.symm)]
      exact hs1 i hi
  · show ∀ p ∈ st.map, p.2 < (st.heap.set idx ⟨(hget st.heap idx).key, t⟩).length ∧
      (hget (st.heap.set idx ⟨(hget st.heap idx).key, t⟩) p.2).key = p.1
    intro p hp
    obtain ⟨h2, h3⟩ := hs2 p hp
    refine ⟨by rw [List.length_set]; exact h2, ?_⟩
    by_cases hpe : p.2 = idx
    · rw [hpe, hget_set_self _ hidx]
      show (hget st.heap idx).key = p.1
      rw [← hpe]
      exact h3
    · rw [hget_set_ne _ (fun hh => hpe hh.symm)]
      exact h3
  · exact hs3

/-- `update` on a present key rewrites the deadline in place, then sifts in
whichever direction is needed; the invariant holds afterwards, the heap is a
permutation of the in-place overwrite, and the map is untouched. -/
lemma updateExisting_spec {st : TTLHeap} {idx : Nat} {t : Int} (hinv : Inv st)
    (hidx : idx < st.heap.length) :
    Inv (updateExisting st idx t) ∧
    (updateExisting st idx t).heap.Perm
      (st.heap.set idx ⟨(hget st.heap idx).key, t⟩) ∧
    (updateExisting st idx t).map.length = st.map.length := by
  obtain ⟨hs, hmh⟩ := hinv
  set e2 : HeapEntry := ⟨(hget st.heap idx).key, t⟩ with he2
  set st2 : TTLHeap := ⟨st.heap.set idx e2, st.map⟩ with hst2
  have hs' : Sync st2 := set_sync t hs hidx
  have hlen2 : st2.heap.length = st.heap.length := by
    show (st.heap.set idx e2).length = st.heap.length
    simp
  have hidx2 : idx < st2.heap.length := by omega
  have hgidx : hget st2.heap idx = e2 := hget_set_self _ hidx
  have hgne : ∀ j, j ≠ idx → hget st2.heap j = hget st.heap j := by
    intro j hj
    exact hget_set_ne _ (fun hh => hj hh.symm)
  show Inv (siftDown (siftUp st2 idx idx) st2.heap.length idx) ∧
    (siftDown (siftUp st2 idx idx) st2.heap.length idx).heap.Perm st2.heap ∧
    (siftDown (siftUp st2 idx idx) st2.heap.length idx).map.length = st.map.length
  by_cases hA : idx = 0 ∨
      (hget st2.heap (parentIdx idx)).expireAtMs ≤ (hget st2.heap idx).expireAtMs
  · have hup : siftUp st2 idx idx = st2 := siftUp_noswap idx hA
    have hok : SiftDownOK st2.heap idx := by
      constructor
      · intro c hc0 hclen hpc
        by_cases hceq : c = idx
        · subst hceq
          rcases hA with h0 | hle
          · exact absurd h0 (by omega)
          · exact hle
        · rw [hgne c hceq, hgne (parentIdx c) hpc]
          exact hmh c hc0 (by omega)
      · intro c hc0 hclen hpc hpos
        have hpi : parentIdx idx ≠ idx := Nat.ne_of_lt (parentIdx_lt hpos)
        have hcne : c ≠ idx := by
          intro hh
          rw [hh] at hpc
          exact hpi hpc
        rw [hgne c hcne, hgne (parentIdx idx) hpi]
        have h1 := hmh idx hpos hidx
        have h2 := hmh c hc0 (by omega)
        rw [hpc] at h2
        exact le_trans h1 h2
    rw [hup]
    have hfin := siftDown_spec st2.heap.length st2 idx hs' hidx2 (by omega) hok
    obtain ⟨hsy, hm2, hperm, hml⟩ := hfin
    exact ⟨⟨hsy, hm2⟩, hperm, by rw [hml]⟩
  · push_neg at hA
    obtain ⟨h0, hlt2⟩ := hA
    have hpos : 0 < idx := Nat.pos_of_ne_zero h0
    have hpi : parentIdx idx ≠ idx := Nat.ne_of_lt (parentIdx_lt hpos)
    have hgp : hget st2.heap (parentIdx idx) = hget st.heap (parentIdx idx) :=
      hgne _ hpi
    have h3 : t < (hget st.heap (parentIdx idx)).expireAtMs := by
      rw [hgidx, hgp] at hlt2
      exact hlt2
    have hok : SiftUpOK st2.heap idx := by
      constructor
      · intro c hc0 hclen hcne
        have hclen' : c < st.heap.length := by omega
        by_cases hpc : parentIdx c = idx
        · rw [hpc, hgidx, hgne c hcne]
          show t ≤ (hget st.heap c).expireAtMs
          have h1 := hmh idx hpos hidx
          have h2 := hmh c hc0 hclen'
          rw [hpc] at h2
          omega
        · rw [hgne c hcne, hgne (parentIdx c) hpc]
          exact hmh c hc0 hclen'
      · intro c hc0 hclen hpc hpos'
        have hclen' : c < st.heap.length := by omega
        have hcne : c ≠ idx := by
          intro hh
          rw [hh] at hpc
          exact hpi hpc
        rw [hgne c hcne, hgp]
        have h1 := hmh idx hpos hidx
        have h2 := hmh c hc0 hclen'
        rw [hpc] at h2
        exact le_trans h1 h2
    have hup := siftUp_spec idx st2 idx hs' hidx2 (le_refl _) hok
    obtain ⟨hsy, hm2, hperm, hml⟩ := hup
    have hdown : siftDown (siftUp st2 idx idx) st2.heap.length idx =
        siftUp st2 idx idx := by
      apply siftDown_of_minheap _ hm2
      rw [hperm.length_eq]
      exact hidx2
    rw [hdown]
    exact ⟨⟨hsy, hm2⟩, hperm, by rw [hml]⟩

/-- Dropping the last heap entry and erasing its key keeps the map
synchronised. -/
lemma popBack_sync {st : TTLHeap} (hs : Sync st) (hne : 0 < st.heap.length) :
    Sync ⟨st.heap.dropLast,
      AList.erase st.map (hget st.heap (st.heap.length - 1)).key⟩ := by
  obtain ⟨hs1, hs2, hs3⟩ := hs
  have hdl : st.heap.dropLast.length = st.heap.length - 1 := List.length_dropLast _
  refine ⟨?_, ?_, ?_⟩
  · show ∀ i, i < st.heap.dropLast.length →
      AList.lookup (AList.erase st.map (hget st.heap (st.heap.length - 1)).key)
        (hget st.heap.dropLast i).key = some i
    intro i hi
    rw [hdl] at hi
    rw [hget_dropLast hi]
    have hne2 : (hget st.heap i).key ≠ (hget st.heap (st.heap.length - 1)).key := by
      intro hh
      have ha := hs1 i (by omega)
      have hb := hs1 (st.heap.length - 1) (by omega)
      rw [hh, hb] at ha
      have hlast : st.heap.length - 1 = i := by injection ha
      omega
    rw [AList.lookup_erase_ne _ _ _ hne2]
    exact hs1 i (by omega)
  · show ∀ p ∈ AList.erase st.map (hget st.heap (st.heap.length - 1)).key,
      p.2 < st.heap.dropLast.length ∧ (hget st.heap.dropLast p.2).key = p.1
    intro p hp
    have hpm := AList.mem_of_mem_erase hp
    obtain ⟨h2, h3⟩ := hs2 p hpm
    have hplast : p.2 ≠ st.heap.length - 1 := by
      intro hh
      have hkl : p.1 = (hget st.heap (st.heap.length - 1)).key := by rw [← h3, hh]
      have hnone := AList.lookup_erase_self st.map
        (hget st.heap (st.heap.length - 1)).key hs3
      have hnotin := AList.lookup_none_iff.mp hnone
      have hmem : p.1 ∈ (AList.erase st.map
          (hget st.heap (st.heap.length - 1)).key).map Prod.fst :=
        List.mem_map_of_mem Prod.fst hp
      rw [hkl] at hmem
      exact hnotin hmem
    refine ⟨by rw [hdl]; omega, ?_⟩
    rw [hget_dropLast (by omega)]
    exact h3
  · show (((AList.erase st.map (hget st.heap (st.heap.length - 1)).key)).map
      Prod.fst).Nodup
    exact AList.nodup_erase _ _ hs3

/-- A prefix of a min-heap is a min-heap. -/
lemma dropLast_minheap {l : List HeapEntry} (hm : IsMinHeapL l) :
    IsMinHeapL l.dropLast := by
  intro i hpos hi
  rw [List.length_dropLast] at hi
  have hp := parentIdx_lt hpos
  rw [hget_dropLast (by omega), hget_dropLast hi]
  exact hm i hpos (by omega)

/-- Removing the entry at `idx` (not the last slot) by swapping with the last
slot, popping the back, and sifting restores the full invariant; every entry
of the result was already in `st`. -/
lemma removeIdx_spec {st st2 : TTLHeap} {idx : Nat} (hinv : Inv st)
    (hidx : idx < st.heap.length - 1)
    (hheap : st2.heap = (st.swapEntries idx (st.heap.length - 1)).heap.dropLast)
    (hmap : st2.map = AList.erase (st.swapEntries idx (st.heap.length - 1)).map
      (hget (st.swapEntries idx (st.heap.length - 1)).heap (st.heap.length - 1)).key) :
    Inv (siftUp (siftDown st2 st2.heap.length idx) idx idx) ∧
    (∀ e ∈ (siftUp (siftDown st2 st2.heap.length idx) idx idx).heap, e ∈ st.heap) ∧
    (siftUp (siftDown st2 st2.heap.length idx) idx idx).heap.Perm st2.heap := by
  obtain ⟨hs, hmh⟩ := hinv
  have hidxlen : idx < st.heap.length := by omega
  have hlastlen : st.heap.length - 1 < st.heap.length := by omega
  have hneq : idx ≠ st.heap.length - 1 := by omega
  obtain ⟨hsw, hswml⟩ := swap_sync hs hidxlen hlastlen hneq
  have hlen1 : (st.swapEntries idx (st.heap.length - 1)).heap.length =
      st.heap.length := swap_length st idx (st.heap.length - 1)
  have hpos1 : 0 < (st.swapEntries idx (st.heap.length - 1)).heap.length := by omega
  have hsync2 := popBack_sync hsw hpos1
  rw [hlen1] at hsync2
  have hsteq : st2 = ⟨st2.heap, st2.map⟩ := rfl
  rw [hheap, hmap] at hsteq
  have hs2 : Sync st2 := by rw [hsteq]; exact hsync2
  have hlen2 : st2.heap.length = st.heap.length - 1 := by
    rw [hheap, List.length_dropLast, hlen1]
  have hg2ne : ∀ j, j < st.heap.length - 1 → j ≠ idx →
      hget st2.heap j = hget st.heap j := by
    intro j hj hji
    rw [hheap, hget_dropLast (by rw [hlen1]; omega)]
    exact swap_get_other hji (by omega)
  have hg2idx : hget st2.heap idx = hget st.heap (st.heap.length - 1) := by
    rw [hheap, hget_dropLast (by rw [hlen1]; omega)]
    exact swap_get_a hidxlen hneq
  have hexc : ∀ c, 0 < c → c < st2.heap.length → c ≠ idx → parentIdx c ≠ idx →
      (hget st2.heap (parentIdx c)).expireAtMs ≤ (hget st2.heap c).expireAtMs := by
    intro c hc0 hclen hcne hpne
    have hclen' : c < st.heap.length - 1 := by omega
    have hplt : parentIdx c < c := parentIdx_lt hc0
    rw [hg2ne c hclen' hcne, hg2ne (parentIdx c) (by omega) hpne]
    exact hmh c hc0 (by omega)
  have hpar : ∀ c, 0 < c → c < st2.heap.length → parentIdx c = idx → 0 < idx →
      (hget st2.heap (parentIdx idx)).expireAtMs ≤ (hget st2.heap c).expireAtMs := by
    intro c hc0 hclen hpc hpos
    have hclen' : c < st.heap.length - 1 := by omega
    have hplt : parentIdx c < c := parentIdx_lt hc0
    have hcne : c ≠ idx := by omega
    have hpine : parentIdx idx ≠ idx := Nat.ne_of_lt (parentIdx_lt hpos)
    have hpilt : parentIdx idx < idx := parentIdx_lt hpos
    rw [hg2ne c hclen' hcne, hg2ne (parentIdx idx) (by omega) hpine]
    have h1 := hmh idx hpos hidxlen
    have h2 := hmh c hc0 (by omega)
    rw [hpc] at h2
    exact le_trans h1 h2
  by_cases hB : idx = 0 ∨
      (hget st2.heap (parentIdx idx)).expireAtMs ≤ (hget st2.heap idx).expireAtMs
  · have hok : SiftDownOK st2.heap idx := by
      constructor
      · intro c hc0 hclen hpne
        by_cases hceq : c = idx
        · subst hceq
          rcases hB with h0 | hle
          · exact absurd h0 (by omega)
          · exact hle
        · exact hexc c hc0 hclen hceq hpne
      · exact hpar
    have hidx2 : idx < st2.heap.length := by omega
    have hfin := siftDown_spec st2.heap.length st2 idx hs2 hidx2 (by omega) hok
    obtain ⟨hsy, hm2, hperm, hml⟩ := hfin
    have hupid : siftUp (siftDown st2 st2.heap.length idx) idx idx =
        siftDown st2 st2.heap.length idx := by
      apply siftUp_of_minheap _ hm2
      rw [hperm.length_eq]
      exact hidx2
    rw [hupid]
    refine ⟨⟨hsy, hm2⟩, ?_, hperm⟩
    intro e he
    have he2 : e ∈ st2.heap := hperm.subset he
    have he3 : e ∈ (st.swapEntries idx (st.heap.length - 1)).heap := by
      rw [hheap] at he2
      exact (List.dropLast_sublist _).subset he2
    exact (swap_perm hidxlen hlastlen).subset he3
  · push_neg at hB
    obtain ⟨h0, hltp⟩ := hB
    have hpos : 0 < idx := Nat.pos_of_ne_zero h0
    have hidx2 : idx < st2.heap.length := by omega
    have hpine : parentIdx idx ≠ idx := Nat.ne_of_lt (parentIdx_lt hpos)
    have hpilt : parentIdx idx < idx := parentIdx_lt hpos
    rw [hg2ne (parentIdx idx) (by omega) hpine] at hltp
    have hdown : siftDown st2 st2.heap.length idx = st2 := by
      apply siftDown_noswap
      · intro hcc
        obtain ⟨hc1, hc2⟩ := hcc
        have hpc : parentIdx (2 * idx + 1) = idx := by simp only [parentIdx]; omega
        have hclen' : 2 * idx + 1 < st.heap.length - 1 := by omega
        rw [hg2ne _ hclen' (by omega)] at hc2
        have h1 := hmh idx hpos hidxlen
        have h2 := hmh (2 * idx + 1) (by omega) (by omega)
        rw [hpc] at h2
        omega
      · intro hcc
        obtain ⟨hc1, hc2⟩ := hcc
        have hpc : parentIdx (2 * idx + 2) = idx := by simp only [parentIdx]; omega
        have hclen' : 2 * idx + 2 < st.heap.length - 1 := by omega
        rw [hg2ne _ hclen' (by omega)] at hc2
        have h1 := hmh idx hpos hidxlen
        have h2 := hmh (2 * idx + 2) (by omega) (by omega)
        rw [hpc] at h2
        omega
    rw [hdown]
    have hok : SiftUpOK st2.heap idx := by
      constructor
      · intro c hc0 hclen hcne
        by_cases hpc : parentIdx c = idx
        · rw [hpc]
          have hclen' : c < st.heap.length - 1 := by omega
          rw [hg2ne c hclen' hcne]
          have h1 := hmh idx hpos hidxlen
          have h2 := hmh c hc0 (by omega)
          rw [hpc] at h2
          omega
        · exact hexc c hc0 hclen hcne hpc
      · exact hpar
    have hup := siftUp_spec idx st2 idx hs2 hidx2 (le_refl _) hok
    obtain ⟨hsy, hm2, hperm, hml⟩ := hup
    refine ⟨⟨hsy, hm2⟩, ?_, hperm⟩
    intro e he
    have he2 : e ∈ st2.heap := hperm.subset he
    have he3 : e ∈ (st.swapEntries idx (st.heap.length - 1)).heap := by
      rw [hheap] at he2
      exact (List.dropLast_sublist _).subset he2
    exact (swap_perm hidxlen hlastlen).subset he3

lemma remove_inv {st : TTLHeap} (k : ByteStr) (hinv : Inv st) :
    Inv (remove st k) := by
  cases hlook : AList.lookup st.map k with
  | none =>
    simp only [remove, hlook]
    exact hinv
  | some idx =>
    have hs := hinv.1
    have hmh := hinv.2
    have hidxlen : idx < st.heap.length := (hs.2.1 (k, idx) (AList.lookup_mem hlook)).1
    simp only [remove, hlook]
    by_cases hne : idx = st.heap.length - 1
    · rw [if_neg (by omega : ¬idx ≠ st.heap.length - 1)]
      rw [if_neg (show ¬idx < st.heap.dropLast.length by
        rw [List.length_dropLast]; omega)]
      exact ⟨popBack_sync hs (by omega), dropLast_minheap hmh⟩
    · rw [if_pos hne]
      rw [if_pos (show idx < (st.swapEntries idx (st.heap.length - 1)).heap.dropLast.length by
        rw [List.length_dropLast, swap_length]; omega)]
      exact (removeIdx_spec hinv (by omega) rfl rfl).1

/-- A looked-up index is in heap range. -/
lemma lookup_idx_lt {st : TTLHeap} {k : ByteStr} {idx : Nat} (hs : Sync st)
    (hlook : AList.lookup st.map k = some idx) : idx < st.heap.length :=
  (hs.2.1 (k, idx) (AList.lookup_mem hlook)).1

/-- Under `Sync`, heap cells at distinct positions hold distinct keys. -/
lemma heap_keys_ne {st : TTLHeap} (hs : Sync st) {i j : Nat}
    (hi : i < st.heap.length) (hj : j < st.heap.length) (hij : i ≠ j) :
    (hget st.heap i).key ≠ (hget st.heap j).key := by
  intro heq
  have h1 := hs.1 i hi
  have h2 := hs.1 j hj
  rw [heq] at h1
  rw [h1] at h2
  exact hij (Option.some.inj h2)

/-- A key held by no heap entry has no binding in a synced position map. -/
lemma lookup_none_of_not_key {st : TTLHeap} (hs : Sync st) (k : ByteStr)
    (hnk : ∀ e ∈ st.heap, e.key ≠ k) : AList.lookup st.map k = none := by
  cases hl : AList.lookup st.map k with
  | none => rfl
  | some j =>
    have hmem := AList.lookup_mem hl
    obtain ⟨hjlen, hkey⟩ := hs.2.1 (k, j) hmem
    exact absurd hkey (hnk (hget st.heap j) (hget_mem hjlen))

/-- `TTLHeap::remove` leaves no binding of the key in the position map. -/
lemma remove_lookup_none {st : TTLHeap} (k : ByteStr) (hinv : Inv st) :
    AList.lookup (remove st k).map k = none := by
  cases hlook : AList.lookup st.map k with
  | none =>
    simp only [remove, hlook]
  | some idx =>
    have hs := hinv.1
    have hidxlen : idx < st.heap.length := lookup_idx_lt hs hlook
    have hki : (hget st.heap idx).key = k := (hs.2.1 (k, idx) (AList.lookup_mem hlook)).2
    simp only [remove, hlook]
    by_cases hne : idx = st.heap.length - 1
    · rw [if_neg (by omega : ¬idx ≠ st.heap.length - 1)]
      rw [if_neg (show ¬idx < st.heap.dropLast.length by
        rw [List.length_dropLast]; omega)]
      show AList.lookup (AList.erase st.map (hget st.heap (st.heap.length - 1)).key) k = none
      rw [← hne, hki]
      exact AList.lookup_erase_self st.map k hs.2.2
    · rw [if_pos hne]
      rw [if_pos (show idx < (st.swapEntries idx (st.heap.length - 1)).heap.dropLast.length by
        rw [List.length_dropLast, swap_length]; omega)]
      obtain ⟨hinvf, hsubf, hpermf⟩ :=
        @removeIdx_spec st
          ⟨(st.swapEntries idx (st.heap.length - 1)).heap.dropLast,
            AList.erase (st.swapEntries idx (st.heap.length - 1)).map
              (hget (st.swapEntries idx (st.heap.length - 1)).heap
                (st.heap.length - 1)).key⟩ idx hinv
          (show idx < st.heap.length - 1 by omega) rfl rfl
      apply lookup_none_of_not_key hinvf.1 k
      intro e he
      have he2 : e ∈ (st.swapEntries idx (st.heap.length - 1)).heap.dropLast :=
        hpermf.subset he
      obtain ⟨m, hm, hem⟩ := List.mem_iff_getElem.mp he2
      have hmlen : m < st.heap.length - 1 := by
        have hm2 := hm
        rw [List.length_dropLast, swap_length] at hm2
        exact hm2
      have hee : e = hget ((st.swapEntries idx (st.heap.length - 1)).heap.dropLast) m := by
        rw [hget_eq_getElem hm]
        exact hem.symm
      rw [hee, hget_dropLast (by rw [swap_length]; exact hmlen)]
      by_cases hmi : m = idx
      · subst hmi
        rw [swap_get_a (by omega) (by omega)]
        rw [← hki]
        exact heap_keys_ne hs (by omega) hidxlen (by omega)
      · rw [swap_get_other hmi (by omega)]
        rw [← hki]
        exact heap_keys_ne hs (by omega) hidxlen hmi

lemma push_inv {st : TTLHeap} (k : ByteStr) (t : Int) (hinv : Inv st) :
    Inv (push st k t) := by
  cases hlook : AList.lookup st.map k with
  | none =>
    simp only [push, hlook]
    exact (pushNew_spec hinv hlook).1
  | some idx =>
    simp only [push, hlook]
    exact (updateExisting_spec hinv (lookup_idx_lt hinv.1 hlook)).1

lemma update_inv {st : TTLHeap} (k : ByteStr) (t : Int) (hinv : Inv st) :
    Inv (update st k t) := by
  cases hlook : AList.lookup st.map k with
  | none =>
    simp only [update, hlook]
    exact (pushNew_spec hinv hlook).1
  | some idx =>
    simp only [update, hlook]
    exact (updateExisting_spec hinv (lookup_idx_lt hinv.1 hlook)).1

/-- The pop loop of `popExpired`: the invariant is preserved, at most `fuel`
keys are returned, and every returned key names an entry of the starting
heap whose deadline has passed. -/
lemma popLoop_spec : ∀ (fuel : Nat) (st : TTLHeap) (now : Int), Inv st →
    Inv (popLoop now st fuel).1 ∧ (popLoop now st fuel).2.length ≤ fuel ∧
    ∀ k ∈ (popLoop now st fuel).2,
      ∃ e ∈ st.heap, e.key = k ∧ e.expireAtMs ≤ now := by
  intro fuel
  induction fuel with
  | zero =>
    intro st now hinv
    exact ⟨hinv, by simp [popLoop], by simp [popLoop]⟩
  | succ f ih =>
    intro st now hinv
    by_cases hemp : st.heap.isEmpty
    · rw [show popLoop now st (f + 1) = (st, []) from by simp [popLoop, hemp]]
      exact ⟨hinv, by simp, by simp⟩
    · rw [Bool.not_eq_true] at hemp
      have hnn : st.heap ≠ [] := by
        intro hnil
        rw [hnil] at hemp
        simp at hemp
      have hpos : 0 < st.heap.length := List.length_pos.mpr hnn
      by_cases hroot : now < (hget st.heap 0).expireAtMs
      · rw [show popLoop now st (f + 1) = (st, []) from by
          simp [popLoop, hemp, hroot]]
        exact ⟨hinv, by simp, by simp⟩
      · have hrootle : (hget st.heap 0).expireAtMs ≤ now := le_of_not_lt hroot
        have hrootmem : hget st.heap 0 ∈ st.heap := hget_mem hpos
        by_cases hl : 0 < st.heap.length - 1
        · have hlen2 : (st.swapEntries 0 (st.heap.length - 1)).heap.dropLast.length =
              st.heap.length - 1 := by
            rw [List.length_dropLast, swap_length]
          have hnn2 : (st.swapEntries 0 (st.heap.length - 1)).heap.dropLast ≠ [] := by
            intro hnil
            rw [hnil] at hlen2
            simp at hlen2
            omega
          have hne2 : ((st.swapEntries 0 (st.heap.length - 1)).heap.dropLast).isEmpty
              = false := by
            rw [← Bool.not_eq_true, List.isEmpty_iff]
            exact hnn2
          have hrm := @removeIdx_spec st
            ⟨(st.swapEntries 0 (st.heap.length - 1)).heap.dropLast,
              AList.erase (st.swapEntries 0 (st.heap.length - 1)).map
                (hget (st.swapEntries 0 (st.heap.length - 1)).heap
                  (st.heap.length - 1)).key⟩ 0 hinv hl rfl rfl
          simp [popLoop, hemp, hroot, hl, hne2]
          simp only [List.length_dropLast] at hrm
          obtain ⟨ih1, ih2, ih3⟩ := ih _ now hrm.1
          refine ⟨ih1, ih2, ⟨hget st.heap 0, hrootmem, rfl, hrootle⟩, ?_⟩
          intro a ha
          obtain ⟨e, he, hek, het⟩ := ih3 a ha
          exact ⟨e, hrm.2.1 e he, hek, het⟩
        · have hlen1 : st.heap.length = 1 := by omega
          have hnil : st.heap.dropLast = [] :=
            List.length_eq_zero.mp (by rw [List.length_dropLast]; omega)
          have hempty2 : st.heap.dropLast.isEmpty = true := by rw [hnil]; rfl
          simp [popLoop, hemp, hroot, hl, hempty2]
          have hinv2 : Inv ⟨st.heap.dropLast,
              AList.erase st.map (hget st.heap (st.heap.length - 1)).key⟩ :=
            ⟨popBack_sync hinv.1 hpos, dropLast_minheap hinv.2⟩
          obtain ⟨ih1, ih2, ih3⟩ := ih _ now hinv2
          refine ⟨ih1, ih2, ⟨hget st.heap 0, hrootmem, rfl, hrootle⟩, ?_⟩
          intro a ha
          obtain ⟨e, he, hek, het⟩ := ih3 a ha
          exact ⟨e, (List.dropLast_sublist _).subset he, hek, het⟩

end TTLHeap

/-- One TTL-index operation preserves the invariant. -/
lemma hstep_inv (st : TTLHeap) (op : HOp) (hinv : TTLHeap.Inv st) :
    TTLHeap.Inv (hStep st op) := by
  cases op with
  | push k t => exact TTLHeap.push_inv k t hinv
  | update k t => exact TTLHeap.update_inv k t hinv
  | remove k => exact TTLHeap.remove_inv k hinv
  | popExpired now w => exact (TTLHeap.popLoop_spec w.toNat st now hinv).1

/-- Any operation sequence preserves the invariant. -/
lemma hexec_inv (ops : List HOp) : ∀ st : TTLHeap, TTLHeap.Inv st →
    TTLHeap.Inv (hExec st ops) := by
  induction ops with
  | nil =>
    intro st h
    exact h
  | cons op rest ih =>
    intro st h
    exact ih _ (hstep_inv st op h)

/-! ## Claim C4 — TTL-heap invariants -/

/-- C4: after any interleaving of `push`, `update`, `remove`, and
`popExpired` on the TTL index starting from empty, the root entry holds the
minimum deadline, the heap array and the key-to-position map have the same
size, and `popExpired(now, W)` returns at most `W` keys (at most `toNat W`:
none for a non-positive budget), each of which names an entry of the heap
whose deadline is `≤ now`. -/
theorem ttlheap_invariants (ops : List HOp) (now maxWork : Int) :
    (∀ i, i < (hExec TTLHeap.empty ops).heap.length →
      (TTLHeap.hget (hExec TTLHeap.empty ops).heap 0).expireAtMs ≤
        (TTLHeap.hget (hExec TTLHeap.empty ops).heap i).expireAtMs) ∧
    (hExec TTLHeap.empty ops).heap.length = (hExec TTLHeap.empty ops).map.length ∧
    ((hExec TTLHeap.empty ops).popExpired now maxWork).2.length ≤ maxWork.toNat ∧
    ∀ k ∈ ((hExec TTLHeap.empty ops).popExpired now maxWork).2,
      ∃ e ∈ (hExec TTLHeap.empty ops).heap, e.key = k ∧ e.expireAtMs ≤ now := by
  have hinv := hexec_inv ops TTLHeap.empty TTLHeap.inv_empty
  have hpop := TTLHeap.popLoop_spec maxWork.toNat (hExec TTLHeap.empty ops) now hinv
  exact ⟨TTLHeap.root_min hinv.2, (TTLHeap.sync_length hinv.1).symm,
    hpop.2.1, hpop.2.2⟩

/-! ## HashTable verification (claims C2 and C3) -/

lemma slots_getD_set_self {l : List (List HTEntry)} {i : Nat} (c : List HTEntry)
    (h : i < l.length) : (l.set i c).getD i [] = c := by
  simp [List.getD_eq_getElem?_getD, List.getElem?_set, h]

lemma slots_getD_set_ne {l : List (List HTEntry)} {i j : Nat} (c : List HTEntry)
    (h : i ≠ j) : (l.set i c).getD j [] = l.getD j [] := by
  simp [List.getD_eq_getElem?_getD, List.getElem?_set, h]

/-- Split the concatenated entries around slot `i`. -/
lemma flatMap_parts {l : List (List HTEntry)} {i : Nat} (h : i < l.length) :
    l.flatMap id = (l.take i).flatMap id ++ l.getD i [] ++ (l.drop (i + 1)).flatMap id := by
  conv_lhs => rw [← List.take_append_drop i l]
  rw [List.flatMap_append, List.drop_eq_getElem_cons h, List.flatMap_cons]
  have hg : l.getD i [] = l[i] := by
    simp [List.getD_eq_getElem?_getD, List.getElem?_eq_getElem h]
  rw [hg]
  simp [List.append_assoc]

/-- The concatenated entries after overwriting slot `i`. -/
lemma flatMap_set {l : List (List HTEntry)} {i : Nat} (c : List HTEntry)
    (h : i < l.length) :
    (l.set i c).flatMap id = (l.take i).flatMap id ++ c ++ (l.drop (i + 1)).flatMap id := by
  rw [List.set_eq_take_cons_drop c h, List.flatMap_append, List.flatMap_cons]
  simp [List.append_assoc]

lemma findInChain_eq_some {c : List HTEntry} {key : ByteStr} {h : Nat} {e : HTEntry}
    (hf : findInChain c key h = some e) : e ∈ c ∧ e.hashCode = h ∧ e.key = key := by
  unfold findInChain at hf
  have hm := List.mem_of_find?_eq_some hf
  have hp := List.find?_some hf
  simp at hp
  exact ⟨hm, hp.1, hp.2⟩

lemma findInChain_eq_none {c : List HTEntry} {key : ByteStr} {h : Nat} :
    findInChain c key h = none ↔ ∀ e ∈ c, ¬(e.hashCode = h ∧ e.key = key) := by
  unfold findInChain
  rw [List.find?_eq_none]
  constructor
  · intro hh e he hc
    have h2 := hh e he
    simp at h2
    exact absurd hc.2 (h2 hc.1)
  · intro hh e he
    simp
    intro h1 h2
    exact hh e he ⟨h1, h2⟩

/-- The first match in a chain splits it into an untouched prefix, the
matched entry, and the tail. -/
lemma chain_split {c : List HTEntry} {key : ByteStr} {h : Nat} {e₀ : HTEntry}
    (he : e₀ ∈ c) (hh : e₀.hashCode = h) (hk : e₀.key = key) :
    ∃ pre m post, c = pre ++ m :: post ∧ m.hashCode = h ∧ m.key = key ∧
      ∀ e ∈ pre, ¬(e.hashCode = h ∧ e.key = key) := by
  induction c with
  | nil => cases he
  | cons a rest ih =>
    by_cases ha : a.hashCode = h ∧ a.key = key
    · exact ⟨[], a, rest, rfl, ha.1, ha.2, by simp⟩
    · rcases List.mem_cons.mp he with rfl | hmem
      · exact absurd ⟨hh, hk⟩ ha
      · obtain ⟨pre, m, post, hc, h1, h2, h3⟩ := ih hmem
        refine ⟨a :: pre, m, post, by rw [hc, List.cons_append], h1, h2, ?_⟩
        intro e hep
        rcases List.mem_cons.mp hep with rfl | hep2
        · exact ha
        · exact h3 e hep2

lemma delFromChain_append {pre post : List HTEntry} {m : HTEntry} {key : ByteStr}
    {h : Nat} (hm : m.hashCode = h ∧ m.key = key)
    (hpre : ∀ e ∈ pre, ¬(e.hashCode = h ∧ e.key = key)) :
    delFromChain (pre ++ m :: post) key h = (pre ++ post, true) := by
  induction pre with
  | nil =>
    simp only [List.nil_append, delFromChain]
    rw [if_pos hm]
  | cons a rest ih =>
    simp only [List.cons_append, delFromChain]
    rw [if_neg (hpre a (List.mem_cons_self _ _))]
    show (a :: (delFromChain (rest ++ m :: post) key h).1,
        (delFromChain (rest ++ m :: post) key h).2) = (a :: (rest ++ post), true)
    rw [ih (fun e he => hpre e (List.mem_cons_of_mem _ he))]

lemma delFromChain_not_found {c : List HTEntry} {key : ByteStr} {h : Nat}
    (hc : ∀ e ∈ c, ¬(e.hashCode = h ∧ e.key = key)) :
    delFromChain c key h = (c, false) := by
  induction c with
  | nil => rfl
  | cons a rest ih =>
    simp only [delFromChain]
    rw [if_neg (hc a (List.mem_cons_self _ _)),
      ih (fun e he => hc e (List.mem_cons_of_mem _ he))]

lemma overwriteInChain_append {pre post : List HTEntry} {m : HTEntry} {key : ByteStr}
    {h : Nat} (v : RedisObject) (hm : m.hashCode = h ∧ m.key = key)
    (hpre : ∀ e ∈ pre, ¬(e.hashCode = h ∧ e.key = key)) :
    overwriteInChain (pre ++ m :: post) key h v = pre ++ { m with value := v } :: post := by
  induction pre with
  | nil =>
    simp only [List.nil_append, overwriteInChain]
    rw [if_pos hm]
  | cons a rest ih =>
    simp only [List.cons_append, overwriteInChain]
    rw [if_neg (hpre a (List.mem_cons_self _ _))]
    show a :: overwriteInChain (rest ++ m :: post) key h v =
      a :: (rest ++ { m with value := v } :: post)
    rw [ih (fun e he => hpre e (List.mem_cons_of_mem _ he))]

lemma overwriteInChain_not_found {c : List HTEntry} {key : ByteStr} {h : Nat}
    (v : RedisObject) (hc : ∀ e ∈ c, ¬(e.hashCode = h ∧ e.key = key)) :
    overwriteInChain c key h v = c := by
  induction c with
  | nil => rfl
  | cons a rest ih =>
    simp only [overwriteInChain]
    rw [if_neg (hc a (List.mem_cons_self _ _)),
      ih (fun e he => hc e (List.mem_cons_of_mem _ he))]

/-- Distinct entries of a duplicate-free entry list have distinct keys. -/
lemma nodup_key_unique {es : List HTEntry} (hnd : (entryKeys es).Nodup)
    {e1 e2 : HTEntry} (h1 : e1 ∈ es) (h2 : e2 ∈ es) (hk : e1.key = e2.key) :
    e1 = e2 :=
  List.inj_on_of_nodup_map hnd h1 h2 hk

lemma mem_entries_iff {t : Table} {e : HTEntry} :
    e ∈ t.entries ↔ ∃ i, i < t.slots.length ∧ e ∈ t.slots.getD i [] := by
  unfold Table.entries
  rw [List.mem_flatMap]
  constructor
  · intro hc
    obtain ⟨c, hc, hec⟩ := hc
    obtain ⟨i, hi, hgi⟩ := List.mem_iff_getElem.mp hc
    refine ⟨i, hi, ?_⟩
    have hgd : t.slots.getD i [] = c := by
      simp [List.getD_eq_getElem?_getD, List.getElem?_eq_getElem hi, hgi]
    rw [hgd]
    exact hec
  · intro hc
    obtain ⟨i, hi, hei⟩ := hc
    refine ⟨t.slots.getD i [], ?_, hei⟩
    have hgd : t.slots.getD i [] = t.slots[i] := by
      simp [List.getD_eq_getElem?_getD, List.getElem?_eq_getElem hi]
    rw [hgd]
    exact List.getElem_mem hi

lemma land_mask_lt {t : Table} (hwf : t.WF) (hpos : 0 < t.slots.length) (h : Nat) :
    Nat.land h t.mask < t.slots.length := by
  obtain ⟨hlen, hmask, hrest⟩ := hwf
  have hland : Nat.land h t.mask ≤ t.mask := Nat.and_le_right
  omega

lemma slots_not_empty_of_mem {t : Table} {e : HTEntry} (hmem : e ∈ t.entries) :
    t.slots.isEmpty = false := by
  obtain ⟨i, hi, _⟩ := mem_entries_iff.mp hmem
  cases hsl : t.slots with
  | nil => rw [hsl] at hi; simp at hi
  | cons a rest => rfl

/-- A found entry is a stored entry with the searched key (under `Table.WF`,
searching with the key's own hash). -/
lemma findInTable_some_mem {t : Table} {key : ByteStr} {e : HTEntry} (hwf : t.WF)
    (hf : findInTable t key (fnv1a key) = some e) : e ∈ t.entries ∧ e.key = key := by
  have hwf' := hwf
  obtain ⟨hlen, hmask, hsz, hplace⟩ := hwf'
  unfold findInTable at hf
  by_cases hemp : t.slots.isEmpty
  · rw [if_pos hemp] at hf
    exact Option.noConfusion hf
  · rw [if_neg hemp] at hf
    obtain ⟨hec, hhc, hkey⟩ := findInChain_eq_some hf
    have hpos : 0 < t.slots.length := by
      cases hsl : t.slots with
      | nil => rw [hsl] at hemp; exact absurd rfl hemp
      | cons a rest => simp [hsl]
    refine ⟨mem_entries_iff.mpr ⟨Nat.land (fnv1a key) t.mask,
      land_mask_lt hwf hpos _, hec⟩, hkey⟩

/-- `findInTable` misses exactly when no stored entry has the key. -/
lemma findInTable_none_iff {t : Table} {key : ByteStr} (hwf : t.WF) :
    findInTable t key (fnv1a key) = none ↔ ∀ e ∈ t.entries, e.key ≠ key := by
  have hwf' := hwf
  obtain ⟨hlen, hmask, hsz, hplace⟩ := hwf'
  unfold findInTable
  by_cases hemp : t.slots.isEmpty
  · rw [if_pos hemp]
    have hnil : t.slots = [] := List.isEmpty_iff.mp hemp
    constructor
    · intro _ e he
      obtain ⟨i, hi, _⟩ := mem_entries_iff.mp he
      rw [hnil] at hi
      simp at hi
    · intro _
      rfl
  · rw [if_neg hemp]
    have hpos : 0 < t.slots.length := by
      cases hsl : t.slots with
      | nil => rw [hsl] at hemp; exact absurd rfl hemp
      | cons a rest => simp [hsl]
    constructor
    · intro hnone e he hkey
      obtain ⟨i, hi, hei⟩ := mem_entries_iff.mp he
      obtain ⟨hhc, hslot⟩ := hplace i hi e hei
      rw [findInChain_eq_none] at hnone
      refine hnone e ?_ ⟨by rw [hhc, hkey], hkey⟩
      show e ∈ t.slots.getD (Nat.land (fnv1a key) t.mask) []
      rw [show Nat.land (fnv1a key) t.mask = i from by rw [← hslot, hhc, hkey]]
      exact hei
    · intro hall
      rw [findInChain_eq_none]
      intro e he hc
      have hmem : e ∈ t.entries :=
        mem_entries_iff.mpr ⟨Nat.land (fnv1a key) t.mask, land_mask_lt hwf hpos _, he⟩
      exact absurd hc.2 (hall e hmem)

/-- With duplicate-free keys, a stored entry is the one `findInTable`
returns. -/
lemma findInTable_some_of_mem {t : Table} {key : ByteStr} {e : HTEntry} (hwf : t.WF)
    (hnd : (entryKeys t.entries).Nodup) (hmem : e ∈ t.entries) (hkey : e.key = key) :
    findInTable t key (fnv1a key) = some e := by
  cases hfind : findInTable t key (fnv1a key) with
  | none => exact absurd hkey ((findInTable_none_iff hwf).mp hfind e hmem)
  | some e2 =>
    obtain ⟨hm2, hk2⟩ := findInTable_some_mem hwf hfind
    rw [nodup_key_unique hnd hm2 hmem (by rw [hk2, hkey])]

/-- `Table.WF` after replacing slot `i` with a chain that belongs there. -/
lemma WF_set {t : Table} {i : Nat} {c : List HTEntry} {sz : Nat} (hwf : t.WF)
    (hi : i < t.slots.length)
    (hc : ∀ e ∈ c, e.hashCode = fnv1a e.key ∧ Nat.land e.hashCode t.mask = i)
    (hsz : sz + (t.slots.getD i []).length = t.size + c.length) :
    Table.WF ⟨t.slots.set i c, t.capacity, t.mask, sz⟩ := by
  obtain ⟨hlen, hmask, hsize, hplace⟩ := hwf
  refine ⟨by simpa using hlen, hmask, ?_, ?_⟩
  · show sz = ((t.slots.set i c).flatMap id).length
    rw [flatMap_set c hi]
    have h1 := congrArg List.length (flatMap_parts hi)
    simp only [List.length_append] at h1
    simp only [List.length_append]
    have hsize' : t.size = (t.slots.flatMap id).length := hsize
    omega
  · show ∀ j, j < (t.slots.set i c).length → ∀ e ∈ (t.slots.set i c).getD j [],
      e.hashCode = fnv1a e.key ∧ Nat.land e.hashCode t.mask = j
    intro j hj e he
    rw [List.length_set] at hj
    by_cases hij : i = j
    · subst hij
      rw [slots_getD_set_self c hi] at he
      exact hc e he
    · rw [slots_getD_set_ne c hij] at he
      exact hplace j hj e he

/-- `delFromTable` on a table that does not hold the key is a no-op. -/
lemma delFromTable_not_found {t : Table} {key : ByteStr} (hwf : t.WF)
    (habs : ∀ e ∈ t.entries, e.key ≠ key) :
    delFromTable t key (fnv1a key) = (t, false) := by
  by_cases hemp : t.slots.isEmpty
  · simp [delFromTable, hemp]
  · have hpos : 0 < t.slots.length := by
      cases hsl : t.slots with
      | nil => rw [hsl] at hemp; exact absurd rfl hemp
      | cons a rest => simp [hsl]
    have hchain : ∀ e ∈ t.slot (Nat.land (fnv1a key) t.mask),
        ¬(e.hashCode = fnv1a key ∧ e.key = key) := by
      intro e he hc
      have hmem : e ∈ t.entries :=
        mem_entries_iff.mpr ⟨Nat.land (fnv1a key) t.mask, land_mask_lt hwf hpos _, he⟩
      exact habs e hmem hc.2
    simp [delFromTable, hemp, delFromChain_not_found hchain]

/-- `delFromTable` on a well-formed table holding the key unlinks exactly the
matched entry. -/
lemma delFromTable_found {t : Table} {key : ByteStr} {e₀ : HTEntry} (hwf : t.WF)
    (hmem : e₀ ∈ t.entries) (hkey : e₀.key = key) :
    ∃ A B m, m.key = key ∧ t.entries = A ++ m :: B ∧
      (delFromTable t key (fnv1a key)).2 = true ∧
      (delFromTable t key (fnv1a key)).1.entries = A ++ B ∧
      (delFromTable t key (fnv1a key)).1.WF ∧
      (delFromTable t key (fnv1a key)).1.capacity = t.capacity ∧
      (delFromTable t key (fnv1a key)).1.mask = t.mask ∧
      (delFromTable t key (fnv1a key)).1.slots.length = t.slots.length ∧
      (delFromTable t key (fnv1a key)).1.size + 1 = t.size ∧
      ∀ j, ((delFromTable t key (fnv1a key)).1.slots.getD j []).Sublist
        (t.slots.getD j []) := by
  have hwf' := hwf
  obtain ⟨hlen, hmask, hsize, hplace⟩ := hwf'
  have hemp : t.slots.isEmpty = false := slots_not_empty_of_mem hmem
  have hemp' : ¬(t.slots.isEmpty = true) := by rw [hemp]; exact Bool.false_ne_true
  obtain ⟨i, hi, hei⟩ := mem_entries_iff.mp hmem
  obtain ⟨hhc0, hslot0⟩ := hplace i hi e₀ hei
  have hhc : e₀.hashCode = fnv1a key := by rw [hhc0, hkey]
  have hidx : Nat.land (fnv1a key) t.mask = i := by rw [← hslot0, hhc]
  have hei' : e₀ ∈ t.slots.getD (Nat.land (fnv1a key) t.mask) [] := by
    rw [hidx]
    exact hei
  obtain ⟨pre, m, post, hchain, hmhc, hmk, hpre⟩ := chain_split hei' hhc hkey
  have hidxlt : Nat.land (fnv1a key) t.mask < t.slots.length := by omega
  have hres : delFromTable t key (fnv1a key) =
      ({ t with
          slots := t.slots.set (Nat.land (fnv1a key) t.mask) (pre ++ post)
          size := t.size - 1 }, true) := by
    simp only [delFromTable]
    rw [if_neg hemp']
    rw [show t.slot (Nat.land (fnv1a key) t.mask) = pre ++ m :: post from hchain]
    rw [delFromChain_append ⟨hmhc, hmk⟩ hpre]
    simp
  have hparts := flatMap_parts hidxlt
  have hch := congrArg List.length hchain
  simp only [List.length_append, List.length_cons] at hch
  have hlen2 := congrArg List.length hparts
  simp only [List.length_append] at hlen2
  have hsize' : t.size = (t.slots.flatMap id).length := hsize
  have hdecomp : t.entries =
      ((t.slots.take (Nat.land (fnv1a key) t.mask)).flatMap id ++ pre) ++ m ::
        (post ++ (t.slots.drop (Nat.land (fnv1a key) t.mask + 1)).flatMap id) := by
    show t.slots.flatMap id = _
    rw [hparts, hchain]
    simp [List.append_assoc]
  refine ⟨_, _, m, hmk, hdecomp, ?_, ?_, ?_, ?_, ?_, ?_, ?_, ?_⟩
  · rw [hres]
  · rw [hres]
    show (t.slots.set (Nat.land (fnv1a key) t.mask) (pre ++ post)).flatMap id = _
    rw [flatMap_set _ hidxlt]
    simp [List.append_assoc]
  · rw [hres]
    refine WF_set hwf hidxlt ?_ ?_
    · intro e he
      have he2 : e ∈ t.slots.getD (Nat.land (fnv1a key) t.mask) [] := by
        rw [hchain]
        rcases List.mem_append.mp he with h1 | h2
        · exact List.mem_append.mpr (Or.inl h1)
        · exact List.mem_append.mpr (Or.inr (List.mem_cons_of_mem _ h2))
      exact hplace _ hidxlt e he2
    · simp only [List.length_append]
      omega
  · rw [hres]
  · rw [hres]
  · rw [hres]
    show (t.slots.set (Nat.land (fnv1a key) t.mask) (pre ++ post)).length = t.slots.length
    simp
  · rw [hres]
    show t.size - 1 + 1 = t.size
    omega
  · rw [hres]
    intro j
    show ((t.slots.set (Nat.land (fnv1a key) t.mask) (pre ++ post)).getD j []).Sublist
      (t.slots.getD j [])
    by_cases hj : Nat.land (fnv1a key) t.mask = j
    · subst hj
      rw [slots_getD_set_self _ hidxlt, hchain]
      exact List.Sublist.append_left (List.sublist_cons_self _ _) pre
    · rw [slots_getD_set_ne _ hj]

lemma empty_table_WF : Table.empty.WF := by
  refine ⟨rfl, rfl, rfl, ?_⟩
  intro i hi
  simp [Table.empty] at hi

lemma flatMap_replicate_nil (n : Nat) :
    (List.replicate n ([] : List HTEntry)).flatMap id = [] := by
  induction n with
  | zero => rfl
  | succ k ih => simp [List.replicate_succ, ih]

lemma slots_getD_oob {l : List (List HTEntry)} {i : Nat} (h : l.length ≤ i) :
    l.getD i [] = [] := by
  simp [List.getD_eq_getElem?_getD, List.getElem?_eq_none h]

lemma allocTable_WF (n : Nat) : (allocTable n).WF := by
  refine ⟨by simp [allocTable], rfl, ?_, ?_⟩
  · show 0 = ((List.replicate n ([] : List HTEntry)).flatMap id).length
    rw [flatMap_replicate_nil]
    rfl
  · show ∀ i, i < (List.replicate n ([] : List HTEntry)).length →
      ∀ e ∈ (List.replicate n ([] : List HTEntry)).getD i [],
        e.hashCode = fnv1a e.key ∧ Nat.land e.hashCode (allocTable n).mask = i
    intro i hi e he
    rw [List.length_replicate] at hi
    rw [List.getD_eq_getElem?_getD, List.getElem?_replicate, if_pos hi] at he
    simp at he

lemma allocTable_entries (n : Nat) : (allocTable n).entries = [] :=
  flatMap_replicate_nil n

lemma entries_nil_of_all_empty {t : Table}
    (h : ∀ i, i < t.slots.length → t.slots.getD i [] = []) : t.entries = [] := by
  show t.slots.flatMap id = []
  rw [List.flatMap_eq_nil_iff]
  intro c hc
  obtain ⟨i, hi, hgi⟩ := List.mem_iff_getElem.mp hc
  have hgd : t.slots.getD i [] = c := by
    simp [List.getD_eq_getElem?_getD, List.getElem?_eq_getElem hi, hgi]
  show c = []
  rw [← hgd]
  exact h i hi

/-- Under `WF`, the reported size counts the stored entries. -/
lemma size_eq_entries {s : HashTable} (hwf : s.WF) :
    s.size = (HashTable.entriesOf s).length := by
  obtain ⟨⟨_, _, hp, _⟩, ⟨_, _, hr, _⟩, _⟩ := hwf
  show s.primary.size + s.rehash.size = _
  rw [hp, hr, HashTable.entriesOf, List.length_append]

namespace HashTable

/-- `migrateChain` prepends each entry at its cached hash slot. -/
lemma migrateChain_spec : ∀ (chain : List HTEntry) (p : Table), p.WF →
    0 < p.capacity → (∀ e ∈ chain, e.hashCode = fnv1a e.key) →
    (migrateChain chain p).WF ∧
    (migrateChain chain p).entries.Perm (chain ++ p.entries) ∧
    (migrateChain chain p).capacity = p.capacity ∧
    (migrateChain chain p).mask = p.mask ∧
    (migrateChain chain p).size = p.size + chain.length := by
  intro chain
  induction chain with
  | nil =>
    intro p hwf hcap hhc
    exact ⟨hwf, by simp [migrateChain], rfl, rfl, rfl⟩
  | cons e rest ih =>
    intro p hwf hcap hhc
    have hpos : 0 < p.slots.length := by
      have := hwf.1
      omega
    have hidxlt : Nat.land e.hashCode p.mask < p.slots.length := land_mask_lt hwf hpos _
    have hstep : migrateChain (e :: rest) p = migrateChain rest
        ⟨p.slots.set (Nat.land e.hashCode p.mask)
          (e :: p.slots.getD (Nat.land e.hashCode p.mask) []),
          p.capacity, p.mask, p.size + 1⟩ := rfl
    have hwf1 : Table.WF ⟨p.slots.set (Nat.land e.hashCode p.mask)
        (e :: p.slots.getD (Nat.land e.hashCode p.mask) []),
        p.capacity, p.mask, p.size + 1⟩ := by
      refine WF_set hwf hidxlt ?_ ?_
      · intro e2 he2
        rcases List.mem_cons.mp he2 with rfl | he3
        · exact ⟨hhc e2 (List.mem_cons_self _ _), rfl⟩
        · exact hwf.2.2.2 _ hidxlt e2 he3
      · simp only [List.length_cons]
        omega
    have hent1 : (⟨p.slots.set (Nat.land e.hashCode p.mask)
        (e :: p.slots.getD (Nat.land e.hashCode p.mask) []),
        p.capacity, p.mask, p.size + 1⟩ : Table).entries.Perm (e :: p.entries) := by
      show ((p.slots.set (Nat.land e.hashCode p.mask)
        (e :: p.slots.getD (Nat.land e.hashCode p.mask) [])).flatMap id).Perm _
      rw [flatMap_set _ hidxlt]
      have hparts : p.entries = (p.slots.take (Nat.land e.hashCode p.mask)).flatMap id ++
          p.slots.getD (Nat.land e.hashCode p.mask) [] ++
          (p.slots.drop (Nat.land e.hashCode p.mask + 1)).flatMap id := flatMap_parts hidxlt
      rw [List.perm_iff_count]
      intro a
      have hcnt := congrArg (List.count a) hparts
      simp only [List.count_append, List.count_cons] at hcnt ⊢
      omega
    obtain ⟨hw2, hp2, hc2, hm2, hs2⟩ := ih _ hwf1 (by show 0 < p.capacity; exact hcap)
      (fun e2 he2 => hhc e2 (List.mem_cons_of_mem _ he2))
    rw [hstep]
    refine ⟨hw2, ?_, hc2, hm2, ?_⟩
    · refine hp2.trans ?_
      refine (List.Perm.append_left rest hent1).trans ?_
      rw [List.perm_iff_count]
      intro a
      simp only [List.count_append, List.count_cons]
      omega
    · rw [hs2]
      show p.size + 1 + rest.length = p.size + (rest.length + 1)
      omega

/-- The empty-slot skip loop: everything it skips is empty, and it stops at
the capacity or at a non-empty slot. -/
lemma skipEmpty_spec : ∀ (fuel idx : Nat) (slots : List (List HTEntry)) (cap : Nat),
    cap ≤ idx + fuel →
    idx ≤ skipEmpty slots cap fuel idx ∧
    (∀ j, idx ≤ j → j < skipEmpty slots cap fuel idx →
      (slots.getD j []).isEmpty = true) ∧
    (cap ≤ skipEmpty slots cap fuel idx ∨
      (skipEmpty slots cap fuel idx < cap ∧
        (slots.getD (skipEmpty slots cap fuel idx) []).isEmpty = false)) := by
  intro fuel
  induction fuel with
  | zero =>
    intro idx slots cap hle
    have hred : skipEmpty slots cap 0 idx = idx := rfl
    rw [hred]
    refine ⟨le_refl _, ?_, Or.inl (by omega)⟩
    intro j h1 h2
    omega
  | succ f ih =>
    intro idx slots cap hle
    by_cases hc : idx < cap ∧ (slots.getD idx []).isEmpty
    · have hred : skipEmpty slots cap (f + 1) idx = skipEmpty slots cap f (idx + 1) := by
        simp only [skipEmpty]
        rw [if_pos hc]
      rw [hred]
      obtain ⟨h1, h2, h3⟩ := ih (idx + 1) slots cap (by omega)
      refine ⟨by omega, ?_, h3⟩
      intro j hj1 hj2
      by_cases hji : j = idx
      · rw [hji]
        exact hc.2
      · exact h2 j (by omega) hj2
    · have hred : skipEmpty slots cap (f + 1) idx = idx := by
        simp only [skipEmpty]
        rw [if_neg hc]
      rw [hred]
      refine ⟨le_refl _, ?_, ?_⟩
      · intro j h1 h2
        omega
      · by_cases hlt : idx < cap
        · refine Or.inr ⟨hlt, ?_⟩
          cases hbe : (slots.getD idx []).isEmpty with
          | false => rfl
          | true => exact absurd ⟨hlt, hbe⟩ hc
        · exact Or.inl (by omega)

/-- `triggerRehash` moves the primary table aside and allocates a doubled
primary; no entry is created or dropped. -/
lemma triggerRehash_spec {s : HashTable} (hwf : WF s) (hnr : s.isRehashing = false)
    (hcap : 0 < s.primary.capacity) :
    WF s.triggerRehash ∧ entriesOf s.triggerRehash = s.primary.entries ∧
    s.triggerRehash.isRehashing = true := by
  obtain ⟨hpwf, hrwf, hreh0, hcaps, hpre, hnd⟩ := hwf
  have hrempty : s.rehash = Table.empty := hreh0 hnr
  have hent : entriesOf s.triggerRehash = s.primary.entries := by
    show (allocTable (s.primary.capacity * 2)).entries ++ s.primary.entries = _
    rw [allocTable_entries]
    simp
  refine ⟨⟨allocTable_WF _, hpwf, ?_, ?_, ?_, ?_⟩, hent, rfl⟩
  · intro hfalse
    exact Bool.noConfusion hfalse
  · intro _
    refine ⟨?_, hcap⟩
    show 0 < s.primary.capacity * 2
    omega
  · intro _ i hi
    have h0 : s.triggerRehash.rehashIdx = 0 := rfl
    rw [h0] at hi
    exact absurd hi (Nat.not_lt_zero i)
  · show (entryKeys (entriesOf s.triggerRehash)).Nodup
    rw [hent]
    have hold : entriesOf s = s.primary.entries ++ s.rehash.entries := rfl
    rw [hold, hrempty] at hnd
    have hemp2 : Table.empty.entries = [] := rfl
    rw [hemp2, List.append_nil] at hnd
    exact hnd

/-- One migration step preserves well-formedness and the stored entries. -/
lemma migrateOneSlot_spec {s : HashTable} (hwf : WF s) (hreh : s.isRehashing = true) :
    WF (migrateOneSlot s) ∧ (entriesOf (migrateOneSlot s)).Perm (entriesOf s) := by
  obtain ⟨hpwf, hrwf, hreh0, hcaps, hpre0, hnd⟩ := hwf
  obtain ⟨hpcap, hrcap⟩ := hcaps hreh
  have hrlen : s.rehash.slots.length = s.rehash.capacity := hrwf.1
  obtain ⟨hsk1, hsk2, hsk3⟩ := skipEmpty_spec s.rehash.capacity s.rehashIdx
    s.rehash.slots s.rehash.capacity (by omega)
  simp only [migrateOneSlot]
  set idx := skipEmpty s.rehash.slots s.rehash.capacity s.rehash.capacity s.rehashIdx
    with hidxdef
  by_cases hend : idx ≥ s.rehash.capacity
  · rw [if_pos hend]
    have hrent : s.rehash.entries = [] := by
      apply entries_nil_of_all_empty
      intro i hi
      by_cases hlti : i < s.rehashIdx
      · exact hpre0 hreh i hlti
      · exact List.isEmpty_iff.mp (hsk2 i (by omega) (by omega))
    constructor
    · refine ⟨hpwf, empty_table_WF, fun _ => rfl, ?_, ?_, ?_⟩
      · intro hfalse
        exact Bool.noConfusion hfalse
      · intro hfalse
        exact Bool.noConfusion hfalse
      · show (entryKeys (s.primary.entries ++ Table.empty.entries)).Nodup
        have hold : entriesOf s = s.primary.entries ++ s.rehash.entries := rfl
        rw [hold, hrent] at hnd
        exact hnd
    · show (s.primary.entries ++ Table.empty.entries).Perm
        (s.primary.entries ++ s.rehash.entries)
      rw [hrent]
      exact List.Perm.refl _
  · push_neg at hend
    rcases hsk3 with hcase | hcase
    · omega
    obtain ⟨hlt, hnonempty⟩ := hcase
    rw [if_neg (by omega : ¬idx ≥ s.rehash.capacity)]
    set chain := s.rehash.slot idx with hchaindef
    have hchain_getD : chain = s.rehash.slots.getD idx [] := rfl
    have hidxlt : idx < s.rehash.slots.length := by omega
    have hhc : ∀ e ∈ chain, e.hashCode = fnv1a e.key := by
      intro e he
      rw [hchain_getD] at he
      exact (hrwf.2.2.2 idx hidxlt e he).1
    obtain ⟨hmwf, hment, hmcap, hmmask, hmsize⟩ :=
      migrateChain_spec chain s.primary hpwf hpcap hhc
    have hparts := flatMap_parts hidxlt
    have hlen2 := congrArg List.length hparts
    simp only [List.length_append] at hlen2
    have hsize' : s.rehash.size = (s.rehash.slots.flatMap id).length := hrwf.2.2.1
    have hchlen : chain.length = (s.rehash.slots.getD idx []).length := by
      rw [hchain_getD]
    have hrwf' : Table.WF ⟨s.rehash.slots.set idx [], s.rehash.capacity,
        s.rehash.mask, s.rehash.size - chain.length⟩ := by
      refine WF_set hrwf hidxlt ?_ ?_
      · intro e he
        exact absurd he (List.not_mem_nil e)
      · simp only [List.length_nil]
        omega
    have hrent' : (⟨s.rehash.slots.set idx [], s.rehash.capacity, s.rehash.mask,
        s.rehash.size - chain.length⟩ : Table).entries =
        (s.rehash.slots.take idx).flatMap id ++
          (s.rehash.slots.drop (idx + 1)).flatMap id := by
      show (s.rehash.slots.set idx []).flatMap id = _
      rw [flatMap_set _ hidxlt]
      simp
    have hrparts : s.rehash.entries =
        (s.rehash.slots.take idx).flatMap id ++ chain ++
          (s.rehash.slots.drop (idx + 1)).flatMap id := by
      rw [hchain_getD]
      exact flatMap_parts hidxlt
    by_cases hsz0 : s.rehash.size - chain.length = 0
    · rw [if_pos hsz0]
      have hE1 : (s.rehash.slots.take idx).flatMap id = [] :=
        List.eq_nil_of_length_eq_zero (by omega)
      have hE2 : (s.rehash.slots.drop (idx + 1)).flatMap id = [] :=
        List.eq_nil_of_length_eq_zero (by omega)
      have hperm : ((migrateChain chain s.primary).entries ++
          Table.empty.entries).Perm (entriesOf s) := by
        show ((migrateChain chain s.primary).entries ++ Table.empty.entries).Perm
          (s.primary.entries ++ s.rehash.entries)
        rw [hrparts, hE1, hE2]
        rw [show Table.empty.entries = ([] : List HTEntry) from rfl]
        rw [List.perm_iff_count]
        intro a
        have hc1 := hment.count_eq a
        simp only [List.count_append, List.count_nil] at hc1 ⊢
        omega
      refine ⟨⟨hmwf, empty_table_WF, fun _ => rfl, ?_, ?_, ?_⟩, hperm⟩
      · intro hfalse
        exact Bool.noConfusion hfalse
      · intro hfalse
        exact Bool.noConfusion hfalse
      · show (List.map (fun e : HTEntry => e.key)
          ((migrateChain chain s.primary).entries ++ Table.empty.entries)).Nodup
        have hnd2 : (List.map (fun e : HTEntry => e.key) (entriesOf s)).Nodup := hnd
        exact ((hperm.map (fun e : HTEntry => e.key)).nodup_iff).mpr hnd2
    · rw [if_neg hsz0]
      have hperm : ((migrateChain chain s.primary).entries ++
          (⟨s.rehash.slots.set idx [], s.rehash.capacity, s.rehash.mask,
            s.rehash.size - chain.length⟩ : Table).entries).Perm (entriesOf s) := by
        rw [hrent']
        show ((migrateChain chain s.primary).entries ++
          ((s.rehash.slots.take idx).flatMap id ++
            (s.rehash.slots.drop (idx + 1)).flatMap id)).Perm
          (s.primary.entries ++ s.rehash.entries)
        rw [hrparts]
        rw [List.perm_iff_count]
        intro a
        have hc1 := hment.count_eq a
        simp only [List.count_append] at hc1 ⊢
        omega
      refine ⟨⟨hmwf, hrwf', ?_, ?_, ?_, ?_⟩, hperm⟩
      · intro hfalse
        rw [hreh] at hfalse
        exact Bool.noConfusion hfalse
      · intro _
        refine ⟨?_, hrcap⟩
        show 0 < (migrateChain chain s.primary).capacity
        rw [hmcap]
        exact hpcap
      · intro _ i hi
        have hi' : i < idx + 1 := hi
        show (s.rehash.slots.set idx []).getD i [] = []
        by_cases hii : i = idx
        · rw [hii]
          exact slots_getD_set_self [] hidxlt
        · rw [slots_getD_set_ne _ (fun hh => hii hh.symm)]
          have hi2 : i < idx := by omega
          by_cases hlti : i < s.rehashIdx
          · exact hpre0 hreh i hlti
          · exact List.isEmpty_iff.mp (hsk2 i (by omega) hi2)
      · show (List.map (fun e : HTEntry => e.key)
          ((migrateChain chain s.primary).entries ++
            (⟨s.rehash.slots.set idx [], s.rehash.capacity, s.rehash.mask,
              s.rehash.size - chain.length⟩ : Table).entries)).Nodup
        have hnd2 : (List.map (fun e : HTEntry => e.key) (entriesOf s)).Nodup := hnd
        exact ((hperm.map (fun e : HTEntry => e.key)).nodup_iff).mpr hnd2

/-- `rehashStep` preserves well-formedness and the stored entries. -/
lemma rehashStep_spec : ∀ (n : Nat) {s : HashTable}, WF s →
    WF (s.rehashStep n) ∧ (entriesOf (s.rehashStep n)).Perm (entriesOf s) := by
  intro n
  induction n with
  | zero =>
    intro s hwf
    exact ⟨hwf, List.Perm.refl _⟩
  | succ k ih =>
    intro s hwf
    by_cases hreh : s.isRehashing = true
    · have hred : s.rehashStep (k + 1) = (migrateOneSlot s).rehashStep k := by
        simp only [HashTable.rehashStep]
        rw [if_pos hreh]
      rw [hred]
      obtain ⟨hw1, hp1⟩ := migrateOneSlot_spec hwf hreh
      obtain ⟨hw2, hp2⟩ := ih hw1
      exact ⟨hw2, hp2.trans hp1⟩
    · have hred : s.rehashStep (k + 1) = s := by
        simp only [HashTable.rehashStep]
        rw [if_neg hreh]
      rw [hred]
      exact ⟨hwf, List.Perm.refl _⟩

/-- Global key uniqueness splits over the two tables. -/
lemma nodup_split {s : HashTable} (hnd : (entryKeys (entriesOf s)).Nodup) :
    (entryKeys s.primary.entries).Nodup ∧ (entryKeys s.rehash.entries).Nodup ∧
    (entryKeys s.primary.entries).Disjoint (entryKeys s.rehash.entries) := by
  have hsplit : entryKeys (entriesOf s) =
      entryKeys s.primary.entries ++ entryKeys s.rehash.entries := by
    show List.map (fun e : HTEntry => e.key) (_ ++ _) = _
    rw [List.map_append]
    rfl
  rw [hsplit] at hnd
  exact List.nodup_append.mp hnd

/-- `HashTable::find` returns exactly the stored entry with the key. -/
lemma find_some_iff {s : HashTable} {key : ByteStr} {e : HTEntry} (hwf : WF s) :
    s.find key = some e ↔ e ∈ entriesOf s ∧ e.key = key := by
  obtain ⟨hpwf, hrwf, hreh0, hcaps, hpre0, hnd⟩ := hwf
  obtain ⟨hndp, hndr, hdisj⟩ := nodup_split hnd
  constructor
  · intro hf
    simp only [find] at hf
    cases hp : findInTable s.primary key (fnv1a key) with
    | some e1 =>
      rw [hp] at hf
      have hf2 : some e1 = some e := hf
      have he1 : e1 = e := by injection hf2
      subst he1
      obtain ⟨hmem, hkey⟩ := findInTable_some_mem hpwf hp
      exact ⟨List.mem_append.mpr (Or.inl hmem), hkey⟩
    | none =>
      rw [hp] at hf
      have hf2 : (if s.isRehashing = true then findInTable s.rehash key (fnv1a key)
          else none) = some e := hf
      by_cases hreh : s.isRehashing = true
      · rw [if_pos hreh] at hf2
        obtain ⟨hmem, hkey⟩ := findInTable_some_mem hrwf hf2
        exact ⟨List.mem_append.mpr (Or.inr hmem), hkey⟩
      · rw [if_neg hreh] at hf2
        exact Option.noConfusion hf2
  · intro hc
    obtain ⟨hmem, hkey⟩ := hc
    simp only [find]
    rcases List.mem_append.mp hmem with hmp | hmr
    · rw [findInTable_some_of_mem hpwf hndp hmp hkey]
    · have hreh : s.isRehashing = true := by
        cases hb : s.isRehashing with
        | true => rfl
        | false =>
          have hre := hreh0 hb
          rw [hre] at hmr
          rw [show Table.empty.entries = ([] : List HTEntry) from rfl] at hmr
          exact absurd hmr (List.not_mem_nil e)
      have hpnone : findInTable s.primary key (fnv1a key) = none := by
        rw [findInTable_none_iff hpwf]
        intro e2 he2 hk2
        refine @hdisj key ?_ ?_
        · rw [← hk2]
          exact List.mem_map_of_mem _ he2
        · rw [← hkey]
          exact List.mem_map_of_mem _ hmr
      rw [hpnone]
      show (if s.isRehashing = true then findInTable s.rehash key (fnv1a key)
          else none) = some e
      rw [if_pos hreh]
      exact findInTable_some_of_mem hrwf hndr hmr hkey

/-- `HashTable::find` misses exactly when no stored entry has the key. -/
lemma find_none_iff {s : HashTable} {key : ByteStr} (hwf : WF s) :
    s.find key = none ↔ ∀ e ∈ entriesOf s, e.key ≠ key := by
  constructor
  · intro hf e hmem hkey
    have hsome := (find_some_iff hwf).mpr ⟨hmem, hkey⟩
    rw [hf] at hsome
    exact Option.noConfusion hsome
  · intro hall
    cases hf : s.find key with
    | none => rfl
    | some e =>
      obtain ⟨hmem, hkey⟩ := (find_some_iff hwf).mp hf
      exact absurd hkey (hall e hmem)

/-- The up-front rehash work preserves the invariant and the entries. -/
lemma rehashWork_spec {s : HashTable} (hwf : WF s) :
    WF (rehashWork s) ∧ (entriesOf (rehashWork s)).Perm (entriesOf s) := by
  unfold rehashWork
  by_cases hreh : s.isRehashing = true
  · rw [if_pos hreh]
    exact rehashStep_spec _ hwf
  · rw [if_neg hreh]
    exact ⟨hwf, List.Perm.refl _⟩

/-- The old-table delete phase of `set`: afterwards the old table holds no
binding of the key; other bindings, the primary table, and the flags are
untouched. -/
lemma dropFromOld_spec {s : HashTable} {key : ByteStr} (hwf : WF s) :
    WF (dropFromOld s key (fnv1a key)) ∧
    (dropFromOld s key (fnv1a key)).primary = s.primary ∧
    (dropFromOld s key (fnv1a key)).isRehashing = s.isRehashing ∧
    (∀ e ∈ (dropFromOld s key (fnv1a key)).rehash.entries, e.key ≠ key) ∧
    (∀ e ∈ entriesOf (dropFromOld s key (fnv1a key)), e ∈ entriesOf s) ∧
    (∀ e ∈ entriesOf s, e.key ≠ key → e ∈ entriesOf (dropFromOld s key (fnv1a key))) ∧
    (key ∉ entryKeys s.rehash.entries → dropFromOld s key (fnv1a key) = s) ∧
    (key ∈ entryKeys s.rehash.entries →
      (entriesOf (dropFromOld s key (fnv1a key))).length + 1 = (entriesOf s).length) := by
  obtain ⟨hpwf, hrwf, hreh0, hcaps, hpre0, hnd⟩ := hwf
  unfold dropFromOld
  by_cases hreh : s.isRehashing = true
  · rw [if_pos hreh]
    by_cases hin : key ∈ entryKeys s.rehash.entries
    · obtain ⟨e₀, he₀, hkeq⟩ := List.mem_map.mp hin
      obtain ⟨A, B, m, hmk, hdecomp, hfnd, hent', hwf'', hcap', hmask', hlen', hsz', hsub'⟩ :=
        delFromTable_found hrwf he₀ hkeq
      have hndr := (nodup_split hnd).2.1
      have hkeys : entryKeys s.rehash.entries = entryKeys A ++ m.key :: entryKeys B := by
        rw [hdecomp]
        show List.map (fun e : HTEntry => e.key) (A ++ m :: B) = _
        rw [List.map_append, List.map_cons]
        rfl
      have hnotin : key ∉ entryKeys A ++ entryKeys B := by
        rw [hkeys] at hndr
        have hmid := List.nodup_cons.mp (List.nodup_middle.mp hndr)
        rw [← hmk]
        exact hmid.1
      have hnokey2 : ∀ e ∈ A ++ B, e.key ≠ key := by
        intro e he hk
        apply hnotin
        rw [← hk]
        rcases List.mem_append.mp he with h1 | h2
        · exact List.mem_append.mpr (Or.inl (List.mem_map_of_mem _ h1))
        · exact List.mem_append.mpr (Or.inr (List.mem_map_of_mem _ h2))
      refine ⟨⟨hpwf, hwf'', ?_, ?_, ?_, ?_⟩, rfl, rfl, ?_, ?_, ?_, ?_, ?_⟩
      · intro hfalse
        have hfalse' : s.isRehashing = false := hfalse
        rw [hreh] at hfalse'
        exact Bool.noConfusion hfalse'
      · intro _
        refine ⟨(hcaps hreh).1, ?_⟩
        show 0 < (delFromTable s.rehash key (fnv1a key)).1.capacity
        rw [hcap']
        exact (hcaps hreh).2
      · intro _ i hi
        have hi' : i < s.rehashIdx := hi
        show (delFromTable s.rehash key (fnv1a key)).1.slots.getD i [] = []
        have hs := hsub' i
        rw [hpre0 hreh i hi'] at hs
        exact List.sublist_nil.mp hs
      · show (entryKeys (s.primary.entries ++
          (delFromTable s.rehash key (fnv1a key)).1.entries)).Nodup
        have hsubl : (s.primary.entries ++
            (delFromTable s.rehash key (fnv1a key)).1.entries).Sublist
            (s.primary.entries ++ s.rehash.entries) := by
          refine List.Sublist.append_left ?_ _
          rw [hent', hdecomp]
          exact List.Sublist.append_left (List.sublist_cons_self _ _) A
        have hnd2 : (List.map (fun e : HTEntry => e.key)
            (s.primary.entries ++ s.rehash.entries)).Nodup := hnd
        exact (hsubl.map (fun e : HTEntry => e.key)).nodup hnd2
      · intro e he hk
        have he2 : e ∈ (delFromTable s.rehash key (fnv1a key)).1.entries := he
        rw [hent'] at he2
        exact hnokey2 e he2 hk
      · intro e he
        have he2 : e ∈ s.primary.entries ++
            (delFromTable s.rehash key (fnv1a key)).1.entries := he
        show e ∈ s.primary.entries ++ s.rehash.entries
        rcases List.mem_append.mp he2 with h1 | h2
        · exact List.mem_append.mpr (Or.inl h1)
        · rw [hent'] at h2
          refine List.mem_append.mpr (Or.inr ?_)
          rw [hdecomp]
          rcases List.mem_append.mp h2 with h3 | h4
          · exact List.mem_append.mpr (Or.inl h3)
          · exact List.mem_append.mpr (Or.inr (List.mem_cons_of_mem _ h4))
      · intro e he hk
        have he2 : e ∈ s.primary.entries ++ s.rehash.entries := he
        show e ∈ s.primary.entries ++ (delFromTable s.rehash key (fnv1a key)).1.entries
        rcases List.mem_append.mp he2 with h1 | h2
        · exact List.mem_append.mpr (Or.inl h1)
        · refine List.mem_append.mpr (Or.inr ?_)
          rw [hent']
          rw [hdecomp] at h2
          rcases List.mem_append.mp h2 with h3 | h4
          · exact List.mem_append.mpr (Or.inl h3)
          · rcases List.mem_cons.mp h4 with rfl | h5
            · exact absurd (by rw [hmk]) hk
            · exact List.mem_append.mpr (Or.inr h5)
      · intro hno
        exact absurd hin hno
      · intro _
        show (s.primary.entries ++
            (delFromTable s.rehash key (fnv1a key)).1.entries).length + 1 =
          (s.primary.entries ++ s.rehash.entries).length
        rw [hent', hdecomp]
        simp only [List.length_append, List.length_cons]
        omega
    · have habs : ∀ e ∈ s.rehash.entries, e.key ≠ key := by
        intro e he hk
        exact hin (by rw [← hk]; exact List.mem_map_of_mem _ he)
      have hdel := delFromTable_not_found hrwf habs
      rw [hdel]
      refine ⟨⟨hpwf, hrwf, hreh0, hcaps, hpre0, hnd⟩, rfl, rfl, habs,
        fun e he => he, fun e he _ => he, fun _ => rfl, fun hk => absurd hk hin⟩
  · rw [if_neg hreh]
    have hb : s.isRehashing = false := by
      cases hbb : s.isRehashing with
      | true => exact absurd hbb hreh
      | false => rfl
    have hremp : s.rehash = Table.empty := hreh0 hb
    refine ⟨⟨hpwf, hrwf, hreh0, hcaps, hpre0, hnd⟩, rfl, rfl, ?_,
      fun e he => he, fun e he _ => he, fun _ => rfl, ?_⟩
    · intro e he hk
      rw [hremp, show Table.empty.entries = ([] : List HTEntry) from rfl] at he
      exact List.not_mem_nil e he
    · intro hk
      rw [hremp, show entryKeys Table.empty.entries = ([] : List ByteStr) from rfl] at hk
      exact absurd hk (List.not_mem_nil key)

/-- The lazy-allocation phase of `set`. -/
lemma lazyAlloc_spec {s : HashTable} (hwf : WF s) :
    WF (lazyAlloc s) ∧ entriesOf (lazyAlloc s) = entriesOf s ∧
    (lazyAlloc s).rehash = s.rehash ∧
    (lazyAlloc s).isRehashing = s.isRehashing ∧
    0 < (lazyAlloc s).primary.capacity := by
  obtain ⟨hpwf, hrwf, hreh0, hcaps, hpre0, hnd⟩ := hwf
  unfold lazyAlloc
  by_cases hemp : s.primary.slots.isEmpty
  · rw [if_pos hemp]
    have hnil : s.primary.slots = [] := List.isEmpty_iff.mp hemp
    have hpent : s.primary.entries = [] := by
      show s.primary.slots.flatMap id = []
      rw [hnil]
      rfl
    have hent : entriesOf ({ s with primary := allocTable kInitialCapacity }) =
        entriesOf s := by
      show (allocTable kInitialCapacity).entries ++ s.rehash.entries =
        s.primary.entries ++ s.rehash.entries
      rw [allocTable_entries, hpent]
    refine ⟨⟨allocTable_WF _, hrwf, hreh0, ?_, hpre0, ?_⟩, hent, rfl, rfl, ?_⟩
    · intro htrue
      refine ⟨?_, (hcaps htrue).2⟩
      show (0 : Nat) < 4
      omega
    · show (entryKeys (entriesOf ({ s with primary := allocTable kInitialCapacity }))).Nodup
      rw [hent]
      exact hnd
    · show (0 : Nat) < 4
      omega
  · rw [if_neg hemp]
    have hpos : 0 < s.primary.slots.length := by
      cases hsl : s.primary.slots with
      | nil => rw [hsl] at hemp; exact absurd rfl hemp
      | cons a rest => simp [hsl]
    refine ⟨⟨hpwf, hrwf, hreh0, hcaps, hpre0, hnd⟩, rfl, rfl, rfl, ?_⟩
    have hlen := hpwf.1
    omega

/-- In-place overwrite at the key's slot: the matched entry keeps its key,
hash, and expiry; only the value changes. -/
lemma overwrite_table_spec {t : Table} {key : ByteStr} {v : RedisObject} (hwf : t.WF)
    {m0 : HTEntry}
    (hfc : findInChain (t.slot (Nat.land (fnv1a key) t.mask)) key (fnv1a key) = some m0) :
    ∃ A B m, m.key = key ∧ t.entries = A ++ m :: B ∧
      Table.WF ⟨t.slots.set (Nat.land (fnv1a key) t.mask)
        (overwriteInChain (t.slot (Nat.land (fnv1a key) t.mask)) key (fnv1a key) v),
        t.capacity, t.mask, t.size⟩ ∧
      (⟨t.slots.set (Nat.land (fnv1a key) t.mask)
        (overwriteInChain (t.slot (Nat.land (fnv1a key) t.mask)) key (fnv1a key) v),
        t.capacity, t.mask, t.size⟩ : Table).entries = A ++ { m with value := v } :: B := by
  obtain ⟨hm0c, hm0h, hm0k⟩ := findInChain_eq_some hfc
  have hpos : 0 < t.slots.length := by
    cases hsl : t.slots with
    | nil =>
      have hm0c2 : m0 ∈ t.slots.getD (Nat.land (fnv1a key) t.mask) [] := hm0c
      rw [hsl] at hm0c2
      exact absurd hm0c2 (List.not_mem_nil m0)
    | cons a rest => simp [hsl]
  have hidxlt : Nat.land (fnv1a key) t.mask < t.slots.length := land_mask_lt hwf hpos _
  obtain ⟨pre, m, post, hchain, hmh, hmk2, hpre⟩ := chain_split hm0c hm0h hm0k
  have hmmem : m ∈ t.slots.getD (Nat.land (fnv1a key) t.mask) [] := by
    show m ∈ t.slot (Nat.land (fnv1a key) t.mask)
    rw [hchain]
    exact List.mem_append.mpr (Or.inr (List.mem_cons_self _ _))
  obtain ⟨hmhc', hmslot'⟩ := hwf.2.2.2 _ hidxlt m hmmem
  have hov : overwriteInChain (t.slot (Nat.land (fnv1a key) t.mask)) key (fnv1a key) v =
      pre ++ { m with value := v } :: post := by
    rw [hchain]
    exact overwriteInChain_append v ⟨hmh, hmk2⟩ hpre
  have hparts := flatMap_parts hidxlt
  have hchain' : t.slots.getD (Nat.land (fnv1a key) t.mask) [] = pre ++ m :: post := hchain
  refine ⟨(t.slots.take (Nat.land (fnv1a key) t.mask)).flatMap id ++ pre,
    post ++ (t.slots.drop (Nat.land (fnv1a key) t.mask + 1)).flatMap id, m, hmk2, ?_, ?_, ?_⟩
  · show t.slots.flatMap id = _
    rw [hparts, hchain']
    simp [List.append_assoc]
  · refine WF_set hwf hidxlt ?_ ?_
    · intro e he
      rw [hov] at he
      rcases List.mem_append.mp he with h1 | h2
      · refine hwf.2.2.2 _ hidxlt e ?_
        show e ∈ t.slot (Nat.land (fnv1a key) t.mask)
        rw [hchain]
        exact List.mem_append.mpr (Or.inl h1)
      · rcases List.mem_cons.mp h2 with rfl | h3
        · exact ⟨hmhc', hmslot'⟩
        · refine hwf.2.2.2 _ hidxlt e ?_
          show e ∈ t.slot (Nat.land (fnv1a key) t.mask)
          rw [hchain]
          exact List.mem_append.mpr (Or.inr (List.mem_cons_of_mem _ h3))
    · rw [hov]
      have hlch := congrArg List.length hchain'
      simp only [List.length_append, List.length_cons] at hlch ⊢
      omega
  · show (t.slots.set (Nat.land (fnv1a key) t.mask)
      (overwriteInChain (t.slot (Nat.land (fnv1a key) t.mask)) key (fnv1a key) v)).flatMap id = _
    rw [flatMap_set _ hidxlt, hov]
    simp [List.append_assoc]

/-- Head insertion of a fresh entry at the key's slot. -/
lemma insert_table_spec {t : Table} (key : ByteStr) (v : RedisObject) (hwf : t.WF)
    (hpos : 0 < t.slots.length) :
    Table.WF ⟨t.slots.set (Nat.land (fnv1a key) t.mask)
      ((⟨key, v, fnv1a key, -1⟩ : HTEntry) :: t.slot (Nat.land (fnv1a key) t.mask)),
      t.capacity, t.mask, t.size + 1⟩ ∧
    (⟨t.slots.set (Nat.land (fnv1a key) t.mask)
      ((⟨key, v, fnv1a key, -1⟩ : HTEntry) :: t.slot (Nat.land (fnv1a key) t.mask)),
      t.capacity, t.mask, t.size + 1⟩ : Table).entries.Perm
      ((⟨key, v, fnv1a key, -1⟩ : HTEntry) :: t.entries) := by
  have hidxlt : Nat.land (fnv1a key) t.mask < t.slots.length := land_mask_lt hwf hpos _
  constructor
  · refine WF_set hwf hidxlt ?_ ?_
    · intro e he
      rcases List.mem_cons.mp he with rfl | h2
      · exact ⟨rfl, rfl⟩
      · exact hwf.2.2.2 _ hidxlt e h2
    · simp only [List.length_cons, Table.slot]
      omega
  · show ((t.slots.set (Nat.land (fnv1a key) t.mask)
      ((⟨key, v, fnv1a key, -1⟩ : HTEntry) ::
        t.slot (Nat.land (fnv1a key) t.mask))).flatMap id).Perm _
    rw [flatMap_set _ hidxlt]
    have hparts := flatMap_parts hidxlt
    rw [List.perm_iff_count]
    intro a
    have hcnt := congrArg (List.count a) hparts
    simp only [List.count_append, List.count_cons, Table.slot] at hcnt ⊢
    have hent : List.count a t.entries = List.count a (t.slots.flatMap id) := rfl
    rw [hent, hcnt]
    omega

/-- The overwrite-or-insert tail of `set`: a present key is overwritten in
place (same key, hash, and expiry; new value); an absent key gets a fresh
entry with `expireAt = -1`, possibly followed by a rehash trigger. -/
lemma setTail_spec {s : HashTable} {key : ByteStr} {v : RedisObject} (hwf : WF s)
    (hcap : 0 < s.primary.capacity)
    (hnor : ∀ e ∈ s.rehash.entries, e.key ≠ key) :
    WF (setTail s key (fnv1a key) v) ∧
    ((∃ A B m, m.key = key ∧ entriesOf s = A ++ m :: B ∧
        entriesOf (setTail s key (fnv1a key) v) = A ++ { m with value := v } :: B) ∨
      ((∀ e ∈ entriesOf s, e.key ≠ key) ∧
        (entriesOf (setTail s key (fnv1a key) v)).Perm
          ((⟨key, v, fnv1a key, -1⟩ : HTEntry) :: entriesOf s))) := by
  obtain ⟨hpwf, hrwf, hreh0, hcaps, hpre0, hnd⟩ := hwf
  have hpos : 0 < s.primary.slots.length := by
    have := hpwf.1
    omega
  have hidxlt : Nat.land (fnv1a key) s.primary.mask < s.primary.slots.length :=
    land_mask_lt hpwf hpos _
  cases hfc : findInChain (s.primary.slot (Nat.land (fnv1a key) s.primary.mask)) key
      (fnv1a key) with
  | some m0 =>
    obtain ⟨A, B, m, hmk, hpdecomp, hwfp2, hpent2⟩ := overwrite_table_spec hpwf hfc
    have hgoal_eq : setTail s key (fnv1a key) v = (⟨(⟨s.primary.slots.set (Nat.land (fnv1a key) s.primary.mask)
      (overwriteInChain (s.primary.slot (Nat.land (fnv1a key) s.primary.mask)) key (fnv1a key) v),
      s.primary.capacity, s.primary.mask, s.primary.size⟩ : Table), s.rehash, s.isRehashing, s.rehashIdx⟩ : HashTable) := by
      simp only [setTail]
      rw [hfc]
    rw [hgoal_eq]
    have hkeysP : List.map (fun e : HTEntry => e.key) ((⟨s.primary.slots.set (Nat.land (fnv1a key) s.primary.mask)
      (overwriteInChain (s.primary.slot (Nat.land (fnv1a key) s.primary.mask)) key (fnv1a key) v),
      s.primary.capacity, s.primary.mask, s.primary.size⟩ : Table).entries) =
        List.map (fun e : HTEntry => e.key) s.primary.entries := by
      rw [show (⟨s.primary.slots.set (Nat.land (fnv1a key) s.primary.mask)
      (overwriteInChain (s.primary.slot (Nat.land (fnv1a key) s.primary.mask)) key (fnv1a key) v),
      s.primary.capacity, s.primary.mask, s.primary.size⟩ : Table).entries = A ++ { m with value := v } :: B from hpent2, hpdecomp]
      rw [List.map_append, List.map_cons, List.map_append, List.map_cons]
    refine ⟨⟨hwfp2, hrwf, hreh0, fun htrue => ⟨(hcaps htrue).1, (hcaps htrue).2⟩,
      hpre0, ?_⟩, Or.inl ⟨A, B ++ s.rehash.entries, m, hmk, ?_, ?_⟩⟩
    · show (List.map (fun e : HTEntry => e.key)
        ((⟨s.primary.slots.set (Nat.land (fnv1a key) s.primary.mask)
      (overwriteInChain (s.primary.slot (Nat.land (fnv1a key) s.primary.mask)) key (fnv1a key) v),
      s.primary.capacity, s.primary.mask, s.primary.size⟩ : Table).entries ++ s.rehash.entries)).Nodup
      rw [List.map_append, hkeysP, ← List.map_append]
      exact hnd
    · show s.primary.entries ++ s.rehash.entries = A ++ m :: (B ++ s.rehash.entries)
      rw [hpdecomp]
      simp [List.append_assoc]
    · show (⟨s.primary.slots.set (Nat.land (fnv1a key) s.primary.mask)
      (overwriteInChain (s.primary.slot (Nat.land (fnv1a key) s.primary.mask)) key (fnv1a key) v),
      s.primary.capacity, s.primary.mask, s.primary.size⟩ : Table).entries ++ s.rehash.entries =
        A ++ { m with value := v } :: (B ++ s.rehash.entries)
      rw [hpent2]
      simp [List.append_assoc]
  | none =>
    have hnop : ∀ e ∈ s.primary.entries, e.key ≠ key := by
      intro e he hk
      obtain ⟨i, hi, hei⟩ := mem_entries_iff.mp he
      obtain ⟨hhc2, hslot2⟩ := hpwf.2.2.2 i hi e hei
      have hieq : i = Nat.land (fnv1a key) s.primary.mask := by
        rw [← hslot2, hhc2, hk]
      rw [findInChain_eq_none] at hfc
      refine hfc e ?_ ⟨by rw [hhc2, hk], hk⟩
      show e ∈ s.primary.slots.getD (Nat.land (fnv1a key) s.primary.mask) []
      rw [← hieq]
      exact hei
    have hnoall : ∀ e ∈ entriesOf s, e.key ≠ key := by
      intro e he
      rcases List.mem_append.mp he with h1 | h2
      · exact hnop e h1
      · exact hnor e h2
    obtain ⟨hwfp4, hpperm⟩ := insert_table_spec key v hpwf hpos
    have hgoal_eq : setTail s key (fnv1a key) v =
        (if s.isRehashing = false ∧ 2 * s.primary.capacity < s.primary.size + 1
          then (⟨(⟨s.primary.slots.set (Nat.land (fnv1a key) s.primary.mask)
      ((⟨key, v, fnv1a key, -1⟩ : HTEntry) :: s.primary.slot (Nat.land (fnv1a key) s.primary.mask)),
      s.primary.capacity, s.primary.mask, s.primary.size + 1⟩ : Table), s.rehash, s.isRehashing, s.rehashIdx⟩ : HashTable).triggerRehash
          else (⟨(⟨s.primary.slots.set (Nat.land (fnv1a key) s.primary.mask)
      ((⟨key, v, fnv1a key, -1⟩ : HTEntry) :: s.primary.slot (Nat.land (fnv1a key) s.primary.mask)),
      s.primary.capacity, s.primary.mask, s.primary.size + 1⟩ : Table), s.rehash, s.isRehashing, s.rehashIdx⟩ : HashTable)) := by
      simp only [setTail]
      rw [hfc]
    rw [hgoal_eq]
    have hperm4 : (entriesOf (⟨(⟨s.primary.slots.set (Nat.land (fnv1a key) s.primary.mask)
      ((⟨key, v, fnv1a key, -1⟩ : HTEntry) :: s.primary.slot (Nat.land (fnv1a key) s.primary.mask)),
      s.primary.capacity, s.primary.mask, s.primary.size + 1⟩ : Table), s.rehash, s.isRehashing, s.rehashIdx⟩ : HashTable)).Perm
        ((⟨key, v, fnv1a key, -1⟩ : HTEntry) :: entriesOf s) := by
      show ((⟨s.primary.slots.set (Nat.land (fnv1a key) s.primary.mask)
      ((⟨key, v, fnv1a key, -1⟩ : HTEntry) :: s.primary.slot (Nat.land (fnv1a key) s.primary.mask)),
      s.primary.capacity, s.primary.mask, s.primary.size + 1⟩ : Table).entries ++ s.rehash.entries).Perm _
      rw [List.perm_iff_count]
      intro a
      have h1 := hpperm.count_eq a
      simp only [HashTable.entriesOf, List.count_append, List.count_cons] at h1 ⊢
      omega
    have hndnew : (entryKeys (entriesOf (⟨(⟨s.primary.slots.set (Nat.land (fnv1a key) s.primary.mask)
      ((⟨key, v, fnv1a key, -1⟩ : HTEntry) :: s.primary.slot (Nat.land (fnv1a key) s.primary.mask)),
      s.primary.capacity, s.primary.mask, s.primary.size + 1⟩ : Table), s.rehash, s.isRehashing, s.rehashIdx⟩ : HashTable))).Nodup := by
      refine ((hperm4.map (fun e : HTEntry => e.key)).nodup_iff).mpr ?_
      show (List.map (fun e : HTEntry => e.key)
        ((⟨key, v, fnv1a key, -1⟩ : HTEntry) :: entriesOf s)).Nodup
      rw [List.map_cons]
      refine List.nodup_cons.mpr ⟨?_, hnd⟩
      intro hkin
      obtain ⟨e, he, hek⟩ := List.mem_map.mp hkin
      exact hnoall e he hek
    have hwfs4 : WF (⟨(⟨s.primary.slots.set (Nat.land (fnv1a key) s.primary.mask)
      ((⟨key, v, fnv1a key, -1⟩ : HTEntry) :: s.primary.slot (Nat.land (fnv1a key) s.primary.mask)),
      s.primary.capacity, s.primary.mask, s.primary.size + 1⟩ : Table), s.rehash, s.isRehashing, s.rehashIdx⟩ : HashTable) :=
      ⟨hwfp4, hrwf, hreh0, fun htrue => ⟨(hcaps htrue).1, (hcaps htrue).2⟩, hpre0, hndnew⟩
    by_cases hcond : s.isRehashing = false ∧ 2 * s.primary.capacity < s.primary.size + 1
    · rw [if_pos hcond]
      have hrehf : (⟨(⟨s.primary.slots.set (Nat.land (fnv1a key) s.primary.mask)
      ((⟨key, v, fnv1a key, -1⟩ : HTEntry) :: s.primary.slot (Nat.land (fnv1a key) s.primary.mask)),
      s.primary.capacity, s.primary.mask, s.primary.size + 1⟩ : Table), s.rehash, s.isRehashing, s.rehashIdx⟩ : HashTable).isRehashing = false := hcond.1
      have hcap4 : 0 < (⟨(⟨s.primary.slots.set (Nat.land (fnv1a key) s.primary.mask)
      ((⟨key, v, fnv1a key, -1⟩ : HTEntry) :: s.primary.slot (Nat.land (fnv1a key) s.primary.mask)),
      s.primary.capacity, s.primary.mask, s.primary.size + 1⟩ : Table), s.rehash, s.isRehashing, s.rehashIdx⟩ : HashTable).primary.capacity := hcap
      obtain ⟨hwft, hentt, _⟩ := triggerRehash_spec hwfs4 hrehf hcap4
      refine ⟨hwft, Or.inr ⟨hnoall, ?_⟩⟩
      rw [hentt]
      have hents : entriesOf s = s.primary.entries := by
        show s.primary.entries ++ s.rehash.entries = _
        rw [hreh0 hcond.1, show Table.empty.entries = ([] : List HTEntry) from rfl,
          List.append_nil]
      rw [hents]
      exact hpperm
    · rw [if_neg hcond]
      exact ⟨hwfs4, Or.inr ⟨hnoall, hperm4⟩⟩

/-- `HashTable::set`: afterwards the key is bound to the new value, and every
other binding is exactly as before. -/
lemma set_spec {s : HashTable} (key : ByteStr) (v : RedisObject) (hwf : WF s) :
    WF (s.set key v) ∧
    (∃ e, e ∈ entriesOf (s.set key v) ∧ e.key = key ∧ e.value = v) ∧
    (∀ e ∈ entriesOf (s.set key v), e.key ≠ key → e ∈ entriesOf s) ∧
    (∀ e ∈ entriesOf s, e.key ≠ key → e ∈ entriesOf (s.set key v)) := by
  obtain ⟨hwf1, hperm1⟩ := rehashWork_spec hwf
  obtain ⟨hwf2, hprim2, hreh2, hnor2, hsub2, hsup2, hid2, hlen2⟩ := dropFromOld_spec hwf1
  obtain ⟨hwf3, hent3, hrehash3, hisreh3, hcap3⟩ := lazyAlloc_spec hwf2
  have hnor3 : ∀ e ∈ (lazyAlloc (dropFromOld (rehashWork s) key (fnv1a key))).rehash.entries,
      e.key ≠ key := by
    rw [hrehash3]
    exact hnor2
  obtain ⟨hwf4, hcases⟩ := setTail_spec hwf3 hcap3 hnor3
  have hseteq : s.set key v =
      setTail (lazyAlloc (dropFromOld (rehashWork s) key (fnv1a key))) key (fnv1a key) v :=
    rfl
  rw [hseteq]
  refine ⟨hwf4, ?_, ?_, ?_⟩
  · rcases hcases with ⟨A, B, m, hmk, hdec, hdec2⟩ | ⟨hnone, hperm⟩
    · refine ⟨{ m with value := v }, ?_, hmk, rfl⟩
      rw [hdec2]
      exact List.mem_append.mpr (Or.inr (List.mem_cons_self _ _))
    · refine ⟨⟨key, v, fnv1a key, -1⟩, ?_, rfl, rfl⟩
      exact hperm.mem_iff.mpr (List.mem_cons_self _ _)
  · intro e he hk
    have he3 : e ∈ entriesOf (lazyAlloc (dropFromOld (rehashWork s) key (fnv1a key))) := by
      rcases hcases with ⟨A, B, m, hmk, hdec, hdec2⟩ | ⟨hnone, hperm⟩
      · rw [hdec2] at he
        rw [hdec]
        rcases List.mem_append.mp he with h1 | h2
        · exact List.mem_append.mpr (Or.inl h1)
        · rcases List.mem_cons.mp h2 with rfl | h3
          · exact absurd hmk hk
          · exact List.mem_append.mpr (Or.inr (List.mem_cons_of_mem _ h3))
      · rcases List.mem_cons.mp (hperm.mem_iff.mp he) with rfl | h3
        · exact absurd rfl hk
        · exact h3
    rw [hent3] at he3
    exact hperm1.subset (hsub2 e he3)
  · intro e he hk
    have he1 : e ∈ entriesOf (rehashWork s) := hperm1.symm.subset he
    have he2 : e ∈ entriesOf (dropFromOld (rehashWork s) key (fnv1a key)) :=
      hsup2 e he1 hk
    have he3 : e ∈ entriesOf (lazyAlloc (dropFromOld (rehashWork s) key (fnv1a key))) := by
      rw [hent3]
      exact he2
    rcases hcases with ⟨A, B, m, hmk, hdec, hdec2⟩ | ⟨hnone, hperm⟩
    · rw [hdec] at he3
      rw [hdec2]
      rcases List.mem_append.mp he3 with h1 | h2
      · exact List.mem_append.mpr (Or.inl h1)
      · rcases List.mem_cons.mp h2 with rfl | h3
        · exact absurd hmk hk
        · exact List.mem_append.mpr (Or.inr (List.mem_cons_of_mem _ h3))
    · exact hperm.mem_iff.mpr (List.mem_cons_of_mem _ he3)

/-- `HashTable::del`: afterwards no entry has the key, and every other
binding is exactly as before. -/
lemma del_spec {s : HashTable} (key : ByteStr) (hwf : WF s) :
    WF (s.del key).1 ∧
    (∀ e ∈ entriesOf (s.del key).1, e ∈ entriesOf s ∧ e.key ≠ key) ∧
    (∀ e ∈ entriesOf s, e.key ≠ key → e ∈ entriesOf (s.del key).1) := by
  obtain ⟨hwf1, hperm1⟩ := rehashWork_spec hwf
  have hdeq : s.del key =
      (let s1 := rehashWork s
       let h := fnv1a key
       let pr := delFromTable s1.primary key h
       if pr.2 then ({ s1 with primary := pr.1 }, true)
       else if s1.isRehashing then
         let rr := delFromTable s1.rehash key h
         ({ s1 with rehash := rr.1 }, rr.2)
       else (s1, false)) := rfl
  obtain ⟨hpwf1, hrwf1, hreh01, hcaps1, hpre01, hnd1⟩ := hwf1
  obtain ⟨hndp1, hndr1, hdisj1⟩ := nodup_split hnd1
  have hwf1' : WF (rehashWork s) := ⟨hpwf1, hrwf1, hreh01, hcaps1, hpre01, hnd1⟩
  by_cases hinP : key ∈ entryKeys (rehashWork s).primary.entries
  · obtain ⟨e₀, he₀, hkeq⟩ := List.mem_map.mp hinP
    obtain ⟨A, B, m, hmk, hdecomp, hfnd, hent', hwf'', hcap', hmask', hlen', hsz', hsub'⟩ :=
      delFromTable_found hpwf1 he₀ hkeq
    have hres1 : (s.del key).1 = { rehashWork s with primary :=
        (delFromTable (rehashWork s).primary key (fnv1a key)).1 } := by
      simp only [hdeq]
      rw [hfnd]
      simp
    have hkeysP : entryKeys (rehashWork s).primary.entries =
        entryKeys A ++ m.key :: entryKeys B := by
      rw [hdecomp]
      show List.map (fun e : HTEntry => e.key) (A ++ m :: B) = _
      rw [List.map_append, List.map_cons]
      rfl
    have hnotin : key ∉ entryKeys A ++ entryKeys B := by
      have hndp2 := hndp1
      rw [hkeysP] at hndp2
      have hmid := List.nodup_cons.mp (List.nodup_middle.mp hndp2)
      rw [← hmk]
      exact hmid.1
    have hnokeyAB : ∀ e ∈ A ++ B, e.key ≠ key := by
      intro e he hk
      apply hnotin
      rw [← hk]
      rcases List.mem_append.mp he with h1 | h2
      · exact List.mem_append.mpr (Or.inl (List.mem_map_of_mem _ h1))
      · exact List.mem_append.mpr (Or.inr (List.mem_map_of_mem _ h2))
    rw [hres1]
    refine ⟨?_, ?_, ?_⟩
    · refine ⟨hwf'', hrwf1, hreh01, ?_, hpre01, ?_⟩
      · intro htrue
        refine ⟨?_, (hcaps1 htrue).2⟩
        show 0 < (delFromTable (rehashWork s).primary key (fnv1a key)).1.capacity
        rw [hcap']
        exact (hcaps1 htrue).1
      · show (entryKeys ((delFromTable (rehashWork s).primary key (fnv1a key)).1.entries
          ++ (rehashWork s).rehash.entries)).Nodup
        have hsubl : ((delFromTable (rehashWork s).primary key (fnv1a key)).1.entries
            ++ (rehashWork s).rehash.entries).Sublist
            ((rehashWork s).primary.entries ++ (rehashWork s).rehash.entries) := by
          refine List.Sublist.append ?_ (List.Sublist.refl _)
          rw [hent', hdecomp]
          exact List.Sublist.append_left (List.sublist_cons_self _ _) A
        have hnd2 : (List.map (fun e : HTEntry => e.key)
            ((rehashWork s).primary.entries ++ (rehashWork s).rehash.entries)).Nodup := hnd1
        exact (hsubl.map (fun e : HTEntry => e.key)).nodup hnd2
    · intro e he
      have he2 : e ∈ (delFromTable (rehashWork s).primary key (fnv1a key)).1.entries
          ++ (rehashWork s).rehash.entries := he
      rcases List.mem_append.mp he2 with h1 | h2
      · rw [hent'] at h1
        have hmem1 : e ∈ entriesOf (rehashWork s) := by
          refine List.mem_append.mpr (Or.inl ?_)
          rw [hdecomp]
          rcases List.mem_append.mp h1 with h3 | h4
          · exact List.mem_append.mpr (Or.inl h3)
          · exact List.mem_append.mpr (Or.inr (List.mem_cons_of_mem _ h4))
        exact ⟨hperm1.subset hmem1, hnokeyAB e h1⟩
      · refine ⟨hperm1.subset (List.mem_append.mpr (Or.inr h2)), ?_⟩
        intro hk
        exact @hdisj1 key hinP (by rw [← hk]; exact List.mem_map_of_mem _ h2)
    · intro e he hk
      have he1 : e ∈ entriesOf (rehashWork s) := hperm1.symm.subset he
      show e ∈ (delFromTable (rehashWork s).primary key (fnv1a key)).1.entries
        ++ (rehashWork s).rehash.entries
      rcases List.mem_append.mp he1 with h1 | h2
      · refine List.mem_append.mpr (Or.inl ?_)
        rw [hent']
        rw [hdecomp] at h1
        rcases List.mem_append.mp h1 with h3 | h4
        · exact List.mem_append.mpr (Or.inl h3)
        · rcases List.mem_cons.mp h4 with rfl | h5
          · exact absurd (by rw [hmk]) hk
          · exact List.mem_append.mpr (Or.inr h5)
      · exact List.mem_append.mpr (Or.inr h2)
  · have habsP : ∀ e ∈ (rehashWork s).primary.entries, e.key ≠ key := by
      intro e he hk
      exact hinP (by rw [← hk]; exact List.mem_map_of_mem _ he)
    have hdelP := delFromTable_not_found hpwf1 habsP
    by_cases hreh : (rehashWork s).isRehashing = true
    · have hres1 : (s.del key).1 = dropFromOld (rehashWork s) key (fnv1a key) := by
        simp only [hdeq]
        rw [hdelP]
        simp [hreh]
        unfold dropFromOld
        rw [if_pos hreh, hreh]
      obtain ⟨hwfd, hprimd, hrehd, hnord, hsubd, hsupd, hidd, hlend⟩ :=
        @dropFromOld_spec (rehashWork s) key hwf1'
      rw [hres1]
      refine ⟨hwfd, ?_, ?_⟩
      · intro e he
        refine ⟨hperm1.subset (hsubd e he), ?_⟩
        have he2 : e ∈ (dropFromOld (rehashWork s) key (fnv1a key)).primary.entries ++
            (dropFromOld (rehashWork s) key (fnv1a key)).rehash.entries := he
        rcases List.mem_append.mp he2 with h1 | h2
        · rw [hprimd] at h1
          exact habsP e h1
        · exact hnord e h2
      · intro e he hk
        exact hsupd e (hperm1.symm.subset he) hk
    · have hres1 : (s.del key).1 = rehashWork s := by
        simp only [hdeq]
        rw [hdelP]
        simp [hreh]
      rw [hres1]
      have hb : (rehashWork s).isRehashing = false := by
        cases hbb : (rehashWork s).isRehashing with
        | true => exact absurd hbb hreh
        | false => rfl
      have hremp : (rehashWork s).rehash = Table.empty := hreh01 hb
      refine ⟨hwf1', ?_, ?_⟩
      · intro e he
        refine ⟨hperm1.subset he, ?_⟩
        have he2 : e ∈ (rehashWork s).primary.entries ++
            (rehashWork s).rehash.entries := he
        rcases List.mem_append.mp he2 with h1 | h2
        · exact habsP e h1
        · rw [hremp, show Table.empty.entries = ([] : List HTEntry) from rfl] at h2
          exact absurd h2 (List.not_mem_nil e)
      · intro e he hk
        exact hperm1.symm.subset he

end HashTable

lemma specLookup_insert_self (m : List (ByteStr × RedisObject)) (k : ByteStr)
    (v : RedisObject) : specLookup (specInsert m k v) k = some v := by
  show ((((k, v) :: specErase m k).find? (fun p => p.1 == k)).map (·.2)) = some v
  rw [List.find?_cons_of_pos _ (by simp)]
  rfl

lemma specLookup_erase_self (m : List (ByteStr × RedisObject)) (k : ByteStr) :
    specLookup (specErase m k) k = none := by
  have hall : ∀ p ∈ specErase m k, ¬((fun q : ByteStr × RedisObject => q.1 == k) p = true) := by
    intro p hp
    have hf := List.of_mem_filter hp
    simp at hf ⊢
    exact hf
  show ((specErase m k).find? (fun p => p.1 == k)).map (·.2) = none
  rw [List.find?_eq_none.mpr hall]
  rfl

lemma specLookup_erase_ne : ∀ (m : List (ByteStr × RedisObject)) (k k' : ByteStr),
    k' ≠ k → specLookup (specErase m k) k' = specLookup m k' := by
  intro m
  induction m with
  | nil =>
    intro k k' h
    rfl
  | cons p rest ih =>
    intro k k' h
    show specLookup ((p :: rest).filter (fun q => !(q.1 == k))) k' = _
    rw [List.filter_cons]
    by_cases hpk : p.1 = k
    · rw [if_neg (by simp [hpk])]
      have h2 : specLookup (p :: rest) k' = specLookup rest k' := by
        show ((p :: rest).find? (fun q => q.1 == k')).map (·.2) = _
        rw [List.find?_cons_of_neg _ (by simp [hpk]; exact fun hh => h hh.symm)]
        rfl
      rw [h2]
      exact ih k k' h
    · rw [if_pos (by simp [hpk])]
      show specLookup (p :: rest.filter (fun q => !(q.1 == k))) k' = specLookup (p :: rest) k'
      by_cases hpk' : p.1 = k'
      · show ((p :: rest.filter (fun q => !(q.1 == k))).find? (fun q => q.1 == k')).map (·.2) =
          ((p :: rest).find? (fun q => q.1 == k')).map (·.2)
        rw [List.find?_cons_of_pos _ (by simp [hpk']),
          List.find?_cons_of_pos _ (by simp [hpk'])]
      · show ((p :: rest.filter (fun q => !(q.1 == k))).find? (fun q => q.1 == k')).map (·.2) =
          ((p :: rest).find? (fun q => q.1 == k')).map (·.2)
        rw [List.find?_cons_of_neg _ (by simp [hpk']),
          List.find?_cons_of_neg _ (by simp [hpk'])]
        exact ih k k' h

/-- The dictionary realises exactly the bindings of the reference model. -/
def MapsTo (s : HashTable) (model : List (ByteStr × RedisObject)) : Prop :=
  (∀ e ∈ HashTable.entriesOf s, specLookup model e.key = some e.value) ∧
  (∀ k v, specLookup model k = some v →
    ∃ e ∈ HashTable.entriesOf s, e.key = k ∧ e.value = v)

/-- One dictionary operation preserves agreement with the model. -/
lemma dStep_good {s : HashTable} {model : List (ByteStr × RedisObject)} (op : DOp)
    (hwf : HashTable.WF s) (hm : MapsTo s model) :
    HashTable.WF (dStep s op) ∧ MapsTo (dStep s op) (specStep model op) := by
  obtain ⟨hm1, hm2⟩ := hm
  cases op with
  | set k v =>
    obtain ⟨hwf', hex, hsub, hsup⟩ := HashTable.set_spec k v hwf
    refine ⟨hwf', ?_, ?_⟩
    · intro e he
      by_cases hk : e.key = k
      · obtain ⟨e2, he2, hk2, hv2⟩ := hex
        have heq : e = e2 := nodup_key_unique hwf'.2.2.2.2.2 he he2 (by rw [hk, hk2])
        rw [heq, hk2, hv2]
        exact specLookup_insert_self model k v
      · have hold := hm1 e (hsub e he hk)
        show specLookup ((k, v) :: specErase model k) e.key = some e.value
        show (((k, v) :: specErase model k).find? (fun p => p.1 == e.key)).map (·.2) = _
        rw [List.find?_cons_of_neg _ (by simp; exact fun hh => hk hh.symm)]
        exact (specLookup_erase_ne model k e.key hk).trans hold
    · intro k2 v2 hl
      by_cases hk : k2 = k
      · subst hk
        have hl2 : specLookup (specInsert model k2 v) k2 = some v2 := hl
        rw [specLookup_insert_self] at hl2
        obtain ⟨e2, he2, hk2, hv2⟩ := hex
        refine ⟨e2, he2, hk2, ?_⟩
        rw [hv2]
        exact Option.some.inj hl2
      · have hstep : specLookup (specInsert model k v) k2 = specLookup model k2 := by
          show (((k, v) :: specErase model k).find? (fun p => p.1 == k2)).map (·.2) = _
          rw [List.find?_cons_of_neg _ (by simp; exact fun hh => hk hh.symm)]
          exact specLookup_erase_ne model k k2 hk
        have hl3 : specLookup (specInsert model k v) k2 = some v2 := hl
        rw [hstep] at hl3
        obtain ⟨e2, he2, hk2, hv2⟩ := hm2 k2 v2 hl3
        exact ⟨e2, hsup e2 he2 (by rw [hk2]; exact hk), hk2, hv2⟩
  | del k =>
    obtain ⟨hwf', hsub, hsup⟩ := HashTable.del_spec k hwf
    refine ⟨hwf', ?_, ?_⟩
    · intro e he
      obtain ⟨hmem, hkne⟩ := hsub e he
      have hold := hm1 e hmem
      exact (specLookup_erase_ne model k e.key hkne).trans hold
    · intro k2 v2 hl
      by_cases hk : k2 = k
      · subst hk
        have hl2 : specLookup (specErase model k2) k2 = some v2 := hl
        rw [specLookup_erase_self] at hl2
        exact Option.noConfusion hl2
      · have hl2 : specLookup (specErase model k) k2 = some v2 := hl
        rw [specLookup_erase_ne model k k2 hk] at hl2
        obtain ⟨e2, he2, hk2, hv2⟩ := hm2 k2 v2 hl2
        exact ⟨e2, hsup e2 he2 (by rw [hk2]; exact hk), hk2, hv2⟩
  | rehashStep n =>
    obtain ⟨hwf', hperm⟩ := HashTable.rehashStep_spec n hwf
    refine ⟨hwf', ?_, ?_⟩
    · intro e he
      exact hm1 e (hperm.subset he)
    · intro k2 v2 hl
      obtain ⟨e2, he2, hk2, hv2⟩ := hm2 k2 v2 hl
      exact ⟨e2, hperm.symm.subset he2, hk2, hv2⟩

/-- Agreement with the model is preserved along any run. -/
lemma dExec_good : ∀ (ops : List DOp) (s : HashTable)
    (model : List (ByteStr × RedisObject)), HashTable.WF s → MapsTo s model →
    HashTable.WF (dExec s ops) ∧ MapsTo (dExec s ops) (specExec model ops) := by
  intro ops
  induction ops with
  | nil =>
    intro s model hwf hm
    exact ⟨hwf, hm⟩
  | cons op rest ih =>
    intro s model hwf hm
    obtain ⟨hwf', hm'⟩ := dStep_good op hwf hm
    exact ih _ _ hwf' hm'

/-- The empty dictionary is well-formed. -/
lemma wf_empty : HashTable.WF HashTable.empty := by
  refine ⟨empty_table_WF, empty_table_WF, fun _ => rfl, ?_, ?_, ?_⟩
  · intro h
    exact Bool.noConfusion h
  · intro h
    exact Bool.noConfusion h
  · exact List.nodup_nil

/-- The empty dictionary realises the empty model. -/
lemma mapsTo_empty : MapsTo HashTable.empty [] := by
  constructor
  · intro e he
    exact absurd (show e ∈ ([] : List HTEntry) from he) (List.not_mem_nil e)
  · intro k v hl
    exact Option.noConfusion hl

/-- C2: for every sequence of `set`, `del` and `rehashStep` operations run from
the empty dictionary — so in particular at every intermediate state of any
longer run, during and after incremental rehashing — `find k` returns exactly
the value of the last `set` of `k` not followed by a later `del` of `k` (the
reference model `specLookup (specExec [] ops) k`), and no key is present in
both the primary and the rehash table at once. -/
theorem hashtable_rehash_invariance (ops : List DOp) (k : ByteStr) :
    ((dExec HashTable.empty ops).find k).map (fun e => e.value) =
      specLookup (specExec [] ops) k ∧
    ¬(k ∈ entryKeys (dExec HashTable.empty ops).primary.entries ∧
      k ∈ entryKeys (dExec HashTable.empty ops).rehash.entries) := by
  obtain ⟨hwf, hm1, hm2⟩ := dExec_good ops HashTable.empty [] wf_empty mapsTo_empty
  constructor
  · cases hf : (dExec HashTable.empty ops).find k with
    | none =>
      have hall := (HashTable.find_none_iff hwf).mp hf
      cases hl : specLookup (specExec [] ops) k with
      | none => rfl
      | some v =>
        obtain ⟨e, he, hk, hv⟩ := hm2 k v hl
        exact absurd hk (hall e he)
    | some e =>
      obtain ⟨hmem, hkey⟩ := (HashTable.find_some_iff hwf).mp hf
      have hval := hm1 e hmem
      rw [hkey] at hval
      rw [hval]
      rfl
  · intro ⟨hp, hr⟩
    obtain ⟨hndp, hndr, hdisj⟩ := HashTable.nodup_split hwf.2.2.2.2.2
    exact hdisj hp hr

namespace HashTable

/-- C3 (amended): `set` on a well-formed dictionary keeps it well-formed and
binds the key to the new value.  For an absent key it inserts a fresh entry
with `expireAt = -1` and grows `size()` by one.  For a present key `size()`
is unchanged and the value is overwritten, but the fate of `expireAt`
depends on where the entry sits after the migration batch that `set` runs
first: an entry in the primary table is overwritten in place (its `expireAt`
is preserved), while an entry still in the old (rehash) table is deleted
from it and re-inserted fresh, so its `expireAt` is reset to `-1`. -/
theorem set_overwrite_amended {s : HashTable} (key : ByteStr) (v : RedisObject)
    (hwf : WF s) :
    WF (s.set key v) ∧
    ((s.set key v).find key).map (fun e => e.value) = some v ∧
    ((∀ e ∈ entriesOf s, e.key ≠ key) →
      ((s.set key v).find key).map (fun e => e.expireAt) = some (-1) ∧
      (s.set key v).size = s.size + 1) ∧
    (∀ e ∈ entriesOf s, e.key = key →
      (s.set key v).size = s.size ∧
      (e ∈ (rehashWork s).primary.entries →
        ((s.set key v).find key).map (fun x => x.expireAt) = some e.expireAt) ∧
      (e ∈ (rehashWork s).rehash.entries →
        ((s.set key v).find key).map (fun x => x.expireAt) = some (-1))) := by
  obtain ⟨hwf1, hperm1⟩ := rehashWork_spec hwf
  obtain ⟨hwf2, hprim2, hreh2, hnor2, hsub2, hsup2, hid2, hlen2⟩ := dropFromOld_spec hwf1
  obtain ⟨hwf3, hent3, hrehash3, hisreh3, hcap3⟩ := lazyAlloc_spec hwf2
  have hnor3 : ∀ e ∈ (lazyAlloc (dropFromOld (rehashWork s) key (fnv1a key))).rehash.entries,
      e.key ≠ key := by
    rw [hrehash3]
    exact hnor2
  obtain ⟨hwf4, hcases⟩ := setTail_spec hwf3 hcap3 hnor3
  have hseteq : s.set key v =
      setTail (lazyAlloc (dropFromOld (rehashWork s) key (fnv1a key))) key (fnv1a key) v :=
    rfl
  rw [hseteq]
  obtain ⟨hndp1, hndr1, hdisj1⟩ := nodup_split hwf1.2.2.2.2.2
  refine ⟨hwf4, ?_, ?_, ?_⟩
  · rcases hcases with ⟨A, B, m, hmk, hdec, hdec2⟩ | ⟨hnone, hperm⟩
    · have hmem : { m with value := v } ∈
          entriesOf (setTail (lazyAlloc (dropFromOld (rehashWork s) key (fnv1a key)))
            key (fnv1a key) v) := by
        rw [hdec2]
        exact List.mem_append.mpr (Or.inr (List.mem_cons_self _ _))
      have hf := (find_some_iff hwf4).mpr
        ⟨hmem, show ({ m with value := v }).key = key from hmk⟩
      rw [hf]
      rfl
    · have hmem : (⟨key, v, fnv1a key, -1⟩ : HTEntry) ∈
          entriesOf (setTail (lazyAlloc (dropFromOld (rehashWork s) key (fnv1a key)))
            key (fnv1a key) v) :=
        hperm.mem_iff.mpr (List.mem_cons_self _ _)
      have hf := (find_some_iff hwf4).mpr ⟨hmem, rfl⟩
      rw [hf]
      rfl
  · intro hall
    have hall1 : ∀ e ∈ entriesOf (rehashWork s), e.key ≠ key := by
      intro e he
      exact hall e (hperm1.subset he)
    have hnin : key ∉ entryKeys (rehashWork s).rehash.entries := by
      intro hin
      obtain ⟨e, he, hek⟩ := List.mem_map.mp hin
      exact hall1 e (List.mem_append.mpr (Or.inr he)) hek
    have hs2eq : dropFromOld (rehashWork s) key (fnv1a key) = rehashWork s := hid2 hnin
    rcases hcases with ⟨A, B, m, hmk, hdec, hdec2⟩ | ⟨hnone, hperm⟩
    · have hm3 : m ∈ entriesOf (lazyAlloc (dropFromOld (rehashWork s) key (fnv1a key))) := by
        rw [hdec]
        exact List.mem_append.mpr (Or.inr (List.mem_cons_self _ _))
      rw [hent3, hs2eq] at hm3
      exact absurd hmk (hall1 m hm3)
    · constructor
      · have hmem : (⟨key, v, fnv1a key, -1⟩ : HTEntry) ∈
            entriesOf (setTail (lazyAlloc (dropFromOld (rehashWork s) key (fnv1a key)))
              key (fnv1a key) v) :=
          hperm.mem_iff.mpr (List.mem_cons_self _ _)
        have hf := (find_some_iff hwf4).mpr ⟨hmem, rfl⟩
        rw [hf]
        rfl
      · rw [size_eq_entries hwf4, size_eq_entries hwf, hperm.length_eq, List.length_cons,
          hent3, hs2eq, hperm1.length_eq]
  · intro e he hek
    have he1 : e ∈ entriesOf (rehashWork s) := hperm1.symm.subset he
    rcases List.mem_append.mp (show e ∈ (rehashWork s).primary.entries ++
        (rehashWork s).rehash.entries from he1) with hP | hR
    · have hninreh : key ∉ entryKeys (rehashWork s).rehash.entries := by
        intro hin
        exact hdisj1 (by rw [← hek]; exact List.mem_map_of_mem _ hP) hin
      have hs2eq : dropFromOld (rehashWork s) key (fnv1a key) = rehashWork s := hid2 hninreh
      have he3 : e ∈ entriesOf (lazyAlloc (dropFromOld (rehashWork s) key (fnv1a key))) := by
        rw [hent3, hs2eq]
        exact he1
      rcases hcases with ⟨A, B, m, hmk, hdec, hdec2⟩ | ⟨hnone, hperm⟩
      · have hm3 : m ∈ entriesOf (lazyAlloc (dropFromOld (rehashWork s) key (fnv1a key))) := by
          rw [hdec]
          exact List.mem_append.mpr (Or.inr (List.mem_cons_self _ _))
        have hme : m = e := nodup_key_unique hwf3.2.2.2.2.2 hm3 he3 (by rw [hmk, hek])
        have hmemN : { m with value := v } ∈
            entriesOf (setTail (lazyAlloc (dropFromOld (rehashWork s) key (fnv1a key)))
              key (fnv1a key) v) := by
          rw [hdec2]
          exact List.mem_append.mpr (Or.inr (List.mem_cons_self _ _))
        have hf := (find_some_iff hwf4).mpr
          ⟨hmemN, show ({ m with value := v }).key = key from hmk⟩
        refine ⟨?_, ?_, ?_⟩
        · rw [size_eq_entries hwf4, size_eq_entries hwf, hdec2]
          have hlen3 : (entriesOf s).length = (A ++ m :: B).length := by
            rw [← hdec, hent3, hs2eq]
            exact hperm1.length_eq.symm
          rw [hlen3]
          simp [List.length_append, List.length_cons]
        · intro hPrim
          rw [hf, hme]
          rfl
        · intro hReh
          exact (hdisj1 (List.mem_map_of_mem _ hP) (List.mem_map_of_mem _ hReh)).elim
      · exact absurd hek (hnone e he3)
    · have hkin : key ∈ entryKeys (rehashWork s).rehash.entries := by
        rw [← hek]
        exact List.mem_map_of_mem _ hR
      have hlen := hlen2 hkin
      have hnokey3 : ∀ e' ∈ entriesOf (lazyAlloc (dropFromOld (rehashWork s) key (fnv1a key))),
          e'.key ≠ key := by
        intro e' he'
        rw [hent3] at he'
        rcases List.mem_append.mp (show e' ∈
            (dropFromOld (rehashWork s) key (fnv1a key)).primary.entries ++
            (dropFromOld (rehashWork s) key (fnv1a key)).rehash.entries from he') with h1 | h2
        · rw [hprim2] at h1
          intro hk
          exact @hdisj1 key (by rw [← hk]; exact List.mem_map_of_mem _ h1)
            (by rw [← hek]; exact List.mem_map_of_mem _ hR)
        · exact hnor2 e' h2
      rcases hcases with ⟨A, B, m, hmk, hdec, hdec2⟩ | ⟨hnone, hperm⟩
      · have hm3 : m ∈ entriesOf (lazyAlloc (dropFromOld (rehashWork s) key (fnv1a key))) := by
          rw [hdec]
          exact List.mem_append.mpr (Or.inr (List.mem_cons_self _ _))
        exact absurd hmk (hnokey3 m hm3)
      · have hmemN : (⟨key, v, fnv1a key, -1⟩ : HTEntry) ∈
            entriesOf (setTail (lazyAlloc (dropFromOld (rehashWork s) key (fnv1a key)))
              key (fnv1a key) v) :=
          hperm.mem_iff.mpr (List.mem_cons_self _ _)
        have hf := (find_some_iff hwf4).mpr ⟨hmemN, rfl⟩
        refine ⟨?_, ?_, ?_⟩
        · rw [size_eq_entries hwf4, size_eq_entries hwf, hperm.length_eq, List.length_cons,
            hent3, ← hperm1.length_eq]
          exact hlen
        · intro hPrim
          exact (hdisj1 (List.mem_map_of_mem _ hPrim) (List.mem_map_of_mem _ hR)).elim
        · intro hReh
          rw [hf]
          rfl

lemma skipEmpty_stop {slots : List (List HTEntry)} {cap idx : Nat} (fuel : Nat)
    (h : (slots.getD idx []).isEmpty = false) :
    skipEmpty slots cap fuel idx = idx := by
  cases fuel with
  | zero => rfl
  | succ f =>
    simp only [skipEmpty]
    rw [if_neg]
    intro hc
    rw [hc.2] at h
    exact Bool.noConfusion h

/-- One migration step on a singleton front chain, with at least one more
entry further back: it clears exactly slot `rehashIdx`, keeps rehashing in
progress, and advances the cursor by one. -/
lemma migrateOneSlot_step {s : HashTable} (hwf : WF s) (hreh : s.isRehashing = true)
    (hcur : (s.rehash.slots.getD s.rehashIdx []).length = 1)
    (hidxlt : s.rehashIdx < s.rehash.capacity)
    {i : Nat} (hi : s.rehashIdx < i) (hilt : i < s.rehash.capacity)
    {e : HTEntry} (he : e ∈ s.rehash.slots.getD i []) :
    migrateOneSlot s =
      ⟨migrateChain (s.rehash.slots.getD s.rehashIdx []) s.primary,
        { s.rehash with
            slots := s.rehash.slots.set s.rehashIdx []
            size := s.rehash.size - (s.rehash.slots.getD s.rehashIdx []).length },
        s.isRehashing, s.rehashIdx + 1⟩ := by
  obtain ⟨hpwf, hrwf, hreh0, hcaps, hpre0, hnd⟩ := hwf
  have hrlen : s.rehash.slots.length = s.rehash.capacity := hrwf.1
  have hne : (s.rehash.slots.getD s.rehashIdx []).isEmpty = false := by
    rw [← Bool.not_eq_true, List.isEmpty_iff]
    intro h0
    rw [h0] at hcur
    exact absurd hcur (by simp)
  have hskip : skipEmpty s.rehash.slots s.rehash.capacity s.rehash.capacity s.rehashIdx
      = s.rehashIdx := skipEmpty_stop _ hne
  have hi' : i - (s.rehashIdx + 1) < (s.rehash.slots.drop (s.rehashIdx + 1)).length := by
    rw [List.length_drop]
    omega
  have hgd : (s.rehash.slots.drop (s.rehashIdx + 1)).getD (i - (s.rehashIdx + 1)) [] =
      s.rehash.slots.getD i [] := by
    rw [List.getD_eq_getElem?_getD, List.getD_eq_getElem?_getD, List.getElem?_drop]
    have hieq : s.rehashIdx + 1 + (i - (s.rehashIdx + 1)) = i := by omega
    rw [hieq]
  have hx : (s.rehash.slots.drop (s.rehashIdx + 1)).getD (i - (s.rehashIdx + 1)) [] ∈
      s.rehash.slots.drop (s.rehashIdx + 1) := by
    rw [List.getD_eq_getElem?_getD, List.getElem?_eq_getElem hi']
    exact List.getElem_mem _
  have heB : e ∈ (s.rehash.slots.drop (s.rehashIdx + 1)).flatMap id :=
    List.mem_flatMap.mpr ⟨_, hx, by rw [hgd]; exact he⟩
  have hBlen : 0 < ((s.rehash.slots.drop (s.rehashIdx + 1)).flatMap id).length :=
    List.length_pos.mpr (List.ne_nil_of_mem heB)
  have hparts := flatMap_parts (show s.rehashIdx < s.rehash.slots.length by omega)
  have h2 : 2 ≤ s.rehash.entries.length := by
    rw [show s.rehash.entries = (s.rehash.slots.take s.rehashIdx).flatMap id ++
        s.rehash.slots.getD s.rehashIdx [] ++
        (s.rehash.slots.drop (s.rehashIdx + 1)).flatMap id from hparts]
    rw [List.length_append, List.length_append, hcur]
    omega
  have hsz2 : 2 ≤ s.rehash.size := by
    rw [hrwf.2.2.1]
    exact h2
  simp only [migrateOneSlot, Table.slot]
  rw [hskip]
  rw [if_neg (by omega : ¬ s.rehashIdx ≥ s.rehash.capacity)]
  rw [if_neg (show ¬ s.rehash.size - (s.rehash.slots.getD s.rehashIdx []).length = 0 by
    rw [hcur]
    omega)]

/-- A migration batch of `n` steps over `n` singleton front chains does not
reach a key stored `n` or more slots past the cursor: the key is still in
the old table afterwards. -/
lemma rehashStep_keeps_key (key : ByteStr) : ∀ (n : Nat) (s : HashTable),
    WF s → s.isRehashing = true →
    (∀ j, s.rehashIdx ≤ j → j < s.rehashIdx + n → (s.rehash.slots.getD j []).length = 1) →
    ∀ i, s.rehashIdx + n ≤ i → i < s.rehash.capacity →
    (∃ e ∈ s.rehash.slots.getD i [], e.key = key) →
    key ∈ entryKeys (s.rehashStep n).rehash.entries := by
  intro n
  induction n with
  | zero =>
    intro s hwf hreh hsing i hge hlt hex
    obtain ⟨e, he, hek⟩ := hex
    show key ∈ entryKeys s.rehash.entries
    have hmem : e ∈ s.rehash.entries :=
      mem_entries_iff.mpr ⟨i, by rw [hwf.2.1.1]; exact hlt, he⟩
    rw [← hek]
    exact List.mem_map_of_mem _ hmem
  | succ k ih =>
    intro s hwf hreh hsing i hge hlt hex
    obtain ⟨e, he, hek⟩ := hex
    have hidxlt : s.rehashIdx < s.rehash.capacity := by omega
    have hcur : (s.rehash.slots.getD s.rehashIdx []).length = 1 :=
      hsing s.rehashIdx (le_refl _) (by omega)
    have hstep := migrateOneSlot_step hwf hreh hcur hidxlt
      (show s.rehashIdx < i by omega) hlt he
    have hred : s.rehashStep (k + 1) = (migrateOneSlot s).rehashStep k := by
      simp only [HashTable.rehashStep]
      rw [if_pos hreh]
    rw [hred]
    obtain ⟨hwf1, _⟩ := migrateOneSlot_spec hwf hreh
    refine ih (migrateOneSlot s) hwf1 ?_ ?_ i ?_ ?_ ?_
    · rw [hstep]
      exact hreh
    · intro j hj1 hj2
      have hj1' : s.rehashIdx + 1 ≤ j := by rw [hstep] at hj1; exact hj1
      have hj2' : j < s.rehashIdx + 1 + k := by rw [hstep] at hj2; exact hj2
      rw [hstep]
      show ((s.rehash.slots.set s.rehashIdx []).getD j []).length = 1
      rw [slots_getD_set_ne _ (by omega)]
      exact hsing j (by omega) (by omega)
    · rw [hstep]
      show s.rehashIdx + 1 + k ≤ i
      omega
    · rw [hstep]
      exact hlt
    · rw [hstep]
      show ∃ e' ∈ (s.rehash.slots.set s.rehashIdx []).getD i [], e'.key = key
      rw [slots_getD_set_ne _ (by omega)]
      exact ⟨e, he, hek⟩

/-- `set` on a key that still sits in the old (rehash) table after the
migration batch: the key is re-inserted fresh, so its `expireAt` becomes
`-1`, and the total entry count is unchanged. -/
lemma set_expire_reset_of_in_rehash {s : HashTable} (key : ByteStr) (v : RedisObject)
    (hwf : WF s) (hin : key ∈ entryKeys (rehashWork s).rehash.entries) :
    ((s.set key v).find key).map (fun e => e.expireAt) = some (-1) ∧
    (s.set key v).size = s.size := by
  obtain ⟨hwf1, hperm1⟩ := rehashWork_spec hwf
  obtain ⟨hwf2, hprim2, hreh2, hnor2, hsub2, hsup2, hid2, hlen2⟩ := dropFromOld_spec hwf1
  obtain ⟨hwf3, hent3, hrehash3, hisreh3, hcap3⟩ := lazyAlloc_spec hwf2
  have hnor3 : ∀ e ∈ (lazyAlloc (dropFromOld (rehashWork s) key (fnv1a key))).rehash.entries,
      e.key ≠ key := by
    rw [hrehash3]
    exact hnor2
  obtain ⟨hwf4, hcases⟩ := setTail_spec hwf3 hcap3 hnor3
  have hseteq : s.set key v =
      setTail (lazyAlloc (dropFromOld (rehashWork s) key (fnv1a key))) key (fnv1a key) v :=
    rfl
  rw [hseteq]
  obtain ⟨hndp1, hndr1, hdisj1⟩ := nodup_split hwf1.2.2.2.2.2
  have hlen := hlen2 hin
  have hnokey3 : ∀ e' ∈ entriesOf (lazyAlloc (dropFromOld (rehashWork s) key (fnv1a key))),
      e'.key ≠ key := by
    intro e' he'
    rw [hent3] at he'
    rcases List.mem_append.mp (show e' ∈
        (dropFromOld (rehashWork s) key (fnv1a key)).primary.entries ++
        (dropFromOld (rehashWork s) key (fnv1a key)).rehash.entries from he') with h1 | h2
    · rw [hprim2] at h1
      intro hk
      exact @hdisj1 key (by rw [← hk]; exact List.mem_map_of_mem _ h1) hin
    · exact hnor2 e' h2
  rcases hcases with ⟨A, B, m, hmk, hdec, hdec2⟩ | ⟨hnone, hperm⟩
  · have hm3 : m ∈ entriesOf (lazyAlloc (dropFromOld (rehashWork s) key (fnv1a key))) := by
      rw [hdec]
      exact List.mem_append.mpr (Or.inr (List.mem_cons_self _ _))
    exact absurd hmk (hnokey3 m hm3)
  · have hmemN : (⟨key, v, fnv1a key, -1⟩ : HTEntry) ∈
        entriesOf (setTail (lazyAlloc (dropFromOld (rehashWork s) key (fnv1a key)))
          key (fnv1a key) v) :=
      hperm.mem_iff.mpr (List.mem_cons_self _ _)
    have hf := (find_some_iff hwf4).mpr ⟨hmemN, rfl⟩
    constructor
    · rw [hf]
      rfl
    · rw [size_eq_entries hwf4, size_eq_entries hwf, hperm.length_eq, List.length_cons,
        hent3, ← hperm1.length_eq]
      exact hlen

/-- 128 two-byte keys whose FNV-1a hash lands on slots 0..127 of a
capacity-256 table (the key at index `i` hashes to slot `i`). -/
def c3Fillers : List ByteStr :=
  [[0, 223], [0, 164], [0, 41], [0, 174], [0, 51], [0, 184], [0, 61], [0, 130], [0, 7],
   [0, 140], [0, 17], [0, 150], [0, 27], [0, 224], [0, 101], [0, 234], [0, 111], [0, 244],
   [0, 121], [0, 254], [0, 67], [0, 200], [0, 77], [0, 210], [0, 87], [0, 220], [0, 161],
   [0, 38], [0, 171], [0, 48], [0, 181], [0, 58], [0, 191], [0, 4], [0, 137], [0, 14],
   [0, 147], [0, 24], [0, 157], [0, 98], [0, 231], [0, 108], [0, 241], [0, 118], [0, 251],
   [0, 64], [0, 197], [0, 74], [0, 207], [0, 84], [0, 217], [0, 94], [0, 35], [0, 168],
   [0, 45], [0, 178], [0, 55], [0, 188], [0, 1], [0, 134], [0, 11], [0, 144], [0, 21],
   [0, 154], [0, 31], [0, 228], [0, 105], [0, 238], [0, 115], [0, 248], [0, 125], [0, 194],
   [0, 71], [0, 204], [0, 81], [0, 214], [0, 91], [0, 32], [0, 165], [0, 42], [0, 175],
   [0, 52], [0, 185], [0, 62], [0, 131], [0, 8], [0, 141], [0, 18], [0, 151], [0, 28],
   [0, 225], [0, 102], [0, 235], [0, 112], [0, 245], [0, 122], [0, 255], [0, 68], [0, 201],
   [0, 78], [0, 211], [0, 88], [0, 221], [0, 162], [0, 39], [0, 172], [0, 49], [0, 182],
   [0, 59], [0, 128], [0, 5], [0, 138], [0, 15], [0, 148], [0, 25], [0, 158], [0, 99],
   [0, 232], [0, 109], [0, 242], [0, 119], [0, 252], [0, 65], [0, 198], [0, 75], [0, 208],
   [0, 85], [0, 218]]

/-- A key whose FNV-1a hash lands on slot 255 of a capacity-256 table. -/
def c3Key : ByteStr := [0, 90]

def c3Val : RedisObject := RedisObject.createString [7]

/-- A plain entry for `key` with no TTL, hashed as the table stores it. -/
def c3Entry (k : ByteStr) : HTEntry := ⟨k, RedisObject.createString [], fnv1a k, -1⟩

/-- An old (rehash) table of capacity 256: singleton chains on slots 0..127,
and on slot 255 the key of interest carrying `expireAt = 1000`. -/
def c3Rehash : Table :=
  ⟨(List.range 256).map (fun i =>
      if i < 128 then [c3Entry (c3Fillers.getD i [])]
      else if i = 255 then [⟨c3Key, RedisObject.createString [], fnv1a c3Key, 1000⟩]
      else []),
    256, 255, 129⟩

/-- A well-formed dictionary caught in the middle of incremental rehashing:
128 not-yet-migrated chains sit in front of the slot of the key of interest,
so the 128-slot migration batch that `set` runs first does not reach it. -/
def c3State : HashTable := ⟨allocTable 512, c3Rehash, true, 0⟩

set_option maxRecDepth 8000 in
set_option maxHeartbeats 4000000 in
/-- C3: counterexample to the claimed `expireAt` preservation on overwrite.
`c3State` is well-formed and holds `c3Key` with `expireAt = 1000` (in the old
table, mid-rehash, 128 not-yet-migrated chains in front of its slot);
`set c3Key c3Val` runs its migration batch without reaching the key, then
deletes the key's entry from the old table and re-inserts a fresh one, so
afterwards the key's entry has `expireAt = -1`, not `1000` — even though, as
claimed, `size()` is unchanged. -/
theorem set_overwrite_expire_cex :
    WF c3State ∧
    (∃ e ∈ entriesOf c3State, e.key = c3Key ∧ e.expireAt = 1000) ∧
    ((c3State.set c3Key c3Val).find c3Key).map (fun e => e.expireAt) = some (-1) ∧
    (c3State.set c3Key c3Val).size = c3State.size := by
  have hwf : WF c3State := by decide
  have hreh : c3State.isRehashing = true := rfl
  have hsing : ∀ j, c3State.rehashIdx ≤ j → j < c3State.rehashIdx + kRehashBatchSize →
      (c3State.rehash.slots.getD j []).length = 1 := by decide
  have hkeyslot : ∃ e ∈ c3State.rehash.slots.getD 255 [], e.key = c3Key := by decide
  have hinR := rehashStep_keeps_key c3Key kRehashBatchSize c3State hwf hreh hsing
    255 (by decide) (by decide) hkeyslot
  have hrw : rehashWork c3State = c3State.rehashStep kRehashBatchSize := by
    unfold rehashWork
    rw [if_pos hreh]
  have hin : c3Key ∈ entryKeys (rehashWork c3State).rehash.entries := by
    rw [hrw]
    exact hinR
  obtain ⟨hfind, hsize⟩ := set_expire_reset_of_in_rehash c3Key c3Val hwf hin
  exact ⟨hwf, by decide, hfind, hsize⟩

theorem set_overwrite_amended_witness :
    WF HashTable.empty ∧
    (WF (HashTable.empty.set [1] c3Val) ∧
      ((HashTable.empty.set [1] c3Val).find [1]).map (fun e => e.value) = some c3Val ∧
      ((∀ e ∈ entriesOf HashTable.empty, e.key ≠ [1]) →
        ((HashTable.empty.set [1] c3Val).find [1]).map (fun e => e.expireAt) = some (-1) ∧
        (HashTable.empty.set [1] c3Val).size = HashTable.empty.size + 1) ∧
      (∀ e ∈ entriesOf HashTable.empty, e.key = [1] →
        (HashTable.empty.set [1] c3Val).size = HashTable.empty.size ∧
        (e ∈ (rehashWork HashTable.empty).primary.entries →
          ((HashTable.empty.set [1] c3Val).find [1]).map (fun x => x.expireAt) =
            some e.expireAt) ∧
        (e ∈ (rehashWork HashTable.empty).rehash.entries →
          ((HashTable.empty.set [1] c3Val).find [1]).map (fun x => x.expireAt) =
            some (-1)))) :=
  ⟨by decide, set_overwrite_amended [1] c3Val (by decide)⟩

end HashTable

/-- C6: `Database::get` (the spec's `get_string`) on a well-formed database:
when no entry has the key it returns nothing and leaves the TTL index
untouched; when the key's entry is expired (deadline set and reached) it
returns nothing after removing the key from both the dictionary and the TTL
index; otherwise it returns the stored value's string view.  The non-STRING
clause of the claim is vacuous in this program: `RType` has only `STRING`,
so every stored value is of STRING type (first conjunct). -/
theorem database_get_spec {db : Database} (now : Int) (key : ByteStr)
    (hwf : HashTable.WF db.table) (hinv : TTLHeap.Inv db.ttlHeap) :
    (∀ v : RedisObject, v.type = RType.STRING) ∧
    ((∀ e ∈ HashTable.entriesOf db.table, e.key ≠ key) →
      (db.get now key).1 = none ∧ (db.get now key).2.ttlHeap = db.ttlHeap) ∧
    (∀ e ∈ HashTable.entriesOf db.table, e.key = key → Database.expired now e →
      (db.get now key).1 = none ∧
      (db.get now key).2.table.find key = none ∧
      AList.lookup (db.get now key).2.ttlHeap.map key = none) ∧
    (∀ e ∈ HashTable.entriesOf db.table, e.key = key → ¬ Database.expired now e →
      (db.get now key).1 = some e.value.asString ∧
      (db.get now key).2.ttlHeap = db.ttlHeap) := by
  obtain ⟨hwf1, hperm1⟩ := HashTable.rehashStep_spec HashTable.kRehashBatchSize hwf
  refine ⟨?_, ?_, ?_, ?_⟩
  · intro v
    cases v.type
    rfl
  · intro hall
    have hfind : (db.table.rehashStep HashTable.kRehashBatchSize).find key = none := by
      rw [HashTable.find_none_iff hwf1]
      intro e he
      exact hall e (hperm1.subset he)
    have hgeq : db.get now key =
        (none, { db with table := db.table.rehashStep HashTable.kRehashBatchSize }) := by
      simp [Database.get, hfind]
    rw [hgeq]
    exact ⟨rfl, rfl⟩
  · intro e he hek hexp
    have hfind : (db.table.rehashStep HashTable.kRehashBatchSize).find key = some e :=
      (HashTable.find_some_iff hwf1).mpr ⟨hperm1.symm.subset he, hek⟩
    have hgeq : db.get now key =
        (none, ⟨((db.table.rehashStep HashTable.kRehashBatchSize).del key).1,
          db.ttlHeap.remove key⟩) := by
      simp only [Database.get, hfind]
      rw [if_pos hexp]
    obtain ⟨hwfd, hsubd, hsupd⟩ := HashTable.del_spec key hwf1
    refine ⟨by rw [hgeq], ?_, ?_⟩
    · rw [hgeq]
      show ((db.table.rehashStep HashTable.kRehashBatchSize).del key).1.find key = none
      rw [HashTable.find_none_iff hwfd]
      intro e' he'
      exact (hsubd e' he').2
    · rw [hgeq]
      exact TTLHeap.remove_lookup_none key hinv
  · intro e he hek hexp
    have hfind : (db.table.rehashStep HashTable.kRehashBatchSize).find key = some e :=
      (HashTable.find_some_iff hwf1).mpr ⟨hperm1.symm.subset he, hek⟩
    have hgeq : db.get now key =
        (some e.value.asString,
          { db with table := db.table.rehashStep HashTable.kRehashBatchSize }) := by
      simp only [Database.get, hfind]
      rw [if_neg hexp]
    rw [hgeq]
    exact ⟨rfl, rfl⟩

theorem database_get_spec_witness :
    HashTable.WF Database.empty.table ∧ TTLHeap.Inv Database.empty.ttlHeap ∧
    ((∀ v : RedisObject, v.type = RType.STRING) ∧
      ((∀ e ∈ HashTable.entriesOf Database.empty.table, e.key ≠ [1]) →
        (Database.empty.get 0 [1]).1 = none ∧
        (Database.empty.get 0 [1]).2.ttlHeap = Database.empty.ttlHeap) ∧
      (∀ e ∈ HashTable.entriesOf Database.empty.table, e.key = [1] →
        Database.expired 0 e →
        (Database.empty.get 0 [1]).1 = none ∧
        (Database.empty.get 0 [1]).2.table.find [1] = none ∧
        AList.lookup (Database.empty.get 0 [1]).2.ttlHeap.map [1] = none) ∧
      (∀ e ∈ HashTable.entriesOf Database.empty.table, e.key = [1] →
        ¬ Database.expired 0 e →
        (Database.empty.get 0 [1]).1 = some e.value.asString ∧
        (Database.empty.get 0 [1]).2.ttlHeap = Database.empty.ttlHeap)) :=
  ⟨by decide, TTLHeap.inv_empty,
    database_get_spec 0 [1] (by decide) TTLHeap.inv_empty⟩

end SimpleRedis